import Mathlib

/-!
# Adaptive LMS instantaneous-frequency estimator (func_src/lms.c)

A shallow embedding of the routine `lms` and the properties of it that the
specification states.

Number model.  The C type `double` is interpreted in a type `α` that carries
the arithmetic the routine uses (`+ - * /`, the test `< 0`, the literals `0`
and `2.`).  The library function `atan` of `<math.h>` and the value denoted by
the macro `TFSA_PI` (3.14159265358979323846, the decimal expansion of π to 21
significant digits) are supplied by the number model as parameters:

* `α := ℝ`, `atan := Real.arctan`, `TFSA_PI := Real.pi` is the real-arithmetic
  reading used by the functional properties;
* `α := double β` (below) adds the IEEE-754 special values (signed zero, the
  infinities and not-a-number) to exact arithmetic on `β`, and is used where a
  division by zero is the point of the property;
* `α := binary64 β` (below) is the arithmetic of the target: every operation
  is rounded to the nearest binary64 number, ties to even, with gradual
  underflow and overflow to an infinity. It is used where rounding, underflow
  or overflow decides the property (the range of the stored value, the
  coefficient after a degenerate step); `TFSA_PI` is then the binary64 value
  of the macro and `atan` any library function with results in
  `[-TFSA_PI/2, TFSA_PI/2]`.

Pointers (`double *`, `complex *`) are total maps from a natural index to a
value; `int` is `Int` (the only `int` arithmetic of the routine that could wrap
is `signal_length-1` at `signal_length = INT_MIN`).
-/

/-- The complex data type of `arithm.h`: a pair of doubles `re`, `im`
(specification §3, "Complex sample"). -/
@[ext]
structure complex (α : Type) where
  re : α
  im : α
deriving DecidableEq

section Program

variable {α : Type} [Add α] [Sub α] [Mul α] [Div α] [LT α]
  [DecidableRel (LT.lt : α → α → Prop)] [OfNat α 0] [OfNat α 2]

/-- The copy loop of the real-only branch (lms.c lines 103-107), `cnt`
iterations starting at index `i`:
`sig[i].re = signal_real[i]; sig[i].im = 0.0;`. -/
def copy_real (signal_real : Nat → α) : Nat → Nat → (Nat → complex α) → (Nat → complex α)
  | _, 0, sig => sig
  | i, cnt + 1, sig =>
      copy_real signal_real (i + 1) cnt (Function.update sig i ⟨signal_real i, 0⟩)

/-- The copy loop of the complex branch (lms.c lines 113-117), `cnt` iterations
starting at index `i`:
`sig[i].re = signal_real[i]; sig[i].im = signal_imag[i];`. -/
def copy_complex (signal_real signal_imag : Nat → α) :
    Nat → Nat → (Nat → complex α) → (Nat → complex α)
  | _, 0, sig => sig
  | i, cnt + 1, sig =>
      copy_complex signal_real signal_imag (i + 1) cnt
        (Function.update sig i ⟨signal_real i, signal_imag i⟩)

/-- The body of the main loop at index `n` (lms.c lines 131-143), acting on the
pair (`pre_coeff`, `result`). -/
def lms_body (atan : α → α) (TFSA_PI : α) (sig : Nat → complex α) (mu : α) (n : Nat)
    (st : complex α × (Nat → α)) : complex α × (Nat → α) :=
  let pre_coeff := st.1
  let result := st.2
  let error_re := pre_coeff.re * (sig n).re - pre_coeff.im * (sig n).im + (sig (n + 1)).re
  let error_im := pre_coeff.re * (sig n).im + pre_coeff.im * (sig n).re + (sig (n + 1)).im
  let pre_coeff_re := pre_coeff.re - 2 * mu * (error_re * (sig n).re + error_im * (sig n).im)
  let pre_coeff_im := pre_coeff.im - 2 * mu * (error_im * (sig n).re - error_re * (sig n).im)
  let IFE := atan (pre_coeff_im / pre_coeff_re)
  let IFE := if IFE < 0 then IFE + TFSA_PI else IFE
  (⟨pre_coeff_re, pre_coeff_im⟩, Function.update result (n + 1) (IFE / (2 * TFSA_PI)))

/-- The main loop `for (n=0; n<signal_length-1; n++)` (lms.c line 122): `cnt`
iterations of the body starting at index `n`. -/
def lms_loop (atan : α → α) (TFSA_PI : α) (sig : Nat → complex α) (mu : α) :
    Nat → Nat → complex α × (Nat → α) → complex α × (Nat → α)
  | _, 0, st => st
  | n, cnt + 1, st => lms_loop atan TFSA_PI sig mu (n + 1) cnt (lms_body atan TFSA_PI sig mu n st)

/-- The complex working array after the read-in phase (lms.c lines 100-117).
`sig0` is the block returned by the allocator; `default_sigana` is the analytic
signal generator of `analyt.h`, which is not part of this file. -/
def lms_read (default_sigana : (Nat → complex α) → Int → (Nat → complex α))
    (sig0 : Nat → complex α) (signal_real : Nat → α) (signal_imag : Option (Nat → α))
    (signal_length : Int) : Nat → complex α :=
  match signal_imag with
  | none => default_sigana (copy_real signal_real 0 signal_length.toNat sig0) signal_length
  | some im => copy_complex signal_real im 0 signal_length.toNat sig0

/-- The state (`pre_coeff`, `result`) when the main loop of `lms` exits, for a
working array `sig` (lms.c lines 120-144). -/
def lms_run (atan : α → α) (TFSA_PI : α) (sig : Nat → complex α) (signal_length : Int)
    (result : Nat → α) (mu : α) : complex α × (Nat → α) :=
  lms_loop atan TFSA_PI sig mu 0 (signal_length - 1).toNat (sig 0, result)

/-- The routine `lms` (lms.c lines 69-161, without the WAITBAR blocks).
`mxCalloc` is the allocator of the host (`none` is the NULL pointer); the
returned pair is the `int` status and the contents of `result` on return. -/
def lms (mxCalloc : Int → Option (Nat → complex α))
    (default_sigana : (Nat → complex α) → Int → (Nat → complex α))
    (atan : α → α) (TFSA_PI : α)
    (signal_real : Nat → α) (signal_imag : Option (Nat → α)) (signal_length : Int)
    (result : Nat → α) (mu : α) : Int × (Nat → α) :=
  match mxCalloc signal_length with
  | none => (1, result)
  | some sig0 =>
      let sig := lms_read default_sigana sig0 signal_real signal_imag signal_length
      (0, (lms_run atan TFSA_PI sig signal_length result mu).2)

/-! ### The quantities of one iteration, named -/

/-- The prediction error of iteration `n` (lms.c lines 131-132). -/
def lms_error (sig : Nat → complex α) (n : Nat) (pre_coeff : complex α) : complex α :=
  ⟨pre_coeff.re * (sig n).re - pre_coeff.im * (sig n).im + (sig (n + 1)).re,
   pre_coeff.re * (sig n).im + pre_coeff.im * (sig n).re + (sig (n + 1)).im⟩

/-- The coefficient after the update of iteration `n` (lms.c lines 135-138). -/
def lms_update (sig : Nat → complex α) (mu : α) (n : Nat) (pre_coeff : complex α) : complex α :=
  ⟨pre_coeff.re - 2 * mu * ((lms_error sig n pre_coeff).re * (sig n).re
      + (lms_error sig n pre_coeff).im * (sig n).im),
   pre_coeff.im - 2 * mu * ((lms_error sig n pre_coeff).im * (sig n).re
      - (lms_error sig n pre_coeff).re * (sig n).im)⟩

/-- The phase `IFE` after the test `if (IFE < 0) IFE += TFSA_PI`
(lms.c lines 140-141). -/
def lms_phase (atan : α → α) (TFSA_PI : α) (c : complex α) : α :=
  if atan (c.im / c.re) < 0 then atan (c.im / c.re) + TFSA_PI else atan (c.im / c.re)

/-- The value stored in `result` for the updated coefficient `c`
(lms.c lines 140-143). -/
def lms_IFE (atan : α → α) (TFSA_PI : α) (c : complex α) : α :=
  lms_phase atan TFSA_PI c / (2 * TFSA_PI)

/-- The coefficient `pre_coeff` after `k` iterations of the main loop. -/
def lms_coeff (sig : Nat → complex α) (mu : α) : Nat → complex α
  | 0 => sig 0
  | k + 1 => lms_update sig mu k (lms_coeff sig mu k)

end Program

/-! ### The IEEE-754 special values

`double β` is the number model in which a division by zero behaves as it does
on the target (C Annex F): finite values are computed exactly in the ordered
field `β` (no rounding, no overflow), and signed zero, the two infinities and
not-a-number follow the IEEE-754 rules. -/

/-- A double: a finite value (`fin 0` is `+0`), negative zero, `+∞`, `-∞` or
not-a-number. -/
inductive double (β : Type) where
  | fin (x : β)
  | nzero
  | pinf
  | ninf
  | nan
deriving DecidableEq

namespace double

variable {β : Type} [LinearOrderedField β]

/-- The numeric value of a finite double (`0` for the others). -/
def val : double β → β
  | fin x => x
  | _ => 0

/-- The sign bit. -/
def sign : double β → Bool
  | fin x => decide (x < 0)
  | nzero => true
  | pinf => false
  | ninf => true
  | nan => false

/-- Whether the double is finite (`±0` included). -/
def isFin : double β → Bool
  | fin _ => true
  | nzero => true
  | _ => false

/-- Whether the double is `+0` or `-0`. -/
def isZero : double β → Bool
  | fin x => decide (x = 0)
  | nzero => true
  | _ => false

/-- Whether the double is `+∞` or `-∞`. -/
def isInf : double β → Bool
  | pinf => true
  | ninf => true
  | _ => false

/-- Whether the double is not-a-number. -/
def isNaN : double β → Bool
  | nan => true
  | _ => false

/-- The zero with sign bit `s`. -/
def signedZero (s : Bool) : double β := if s then nzero else fin 0

/-- The infinity with sign bit `s`. -/
def signedInf (s : Bool) : double β := if s then ninf else pinf

/-- IEEE-754 negation. -/
def neg : double β → double β
  | fin x => if x = 0 then nzero else fin (-x)
  | nzero => fin 0
  | pinf => ninf
  | ninf => pinf
  | nan => nan

/-- IEEE-754 addition (round to nearest: an exact zero sum is `+0` unless both
operands are `-0`). -/
def add : double β → double β → double β
  | nan, _ => nan
  | _, nan => nan
  | pinf, ninf => nan
  | ninf, pinf => nan
  | pinf, _ => pinf
  | _, pinf => pinf
  | ninf, _ => ninf
  | _, ninf => ninf
  | nzero, nzero => nzero
  | nzero, fin y => fin y
  | fin x, nzero => fin x
  | fin x, fin y => fin (x + y)

/-- IEEE-754 subtraction, `a - b = a + (-b)`. -/
def sub (a b : double β) : double β := add a (neg b)

/-- IEEE-754 multiplication: `0 * ∞` is not-a-number, and the sign of a zero or
infinite product is the exclusive or of the operand signs. -/
def mul (a b : double β) : double β :=
  if a.isNaN || b.isNaN then nan
  else if a.isInf || b.isInf then
    (if a.isZero || b.isZero then nan else signedInf (xor a.sign b.sign))
  else if a.val * b.val = 0 then signedZero (xor a.sign b.sign)
  else fin (a.val * b.val)

/-- IEEE-754 division: `0/0` and `∞/∞` are not-a-number, a non-zero value
divided by a zero is an infinity, and the sign of a zero or infinite quotient
is the exclusive or of the operand signs. -/
def div (a b : double β) : double β :=
  if a.isNaN || b.isNaN then nan
  else if a.isInf then (if b.isInf then nan else signedInf (xor a.sign b.sign))
  else if b.isInf then signedZero (xor a.sign b.sign)
  else if b.isZero then (if a.isZero then nan else signedInf (xor a.sign b.sign))
  else if a.val = 0 then signedZero (xor a.sign b.sign)
  else fin (a.val / b.val)

/-- IEEE-754 comparison `a < b`: false when an operand is not-a-number, and
`-0` equals `+0`. -/
def blt : double β → double β → Bool
  | nan, _ => false
  | _, nan => false
  | _, ninf => false
  | ninf, _ => true
  | pinf, _ => false
  | _, pinf => true
  | a, b => decide (a.val < b.val)

/-- The library function `atan` on doubles: `atanF` on finite values, `-0` for
`-0`, and `±P/2` at `±∞`, where `P` is the value of `TFSA_PI` (the double
nearest to π/2 is exactly half the double `TFSA_PI`). -/
def atan (atanF : β → β) (P : β) : double β → double β
  | fin x => fin (atanF x)
  | nzero => nzero
  | pinf => fin (P / 2)
  | ninf => fin (-(P / 2))
  | nan => nan

instance : Add (double β) := ⟨add⟩
instance : Sub (double β) := ⟨sub⟩
instance : Mul (double β) := ⟨mul⟩
instance : Div (double β) := ⟨div⟩
instance : LT (double β) := ⟨fun a b => blt a b = true⟩
instance : DecidableRel (LT.lt : double β → double β → Prop) :=
  fun a b => inferInstanceAs (Decidable (blt a b = true))
instance : OfNat (double β) 0 := ⟨fin 0⟩
instance : OfNat (double β) 2 := ⟨fin 2⟩

end double

/-! ### binary64 arithmetic

`binary64 β` is the number model with the rounding of the target: a value is a
`double β`, and every arithmetic operation on finite operands returns the exact
result rounded to the nearest binary64 number, ties to even, with gradual
underflow to the subnormals and to zero, and overflow to an infinity. The
special values behave as in `double β`. -/

/-- A binary64 value. -/
structure binary64 (β : Type) where
  d : double β

namespace binary64

variable {β : Type} [LinearOrderedField β] [FloorRing β]

/-- The exponent of the binade of a non-zero `x`: the `e` with
`2^e ≤ |x| < 2^(e+1)`, and `-1022` in the subnormal range. -/
def expo (x : β) : Int := max (Int.log 2 |x|) (-1022)

/-- The spacing of the binary64 numbers in the binade of `x`: `2^(expo x - 52)`. -/
def ulp (x : β) : β := (2 : β) ^ (expo x - 52)

/-- The integer nearest to `t`, ties to the even one. -/
def roundEven (t : β) : Int :=
  if t - ⌊t⌋ < 1 / 2 then ⌊t⌋
  else if 1 / 2 < t - ⌊t⌋ then ⌊t⌋ + 1
  else if ⌊t⌋ % 2 = 0 then ⌊t⌋ else ⌊t⌋ + 1

/-- Round to nearest, ties to even, onto the multiples of `ulp x` (the exponent
range is not yet bounded above). -/
def roundNE (x : β) : β :=
  if x < 0 then -((roundEven (-x / ulp x) : β) * ulp x)
  else (roundEven (x / ulp x) : β) * ulp x

/-- The binary64 result of an operation whose exact result is `x`: an infinity
when the rounded value reaches `2^1024`, a zero with sign bit `s` when it is
zero, the rounded value otherwise. -/
def rnd (s : Bool) (x : β) : double β :=
  if (2 : β) ^ (1024 : Nat) ≤ |roundNE x| then double.signedInf (decide (x < 0))
  else if roundNE x = 0 then double.signedZero s
  else double.fin (roundNE x)

/-- Whether `x` is a finite binary64 number: `m·2^k` with `|m| < 2^53`,
`k ≥ -1074` and `|x| < 2^1024`. -/
def Rep (x : β) : Prop :=
  ∃ m k : Int, x = (m : β) * (2 : β) ^ k ∧ |m| < 2 ^ 53 ∧ -1074 ≤ k ∧
    |x| < (2 : β) ^ (1024 : Nat)

/-- The binary64 sum of two doubles. -/
def addD : double β → double β → double β
  | double.nan, _ => double.nan
  | _, double.nan => double.nan
  | double.pinf, double.ninf => double.nan
  | double.ninf, double.pinf => double.nan
  | double.pinf, _ => double.pinf
  | _, double.pinf => double.pinf
  | double.ninf, _ => double.ninf
  | _, double.ninf => double.ninf
  | double.nzero, double.nzero => double.nzero
  | double.nzero, double.fin y => double.fin y
  | double.fin x, double.nzero => double.fin x
  | double.fin x, double.fin y => rnd (decide (x + y < 0)) (x + y)

/-- The binary64 product of two doubles. -/
def mulD (a b : double β) : double β :=
  if a.isNaN || b.isNaN then double.nan
  else if a.isInf || b.isInf then
    (if a.isZero || b.isZero then double.nan else double.signedInf (xor a.sign b.sign))
  else rnd (xor a.sign b.sign) (a.val * b.val)

/-- The binary64 quotient of two doubles. -/
def divD (a b : double β) : double β :=
  if a.isNaN || b.isNaN then double.nan
  else if a.isInf then
    (if b.isInf then double.nan else double.signedInf (xor a.sign b.sign))
  else if b.isInf then double.signedZero (xor a.sign b.sign)
  else if b.isZero then
    (if a.isZero then double.nan else double.signedInf (xor a.sign b.sign))
  else rnd (xor a.sign b.sign) (a.val / b.val)

/-- The library function `atan` on binary64 values: `atanF x` is the binary64
number the library returns for the finite argument `x`. -/
def atan (atanF : β → β) (P : β) (a : binary64 β) : binary64 β :=
  ⟨double.atan atanF P a.d⟩

/-- The binary64 value of the macro `TFSA_PI` (3.14159265358979323846 rounded to
nearest): `0x400921FB54442D18 = 884279719003555 · 2^-48`. -/
def PI : β := 884279719003555 / 2 ^ 48

/-- A library `atan` that returns the correctly rounded value of the real
arctangent. -/
noncomputable def atanCR (x : ℝ) : ℝ := roundNE (Real.arctan x)

instance : Add (binary64 β) := ⟨fun a b => ⟨addD a.d b.d⟩⟩
instance : Sub (binary64 β) := ⟨fun a b => ⟨addD a.d (double.neg b.d)⟩⟩
instance : Mul (binary64 β) := ⟨fun a b => ⟨mulD a.d b.d⟩⟩
instance : Div (binary64 β) := ⟨fun a b => ⟨divD a.d b.d⟩⟩
instance : LT (binary64 β) := ⟨fun a b => double.blt a.d b.d = true⟩
instance : DecidableRel (LT.lt : binary64 β → binary64 β → Prop) :=
  fun a b => inferInstanceAs (Decidable (double.blt a.d b.d = true))
instance : OfNat (binary64 β) 0 := ⟨⟨double.fin 0⟩⟩
instance : OfNat (binary64 β) 2 := ⟨⟨double.fin 2⟩⟩

end binary64

/-! ### The specification's formulas, in standard complex arithmetic -/

/-- The coefficient sequence as the specification writes it (§4.1, steps 1-3):
`c_0 = sample[0]`, `e_j = c_j × sample[j] + sample[j+1]`,
`c_(j+1) = c_j − 2·mu·(e_j × conjugate(sample[j]))`. -/
noncomputable def spec_coeff (sample : ℕ → ℂ) (mu : ℝ) : ℕ → ℂ
  | 0 => sample 0
  | j + 1 =>
      spec_coeff sample mu j
        - 2 * (mu : ℂ) * ((spec_coeff sample mu j * sample j + sample (j + 1))
            * (starRingEnd ℂ) (sample j))

/-- The frequency estimate as the specification writes it (§4.1, step 4):
`phase = atan(c.im / c.re)`, plus π when negative, divided by 2π. -/
noncomputable def spec_IFE (c : ℂ) : ℝ :=
  (if 0 ≤ Real.arctan (c.im / c.re) then Real.arctan (c.im / c.re)
    else Real.arctan (c.im / c.re) + Real.pi) / (2 * Real.pi)

/-- The cost the specification names (§4.1, step 3): the squared magnitude of
the prediction error as a function of the coefficient `a + i·b`, for the
samples `s = sample[n]` and `s2 = sample[n+1]`:
`J(a, b) = |(a + i·b)·s + s2|²`. -/
noncomputable def spec_J (s s2 : ℂ) (a b : ℝ) : ℝ :=
  Complex.normSq ((⟨a, b⟩ : ℂ) * s + s2)

/-! ### Concrete inputs used to evaluate the routine -/

/-- A buffer holding `a` at index 0 and `b` at every other index. -/
def buf2 {α : Type} (a b : α) : Nat → α := fun n => if n = 0 then a else b

/-- An allocator that always succeeds and returns a zero-filled block, as
`mxCalloc` does when memory is available. -/
def calloc_zero {α : Type} [OfNat α 0] : Int → Option (Nat → complex α) :=
  fun _ => some (fun _ => ⟨0, 0⟩)

/-- An allocator that always fails (returns NULL). -/
def calloc_fail {α : Type} : Int → Option (Nat → complex α) := fun _ => none

/-- A stand-in for the analytic signal generator that leaves the array as it is;
it is not reached when the imaginary part is supplied. -/
def sigana_id {α : Type} : (Nat → complex α) → Int → (Nat → complex α) := fun sig _ => sig

section CopyLemmas

variable {α : Type}

theorem copy_complex_apply (signal_real signal_imag : Nat → α) (cnt i : Nat)
    (sig : Nat → complex α) (j : Nat) :
    copy_complex signal_real signal_imag i cnt sig j =
      if i ≤ j ∧ j < i + cnt then ⟨signal_real j, signal_imag j⟩ else sig j := by
  induction cnt generalizing i sig with
  | zero =>
    have h : ¬ (i ≤ j ∧ j < i + 0) := by omega
    rw [copy_complex, if_neg h]
  | succ cnt ih =>
    rw [copy_complex, ih]
    by_cases h1 : i + 1 ≤ j ∧ j < i + 1 + cnt
    · have h2 : i ≤ j ∧ j < i + (cnt + 1) := by omega
      simp [h1, h2]
    · by_cases h3 : j = i
      · subst h3
        simp
      · have h2 : ¬ (i ≤ j ∧ j < i + (cnt + 1)) := by omega
        simp [h1, h2, Function.update_noteq h3]

theorem copy_real_apply [OfNat α 0] (signal_real : Nat → α) (cnt i : Nat)
    (sig : Nat → complex α) (j : Nat) :
    copy_real signal_real i cnt sig j =
      if i ≤ j ∧ j < i + cnt then ⟨signal_real j, 0⟩ else sig j := by
  induction cnt generalizing i sig with
  | zero =>
    have h : ¬ (i ≤ j ∧ j < i + 0) := by omega
    rw [copy_real, if_neg h]
  | succ cnt ih =>
    rw [copy_real, ih]
    by_cases h1 : i + 1 ≤ j ∧ j < i + 1 + cnt
    · have h2 : i ≤ j ∧ j < i + (cnt + 1) := by omega
      simp [h1, h2]
    · by_cases h3 : j = i
      · subst h3
        simp
      · have h2 : ¬ (i ≤ j ∧ j < i + (cnt + 1)) := by omega
        simp [h1, h2, Function.update_noteq h3]

end CopyLemmas

section CoeffLemmas

variable {α : Type} [Add α] [Sub α] [Mul α] [OfNat α 2]

/-- The coefficient of step `k` depends on the samples `0..k` only. -/
theorem lms_coeff_congr (sig sig2 : Nat → complex α) (mu : α) (k : Nat)
    (h : ∀ j, j ≤ k → sig j = sig2 j) : lms_coeff sig mu k = lms_coeff sig2 mu k := by
  induction k with
  | zero => exact h 0 (Nat.le_refl 0)
  | succ k ih =>
    have ih2 := ih (fun j hj => h j (Nat.le_succ_of_le hj))
    simp only [lms_coeff, lms_update, lms_error, ih2, h k (Nat.le_succ k),
      h (k + 1) (Nat.le_refl _)]

end CoeffLemmas

section ProgramLemmas

variable {α : Type} [Add α] [Sub α] [Mul α] [Div α] [LT α]
  [DecidableRel (LT.lt : α → α → Prop)] [OfNat α 0] [OfNat α 2]

theorem lms_body_eq (atan : α → α) (TFSA_PI : α) (sig : Nat → complex α) (mu : α) (n : Nat)
    (st : complex α × (Nat → α)) :
    lms_body atan TFSA_PI sig mu n st =
      (lms_update sig mu n st.1,
        Function.update st.2 (n + 1) (lms_IFE atan TFSA_PI (lms_update sig mu n st.1))) := rfl

/-- The state after `cnt` iterations of the main loop started at index `n` with
the coefficient of step `n`: the coefficient of step `n + cnt`, and a buffer
that holds the estimate of step `i` at every index `n < i ≤ n + cnt` and is
unchanged elsewhere. -/
theorem lms_loop_spec (atan : α → α) (TFSA_PI : α) (sig : Nat → complex α) (mu : α)
    (cnt n : Nat) (result : Nat → α) :
    lms_loop atan TFSA_PI sig mu n cnt (lms_coeff sig mu n, result) =
      (lms_coeff sig mu (n + cnt),
        fun i => if n < i ∧ i ≤ n + cnt then lms_IFE atan TFSA_PI (lms_coeff sig mu i)
          else result i) := by
  induction cnt generalizing n result with
  | zero =>
    simp only [lms_loop, Nat.add_zero]
    congr 1
    funext i
    have : ¬ (n < i ∧ i ≤ n) := by omega
    simp [this]
  | succ cnt ih =>
    rw [lms_loop, lms_body_eq]
    have hc : lms_update sig mu n (lms_coeff sig mu n) = lms_coeff sig mu (n + 1) := rfl
    simp only [hc]
    rw [ih]
    have e : n + 1 + cnt = n + (cnt + 1) := by omega
    rw [e]
    congr 1
    funext i
    by_cases h1 : n + 1 < i ∧ i ≤ n + (cnt + 1)
    · have h2 : n < i ∧ i ≤ n + (cnt + 1) := by omega
      simp [h1, h2]
    · by_cases h3 : i = n + 1
      · subst h3
        have h2 : n < n + 1 ∧ n + 1 ≤ n + (cnt + 1) := by omega
        simp [h2]
      · have h2 : ¬ (n < i ∧ i ≤ n + (cnt + 1)) := by omega
        simp [h1, h2, Function.update_noteq h3]

/-- The state at loop exit: the coefficient of step `signal_length - 1`, and a
buffer holding the estimate of step `i` at every index `1 ≤ i ≤ signal_length-1`
and unchanged elsewhere. -/
theorem lms_run_spec (atan : α → α) (TFSA_PI : α) (sig : Nat → complex α) (signal_length : Int)
    (result : Nat → α) (mu : α) :
    lms_run atan TFSA_PI sig signal_length result mu =
      (lms_coeff sig mu (signal_length - 1).toNat,
        fun i => if 0 < i ∧ i ≤ (signal_length - 1).toNat
          then lms_IFE atan TFSA_PI (lms_coeff sig mu i) else result i) := by
  have h := lms_loop_spec atan TFSA_PI sig mu (signal_length - 1).toNat 0 result
  simp only [Nat.zero_add] at h
  exact h

/-- The result buffer on return for a call with both parts supplied: index `k`
with `1 ≤ k ≤ signal_length - 1` holds the estimate computed from the
coefficient of step `k` of the input signal. -/
theorem lms_complex_result (mxCalloc : Int → Option (Nat → complex α))
    (default_sigana : (Nat → complex α) → Int → (Nat → complex α))
    (atan : α → α) (TFSA_PI : α) (signal_real signal_imag : Nat → α) (signal_length : Int)
    (result : Nat → α) (mu : α) (sig0 : Nat → complex α)
    (halloc : mxCalloc signal_length = some sig0) (k : Nat) (h1 : 1 ≤ k)
    (h2 : (k : Int) ≤ signal_length - 1) :
    (lms mxCalloc default_sigana atan TFSA_PI signal_real (some signal_imag) signal_length
        result mu).2 k =
      lms_IFE atan TFSA_PI
        (lms_coeff (fun n => ⟨signal_real n, signal_imag n⟩) mu k) := by
  have hk : 0 < k ∧ k ≤ (signal_length - 1).toNat := by omega
  simp only [lms, halloc, lms_run_spec, lms_read, if_pos hk]
  congr 1
  apply lms_coeff_congr
  intro j hj
  have hj2 : 0 ≤ j ∧ j < 0 + signal_length.toNat := by omega
  rw [copy_complex_apply, if_pos hj2]

/-- Outside the indices `1..signal_length-1` the result buffer is unchanged. -/
theorem lms_frame (mxCalloc : Int → Option (Nat → complex α))
    (default_sigana : (Nat → complex α) → Int → (Nat → complex α))
    (atan : α → α) (TFSA_PI : α) (signal_real : Nat → α) (signal_imag : Option (Nat → α))
    (signal_length : Int) (result : Nat → α) (mu : α) (i : Nat)
    (hi : i = 0 ∨ signal_length - 1 < (i : Int)) :
    (lms mxCalloc default_sigana atan TFSA_PI signal_real signal_imag signal_length
        result mu).2 i = result i := by
  have hk : ¬ (0 < i ∧ i ≤ (signal_length - 1).toNat) := by omega
  unfold lms
  cases mxCalloc signal_length with
  | none => rfl
  | some sig0 => simp only [lms_run_spec, if_neg hk]

end ProgramLemmas

/-! ### Real arithmetic: the code against the complex formulas -/

/-- The code's real/imaginary expansion of the update computes the coefficient
sequence of the complex formula. -/
theorem lms_coeff_eq_spec (sr si : ℕ → ℝ) (mu : ℝ) (k : ℕ) :
    (⟨(lms_coeff (fun n => ⟨sr n, si n⟩) mu k).re,
      (lms_coeff (fun n => ⟨sr n, si n⟩) mu k).im⟩ : ℂ)
      = spec_coeff (fun n => ⟨sr n, si n⟩) mu k := by
  induction k with
  | zero => rfl
  | succ k ih =>
    rw [spec_coeff, ← ih]
    apply Complex.ext
    · simp only [lms_coeff, lms_update, lms_error, Complex.sub_re, Complex.mul_re,
        Complex.add_re, Complex.conj_re, Complex.conj_im, Complex.ofReal_re, Complex.ofReal_im,
        Complex.re_ofNat, Complex.im_ofNat, Complex.mul_im, Complex.add_im]
      ring
    · simp only [lms_coeff, lms_update, lms_error, Complex.sub_im, Complex.mul_re,
        Complex.add_re, Complex.conj_re, Complex.conj_im, Complex.ofReal_re, Complex.ofReal_im,
        Complex.re_ofNat, Complex.im_ofNat, Complex.mul_im, Complex.add_im]
      ring

/-- The stored estimate is the specification's `atan`-plus-offset formula. -/
theorem lms_IFE_eq_spec (c : complex ℝ) :
    lms_IFE Real.arctan Real.pi c = spec_IFE ⟨c.re, c.im⟩ := by
  unfold lms_IFE lms_phase spec_IFE
  by_cases h : Real.arctan (c.im / c.re) < 0
  · rw [if_pos h, if_neg (not_le.mpr h)]
  · rw [if_neg h, if_pos (not_lt.mp h)]

/-- C1. For a signal of N ≥ 1 complex samples with both parts supplied and any
step size, the coefficient at loop exit is the coefficient `c_(N-1)` of the
complex recurrence `c_0 = sample[0]`,
`c_(j+1) = c_j - 2·mu·((c_j·sample[j] + sample[j+1])·conj(sample[j]))`, and at
every index k in 1..N-1 at which `c_k.re ≠ 0` the routine stores `F(c_k)`, the
`atan` of `c_k.im / c_k.re`, plus π when negative, divided by 2π. -/
theorem lms_computes_spec_estimate (mxCalloc : Int → Option (Nat → complex ℝ))
    (default_sigana : (Nat → complex ℝ) → Int → (Nat → complex ℝ))
    (signal_real signal_imag : ℕ → ℝ) (signal_length : Int) (result : ℕ → ℝ) (mu : ℝ)
    (sig0 : Nat → complex ℝ) (hN : 1 ≤ signal_length)
    (halloc : mxCalloc signal_length = some sig0) :
    (∃ c : complex ℝ,
      (lms_run Real.arctan Real.pi
        (lms_read default_sigana sig0 signal_real (some signal_imag) signal_length)
        signal_length result mu).1 = c ∧
      (⟨c.re, c.im⟩ : ℂ) =
        spec_coeff (fun n => ⟨signal_real n, signal_imag n⟩) mu (signal_length - 1).toNat) ∧
    ∀ k : ℕ, 1 ≤ k → (k : Int) ≤ signal_length - 1 →
      (spec_coeff (fun n => ⟨signal_real n, signal_imag n⟩) mu k).re ≠ 0 →
      (lms mxCalloc default_sigana Real.arctan Real.pi signal_real (some signal_imag)
          signal_length result mu).2 k
        = spec_IFE (spec_coeff (fun n => ⟨signal_real n, signal_imag n⟩) mu k) := by
  constructor
  · refine ⟨_, rfl, ?_⟩
    rw [lms_run_spec, ← lms_coeff_eq_spec]
    have hc : lms_coeff
        (lms_read default_sigana sig0 signal_real (some signal_imag) signal_length) mu
        (signal_length - 1).toNat
        = lms_coeff (fun n => ⟨signal_real n, signal_imag n⟩) mu (signal_length - 1).toNat := by
      apply lms_coeff_congr
      intro j hj
      have hj2 : 0 ≤ j ∧ j < 0 + signal_length.toNat := by omega
      simp only [lms_read]
      rw [copy_complex_apply, if_pos hj2]
    simp only [hc]
  · intro k h1 h2 _
    rw [lms_complex_result mxCalloc default_sigana Real.arctan Real.pi signal_real signal_imag
      signal_length result mu sig0 halloc k h1 h2, lms_IFE_eq_spec, lms_coeff_eq_spec]

/-- Witness for C1: the two-sample signal (1,0), (0,1) with mu = 1/10, index 1. -/
theorem lms_computes_spec_estimate_witness :
    (lms calloc_zero sigana_id Real.arctan Real.pi (buf2 1 0) (some (buf2 0 1)) 2
        (fun _ => 0) (1 / 10)).2 1
      = spec_IFE (spec_coeff (fun n => ⟨buf2 (1 : ℝ) 0 n, buf2 (0 : ℝ) 1 n⟩) (1 / 10) 1) :=
  (lms_computes_spec_estimate calloc_zero sigana_id (buf2 1 0) (buf2 0 1) 2 (fun _ => 0)
    (1 / 10) (fun _ => ⟨0, 0⟩) (by norm_num) rfl).2 1 (by norm_num) (by norm_num)
    (by
      simp only [spec_coeff, buf2, Complex.sub_re, Complex.mul_re, Complex.add_re,
        Complex.conj_re, Complex.conj_im, Complex.ofReal_re, Complex.ofReal_im,
        Complex.re_ofNat, Complex.im_ofNat, Complex.mul_im, Complex.add_im]
      norm_num)

section Frame

variable {α : Type} [Add α] [Sub α] [Mul α] [Div α] [LT α]
  [DecidableRel (LT.lt : α → α → Prop)] [OfNat α 0] [OfNat α 2]

/-- C2. For N ≥ 1 (allocation succeeding), any signal and any mu: the loop
performs exactly N-1 coefficient updates (the coefficient at loop exit is the
coefficient of step N-1), every index k in 1..N-1 of the result holds the
estimate of step k, and every other index, index 0 in particular, holds the
value it had before the call. -/
theorem lms_writes_exactly_one_to_last (mxCalloc : Int → Option (Nat → complex α))
    (default_sigana : (Nat → complex α) → Int → (Nat → complex α))
    (atan : α → α) (TFSA_PI : α) (signal_real : Nat → α) (signal_imag : Option (Nat → α))
    (signal_length : Int) (result : Nat → α) (mu : α) (sig0 : Nat → complex α)
    (hN : 1 ≤ signal_length) (halloc : mxCalloc signal_length = some sig0) :
    (∃ cnt : Nat, (cnt : Int) = signal_length - 1 ∧
      (lms_run atan TFSA_PI
          (lms_read default_sigana sig0 signal_real signal_imag signal_length)
          signal_length result mu).1
        = lms_coeff (lms_read default_sigana sig0 signal_real signal_imag signal_length)
            mu cnt) ∧
    (∀ k : Nat, 1 ≤ k → (k : Int) ≤ signal_length - 1 →
      (lms mxCalloc default_sigana atan TFSA_PI signal_real signal_imag signal_length
          result mu).2 k
        = lms_IFE atan TFSA_PI
            (lms_coeff (lms_read default_sigana sig0 signal_real signal_imag signal_length)
              mu k)) ∧
    (lms mxCalloc default_sigana atan TFSA_PI signal_real signal_imag signal_length
        result mu).2 0 = result 0 ∧
    (∀ i : Nat, (i = 0 ∨ signal_length - 1 < (i : Int)) →
      (lms mxCalloc default_sigana atan TFSA_PI signal_real signal_imag signal_length
          result mu).2 i = result i) := by
  refine ⟨⟨(signal_length - 1).toNat, by omega, ?_⟩, ?_, ?_, ?_⟩
  · rw [lms_run_spec]
  · intro k h1 h2
    have hk : 0 < k ∧ k ≤ (signal_length - 1).toNat := by omega
    simp only [lms, halloc, lms_run_spec, if_pos hk]
  · exact lms_frame mxCalloc default_sigana atan TFSA_PI signal_real signal_imag
      signal_length result mu 0 (Or.inl rfl)
  · intro i hi
    exact lms_frame mxCalloc default_sigana atan TFSA_PI signal_real signal_imag
      signal_length result mu i hi

/-- C6. For N = 1 (allocation succeeding) the loop executes no iteration (the
state at loop exit is the initial state), every entry of the result buffer
keeps its value, and the routine returns 0. -/
theorem lms_single_sample (mxCalloc : Int → Option (Nat → complex α))
    (default_sigana : (Nat → complex α) → Int → (Nat → complex α))
    (atan : α → α) (TFSA_PI : α) (signal_real : Nat → α) (signal_imag : Option (Nat → α))
    (result : Nat → α) (mu : α) (sig0 : Nat → complex α)
    (halloc : mxCalloc 1 = some sig0) :
    lms_run atan TFSA_PI (lms_read default_sigana sig0 signal_real signal_imag 1) 1 result mu
      = ((lms_read default_sigana sig0 signal_real signal_imag 1) 0, result) ∧
    (∀ i : Nat, (lms mxCalloc default_sigana atan TFSA_PI signal_real signal_imag 1
        result mu).2 i = result i) ∧
    (lms mxCalloc default_sigana atan TFSA_PI signal_real signal_imag 1 result mu).1 = 0 := by
  refine ⟨rfl, ?_, ?_⟩
  · intro i
    simp only [lms, halloc]
    rfl
  · simp only [lms, halloc]

/-- C7 (as amended). For N < 1 the routine validates nothing itself: when the
allocation of the working array succeeds it copies no sample (the working array
is the allocated block), executes no loop iteration, leaves the result buffer
as it was and returns 0; it returns the failure value 1, the result buffer
again untouched, exactly when the allocation fails. -/
theorem lms_short_length_unvalidated (mxCalloc : Int → Option (Nat → complex α))
    (default_sigana : (Nat → complex α) → Int → (Nat → complex α))
    (atan : α → α) (TFSA_PI : α) (signal_real signal_imag : Nat → α)
    (signal_length : Int) (result : Nat → α) (mu : α) (hN : signal_length < 1) :
    (∀ sig0 : Nat → complex α, mxCalloc signal_length = some sig0 →
      lms_read default_sigana sig0 signal_real (some signal_imag) signal_length = sig0 ∧
      lms_run atan TFSA_PI sig0 signal_length result mu = (sig0 0, result) ∧
      lms mxCalloc default_sigana atan TFSA_PI signal_real (some signal_imag) signal_length
        result mu = (0, result)) ∧
    (mxCalloc signal_length = none →
      lms mxCalloc default_sigana atan TFSA_PI signal_real (some signal_imag) signal_length
        result mu = (1, result)) ∧
    ((lms mxCalloc default_sigana atan TFSA_PI signal_real (some signal_imag) signal_length
        result mu).1 ≠ 0 ↔ mxCalloc signal_length = none) := by
  have h0 : signal_length.toNat = 0 := by omega
  have h1 : (signal_length - 1).toNat = 0 := by omega
  have hread : ∀ sig0 : Nat → complex α,
      lms_read default_sigana sig0 signal_real (some signal_imag) signal_length = sig0 := by
    intro sig0
    simp only [lms_read, h0, copy_complex]
  have hrun : ∀ sig0 : Nat → complex α,
      lms_run atan TFSA_PI sig0 signal_length result mu = (sig0 0, result) := by
    intro sig0
    simp only [lms_run, h1, lms_loop]
  refine ⟨?_, ?_, ?_⟩
  · intro sig0 halloc
    refine ⟨hread sig0, hrun sig0, ?_⟩
    simp only [lms, halloc, hread, hrun]
  · intro halloc
    simp only [lms, halloc]
  · cases halloc : mxCalloc signal_length with
    | none => simp [lms, halloc]
    | some sig0 => simp [lms, halloc]

/-- C10. Two runs on the same signal and the same mu (same host allocator and
analytic signal generator) return the same status and store the same value at
every index 1..N-1, whatever the result buffers held before. -/
theorem lms_deterministic (mxCalloc : Int → Option (Nat → complex α))
    (default_sigana : (Nat → complex α) → Int → (Nat → complex α))
    (atan : α → α) (TFSA_PI : α) (signal_real : Nat → α) (signal_imag : Option (Nat → α))
    (signal_length : Int) (result result2 : Nat → α) (mu : α) :
    (lms mxCalloc default_sigana atan TFSA_PI signal_real signal_imag signal_length
        result mu).1
      = (lms mxCalloc default_sigana atan TFSA_PI signal_real signal_imag signal_length
        result2 mu).1 ∧
    (∀ sig0 : Nat → complex α, mxCalloc signal_length = some sig0 →
      ∀ k : Nat, 1 ≤ k → (k : Int) ≤ signal_length - 1 →
        (lms mxCalloc default_sigana atan TFSA_PI signal_real signal_imag signal_length
            result mu).2 k
          = (lms mxCalloc default_sigana atan TFSA_PI signal_real signal_imag signal_length
            result2 mu).2 k) := by
  constructor
  · unfold lms
    cases mxCalloc signal_length with
    | none => rfl
    | some sig0 => rfl
  · intro sig0 halloc k h1 h2
    have hk : 0 < k ∧ k ≤ (signal_length - 1).toNat := by omega
    simp only [lms, halloc, lms_run_spec, if_pos hk]

end Frame

/-- Witness for C2: a three-sample real signal, N = 3. -/
theorem lms_writes_exactly_one_to_last_witness :
    (lms calloc_zero sigana_id Real.arctan Real.pi (buf2 1 2) (some (buf2 0 1)) 3
        (fun _ => 7) (1 / 10)).2 0 = 7 :=
  (lms_writes_exactly_one_to_last calloc_zero sigana_id Real.arctan Real.pi (buf2 1 2)
    (some (buf2 0 1)) 3 (fun _ => 7) (1 / 10) (fun _ => ⟨0, 0⟩) (by norm_num) rfl).2.2.1

/-- Witness for C6: one sample (1,0), result buffer filled with 7. -/
theorem lms_single_sample_witness :
    (lms calloc_zero sigana_id Real.arctan Real.pi (buf2 1 0) (some (buf2 0 0)) 1
        (fun _ => 7) (1 / 10)).1 = 0 :=
  (lms_single_sample calloc_zero sigana_id Real.arctan Real.pi (buf2 1 0)
    (some (buf2 0 0)) (fun _ => 7) (1 / 10) (fun _ => ⟨0, 0⟩) rfl).2.2

/-- Counterexample to C7 as stated: for N = 0 with a succeeding allocation the
routine returns the success value 0, not a failure. -/
theorem lms_zero_length_returns_success :
    (0 : Int) < 1 ∧
    ¬ ((lms calloc_zero sigana_id Real.arctan Real.pi (buf2 1 0) (some (buf2 0 1)) 0
        (fun _ => 0) (1 / 10)).1 ≠ 0) :=
  ⟨by norm_num, fun h => h rfl⟩

/-- Witness for C7 as amended: N = 0 with a failing allocator returns 1. -/
theorem lms_short_length_unvalidated_witness :
    lms calloc_fail sigana_id Real.arctan Real.pi (buf2 1 0) (some (buf2 0 1)) 0
        (fun _ => 0) (1 / 10) = (1, fun _ => 0) :=
  (lms_short_length_unvalidated calloc_fail sigana_id Real.arctan Real.pi (buf2 1 0)
    (buf2 0 1) 0 (fun _ => 0) (1 / 10) (by norm_num)).2.1 rfl

/-- Witness for C10: the two-sample signal run on two different buffers. -/
theorem lms_deterministic_witness :
    (lms calloc_zero sigana_id Real.arctan Real.pi (buf2 1 0) (some (buf2 0 1)) 2
        (fun _ => 0) (1 / 10)).2 1
      = (lms calloc_zero sigana_id Real.arctan Real.pi (buf2 1 0) (some (buf2 0 1)) 2
        (fun _ => 7) (1 / 10)).2 1 :=
  (lms_deterministic calloc_zero sigana_id Real.arctan Real.pi (buf2 1 0)
    (some (buf2 0 1)) 2 (fun _ => 0) (fun _ => 7) (1 / 10)).2 (fun _ => ⟨0, 0⟩) rfl 1
    (by norm_num) (by norm_num)

/-! ### The worked example -/

theorem arctan_neg_of_neg {x : ℝ} (h : x < 0) : Real.arctan x < 0 := by
  have := Real.arctan_strictMono h
  rwa [Real.arctan_zero] at this

/-- C5. For the two samples (1,0), (0,1) and mu = 0.1 the routine computes the
error (1,1), the updated coefficient (4/5, -1/5), the phase atan(-0.25) + π and
stores (atan(-0.25) + π)/(2π) at index 1. -/
theorem lms_worked_example (mxCalloc : Int → Option (Nat → complex ℝ))
    (default_sigana : (Nat → complex ℝ) → Int → (Nat → complex ℝ))
    (result : ℕ → ℝ) (sig0 : Nat → complex ℝ) (halloc : mxCalloc 2 = some sig0) :
    lms_error (lms_read default_sigana sig0 (buf2 1 0) (some (buf2 0 1)) 2) 0
        ((lms_read default_sigana sig0 (buf2 1 0) (some (buf2 0 1)) 2) 0) = ⟨1, 1⟩ ∧
    (lms_run Real.arctan Real.pi (lms_read default_sigana sig0 (buf2 1 0) (some (buf2 0 1)) 2)
        2 result 0.1).1 = ⟨4 / 5, -1 / 5⟩ ∧
    lms_phase Real.arctan Real.pi ⟨4 / 5, -1 / 5⟩ = Real.arctan (-0.25) + Real.pi ∧
    (lms mxCalloc default_sigana Real.arctan Real.pi (buf2 1 0) (some (buf2 0 1)) 2
        result 0.1).2 1 = (Real.arctan (-0.25) + Real.pi) / (2 * Real.pi) := by
  have hs0 : (lms_read default_sigana sig0 (buf2 (1 : ℝ) 0) (some (buf2 0 1)) 2) 0
      = ⟨1, 0⟩ := by
    simp [lms_read, copy_complex_apply, buf2]
  have hs1 : (lms_read default_sigana sig0 (buf2 (1 : ℝ) 0) (some (buf2 0 1)) 2) 1
      = ⟨0, 1⟩ := by
    simp [lms_read, copy_complex_apply, buf2]
  have hq : ((-1 / 5 : ℝ) / (4 / 5)) = -0.25 := by norm_num
  have hneg : Real.arctan (-0.25) < 0 := arctan_neg_of_neg (by norm_num)
  have hph : lms_phase Real.arctan Real.pi ⟨4 / 5, -1 / 5⟩
      = Real.arctan (-0.25) + Real.pi := by
    simp only [lms_phase, hq, if_pos hneg]
  have hc : lms_coeff (fun n => ⟨buf2 (1 : ℝ) 0 n, buf2 (0 : ℝ) 1 n⟩) 0.1 1
      = ⟨4 / 5, -1 / 5⟩ := by
    simp only [lms_coeff, lms_update, lms_error, buf2]
    ext <;> norm_num
  refine ⟨?_, ?_, hph, ?_⟩
  · simp only [lms_error, hs0, hs1]
    ext <;> norm_num
  · simp only [lms_run_spec]
    have e : ((2 : Int) - 1).toNat = 1 := rfl
    simp only [e, lms_coeff, lms_update, lms_error, hs0, hs1]
    ext <;> norm_num
  · rw [lms_complex_result mxCalloc default_sigana Real.arctan Real.pi (buf2 1 0) (buf2 0 1) 2
      result 0.1 sig0 halloc 1 (by norm_num) (by norm_num), hc, lms_IFE, hph]

/-- Witness for C5: the zero-filling allocator. -/
theorem lms_worked_example_witness :
    (lms calloc_zero sigana_id Real.arctan Real.pi (buf2 1 0) (some (buf2 0 1)) 2
        (fun _ => 0) 0.1).2 1 = (Real.arctan (-0.25) + Real.pi) / (2 * Real.pi) :=
  (lms_worked_example calloc_zero sigana_id (fun _ => 0) (fun _ => ⟨0, 0⟩) rfl).2.2.2

/-! ### Arithmetic of the IEEE-754 model on finite values -/

namespace double

variable {β : Type} [LinearOrderedField β]

theorem add_def (a b : double β) : a + b = add a b := rfl

theorem sub_def (a b : double β) : a - b = add a (neg b) := rfl

theorem mul_def (a b : double β) : a * b = mul a b := rfl

theorem div_def (a b : double β) : a / b = div a b := rfl

theorem lt_def (a b : double β) : a < b ↔ blt a b = true := Iff.rfl

theorem zero_def : (0 : double β) = fin 0 := rfl

theorem two_def : (2 : double β) = fin 2 := rfl

theorem isFin_cases {γ : Type} {a : double γ} (h : a.isFin = true) :
    a = nzero ∨ ∃ x, a = fin x := by
  cases a with
  | fin x => exact Or.inr ⟨x, rfl⟩
  | nzero => exact Or.inl rfl
  | pinf => simp [isFin] at h
  | ninf => simp [isFin] at h
  | nan => simp [isFin] at h

theorem isZero_iff_of_isFin {a : double β} (h : a.isFin = true) :
    a.isZero = true ↔ a.val = 0 := by
  rcases isFin_cases h with rfl | ⟨x, rfl⟩ <;> simp [isZero, val]

theorem add_isFin {a b : double β} (ha : a.isFin = true) (hb : b.isFin = true) :
    (a + b).isFin = true ∧ (a + b).val = a.val + b.val := by
  rcases isFin_cases ha with rfl | ⟨x, rfl⟩ <;> rcases isFin_cases hb with rfl | ⟨y, rfl⟩ <;>
    simp [add_def, add, isFin, val]

theorem neg_isFin {a : double β} (ha : a.isFin = true) :
    (neg a).isFin = true ∧ (neg a).val = -a.val := by
  rcases isFin_cases ha with rfl | ⟨x, rfl⟩
  · simp [neg, isFin, val]
  · by_cases hx : x = 0
    · simp [neg, isFin, val, hx]
    · simp [neg, isFin, val, hx]

theorem sub_isFin {a b : double β} (ha : a.isFin = true) (hb : b.isFin = true) :
    (a - b).isFin = true ∧ (a - b).val = a.val - b.val := by
  have hn := neg_isFin hb
  have h := add_isFin ha hn.1
  rw [sub_def, ← add_def]
  exact ⟨h.1, by rw [h.2, hn.2, sub_eq_add_neg]⟩

theorem isFin_flags {γ : Type} {a : double γ} (ha : a.isFin = true) :
    a.isNaN = false ∧ a.isInf = false := by
  rcases isFin_cases ha with rfl | ⟨x, rfl⟩ <;> simp [isNaN, isInf]

theorem signedZero_isFin (s : Bool) :
    (signedZero s : double β).isFin = true ∧ (signedZero s : double β).val = 0 := by
  cases s <;> simp [signedZero, isFin, val]

theorem mul_isFin {a b : double β} (ha : a.isFin = true) (hb : b.isFin = true) :
    (a * b).isFin = true ∧ (a * b).val = a.val * b.val := by
  have fa := isFin_flags ha
  have fb := isFin_flags hb
  rw [mul_def]
  unfold mul
  simp only [fa.1, fa.2, fb.1, fb.2, Bool.or_self, Bool.false_eq_true, if_false]
  by_cases h : a.val * b.val = 0
  · rw [if_pos h, h]
    exact signedZero_isFin _
  · rw [if_neg h]
    simp [isFin, val]

/-- A finite value divided by a finite non-zero value is the exact quotient. -/
theorem div_isFin {a b : double β} (ha : a.isFin = true) (hb : b.isFin = true)
    (hb0 : b.val ≠ 0) : (a / b).isFin = true ∧ (a / b).val = a.val / b.val := by
  have fa := isFin_flags ha
  have fb := isFin_flags hb
  have hz : b.isZero = false := by
    rw [← Bool.not_eq_true, isZero_iff_of_isFin hb]
    exact hb0
  rw [div_def]
  unfold div
  simp only [fa.1, fa.2, fb.1, fb.2, hz, Bool.or_self, Bool.false_eq_true, if_false]
  by_cases h : a.val = 0
  · rw [if_pos h, h, zero_div]
    exact signedZero_isFin _
  · rw [if_neg h]
    simp [isFin, val]

/-- Zero divided by zero is not-a-number, whatever the signs of the zeros. -/
theorem div_zero_zero {a b : double β} (ha : a.isZero = true) (hb : b.isZero = true) :
    a / b = nan := by
  rw [div_def]
  cases a <;> cases b <;> simp_all [div, isZero, isNaN, isInf]

/-- On finite doubles the test `a < 0` is the test on the values. -/
theorem lt_zero_iff {a : double β} (ha : a.isFin = true) : a < 0 ↔ a.val < 0 := by
  rw [lt_def, zero_def]
  rcases isFin_cases ha with rfl | ⟨x, rfl⟩ <;> simp [blt, val]

theorem two_mul_fin {P : β} (hP : P ≠ 0) : (2 : double β) * fin P = fin (2 * P) := by
  rw [two_def, mul_def]
  have h : (2 : β) * P ≠ 0 := mul_ne_zero two_ne_zero hP
  simp [mul, isNaN, isInf, val, h]

end double

namespace double

variable {β : Type} [LinearOrderedField β]

/-- A value that is neither not-a-number nor a zero, divided by a zero, is an
infinity. -/
theorem div_by_zero {a b : double β} (ha : a.isNaN = false) (ha0 : a.isZero = false)
    (hb : b.isZero = true) : a / b = signedInf (xor a.sign b.sign) := by
  rw [div_def]
  cases a <;> cases b <;> simp_all [div, isZero, isNaN, isInf, sign]

/-- The stored value when the quotient is `+∞`. -/
theorem IFE_of_pinf (atanF : β → β) (P : β) (hP : 0 < P) (c : complex (double β))
    (hq : c.im / c.re = pinf) :
    lms_phase (atan atanF P) (fin P) c = fin (P / 2) ∧
    lms_IFE (atan atanF P) (fin P) c = fin (1 / 4) := by
  have hP2 : ¬ (P / 2 < 0) := not_lt.mpr (le_of_lt (half_pos hP))
  have hph : lms_phase (atan atanF P) (fin P) c = fin (P / 2) := by
    simp only [lms_phase, hq, atan]
    rw [if_neg]
    rw [lt_zero_iff (by simp [isFin])]
    simpa [val] using hP2
  refine ⟨hph, ?_⟩
  have h1 : P / 2 ≠ 0 := ne_of_gt (half_pos hP)
  have h2 : (2 : β) * P ≠ 0 := mul_ne_zero two_ne_zero (ne_of_gt hP)
  have h3 : P / 2 / (2 * P) = 1 / 4 := by
    field_simp
    ring
  rw [lms_IFE, hph, two_mul_fin (ne_of_gt hP), div_def]
  simp [div, isNaN, isInf, isZero, val, h1, h2, h3]

/-- The stored value when the quotient is `-∞`. -/
theorem IFE_of_ninf (atanF : β → β) (P : β) (hP : 0 < P) (c : complex (double β))
    (hq : c.im / c.re = ninf) :
    lms_phase (atan atanF P) (fin P) c = fin (P / 2) ∧
    lms_IFE (atan atanF P) (fin P) c = fin (1 / 4) := by
  have hP2 : -(P / 2) < 0 := neg_lt_zero.mpr (half_pos hP)
  have hph : lms_phase (atan atanF P) (fin P) c = fin (P / 2) := by
    simp only [lms_phase, hq, atan]
    rw [if_pos]
    · rw [add_def]
      simp only [add]
      congr 1
      ring
    · rw [lt_zero_iff (by simp [isFin])]
      simpa [val] using hP2
  refine ⟨hph, ?_⟩
  have h1 : P / 2 ≠ 0 := ne_of_gt (half_pos hP)
  have h2 : (2 : β) * P ≠ 0 := mul_ne_zero two_ne_zero (ne_of_gt hP)
  have h3 : P / 2 / (2 * P) = 1 / 4 := by
    field_simp
    ring
  rw [lms_IFE, hph, two_mul_fin (ne_of_gt hP), div_def]
  simp [div, isNaN, isInf, isZero, val, h1, h2, h3]

/-- The stored value when the quotient is not-a-number: the test `IFE < 0` is
false and not-a-number is stored. -/
theorem IFE_of_nan (atanF : β → β) (P : β) (c : complex (double β))
    (hq : c.im / c.re = nan) :
    ¬ (atan atanF P (c.im / c.re) < 0) ∧
    lms_IFE (atan atanF P) (fin P) c = nan := by
  have hlt : ¬ (atan atanF P (c.im / c.re) < 0) := by
    rw [hq, lt_def]
    simp [atan, blt]
  refine ⟨hlt, ?_⟩
  have hph : lms_phase (atan atanF P) (fin P) c = nan := by
    unfold lms_phase
    rw [if_neg hlt, hq]
    rfl
  rw [lms_IFE, hph, div_def]
  simp [div, isNaN]

end double

/-! ### Finite inputs: the IEEE-754 model against real arithmetic -/

namespace double

variable {β : Type} [LinearOrderedField β]

theorem two_isFin : (2 : double β).isFin = true ∧ (2 : double β).val = 2 := ⟨rfl, rfl⟩

/-- One update on finite data stays finite and has the values of the update
computed in exact arithmetic. -/
theorem update_isFin (sig : Nat → complex (double β)) (mu : double β) (n : Nat)
    (c : complex (double β)) (hc : c.re.isFin = true ∧ c.im.isFin = true)
    (hs : (sig n).re.isFin = true ∧ (sig n).im.isFin = true)
    (hs1 : (sig (n + 1)).re.isFin = true ∧ (sig (n + 1)).im.isFin = true)
    (hmu : mu.isFin = true) :
    (lms_update sig mu n c).re.isFin = true ∧ (lms_update sig mu n c).im.isFin = true ∧
    (lms_update sig mu n c).re.val
      = (lms_update (fun j => ⟨(sig j).re.val, (sig j).im.val⟩) mu.val n
          ⟨c.re.val, c.im.val⟩).re ∧
    (lms_update sig mu n c).im.val
      = (lms_update (fun j => ⟨(sig j).re.val, (sig j).im.val⟩) mu.val n
          ⟨c.re.val, c.im.val⟩).im := by
  have a1 := mul_isFin hc.1 hs.1
  have a2 := mul_isFin hc.2 hs.2
  have a3 := sub_isFin a1.1 a2.1
  have ere := add_isFin a3.1 hs1.1
  have b1 := mul_isFin hc.1 hs.2
  have b2 := mul_isFin hc.2 hs.1
  have b3 := add_isFin b1.1 b2.1
  have eim := add_isFin b3.1 hs1.2
  have m2 := mul_isFin (two_isFin (β := β)).1 hmu
  have g1 := mul_isFin ere.1 hs.1
  have g2 := mul_isFin eim.1 hs.2
  have g3 := add_isFin g1.1 g2.1
  have g4 := mul_isFin m2.1 g3.1
  have ure := sub_isFin hc.1 g4.1
  have k1 := mul_isFin eim.1 hs.1
  have k2 := mul_isFin ere.1 hs.2
  have k3 := sub_isFin k1.1 k2.1
  have k4 := mul_isFin m2.1 k3.1
  have uim := sub_isFin hc.2 k4.1
  simp only [lms_update, lms_error]
  refine ⟨ure.1, uim.1, ?_, ?_⟩
  · rw [ure.2, g4.2, m2.2, g3.2, g1.2, g2.2, ere.2, a3.2, a1.2, a2.2, eim.2, b3.2, b1.2, b2.2,
      two_isFin.2]
  · rw [uim.2, k4.2, m2.2, k3.2, k1.2, k2.2, ere.2, a3.2, a1.2, a2.2, eim.2, b3.2, b1.2, b2.2,
      two_isFin.2]

/-- For finite samples and finite mu every coefficient is finite, and its
values are those of the coefficient computed in exact arithmetic. -/
theorem coeff_isFin (sig : Nat → complex (double β)) (mu : double β) (k : Nat)
    (hsig : ∀ n, n ≤ k → (sig n).re.isFin = true ∧ (sig n).im.isFin = true)
    (hmu : mu.isFin = true) :
    (lms_coeff sig mu k).re.isFin = true ∧ (lms_coeff sig mu k).im.isFin = true ∧
    (lms_coeff sig mu k).re.val
      = (lms_coeff (fun j => ⟨(sig j).re.val, (sig j).im.val⟩) mu.val k).re ∧
    (lms_coeff sig mu k).im.val
      = (lms_coeff (fun j => ⟨(sig j).re.val, (sig j).im.val⟩) mu.val k).im := by
  induction k with
  | zero => exact ⟨(hsig 0 (Nat.le_refl 0)).1, (hsig 0 (Nat.le_refl 0)).2, rfl, rfl⟩
  | succ k ih =>
    have ih2 := ih (fun n hn => hsig n (Nat.le_succ_of_le hn))
    have h := update_isFin sig mu k (lms_coeff sig mu k) ⟨ih2.1, ih2.2.1⟩
      (hsig k (Nat.le_succ k)) (hsig (k + 1) (Nat.le_refl _)) hmu
    refine ⟨h.1, h.2.1, ?_, ?_⟩
    · rw [lms_coeff, h.2.2.1, ih2.2.2.1, ih2.2.2.2]
      rfl
    · rw [lms_coeff, h.2.2.2, ih2.2.2.1, ih2.2.2.2]
      rfl

/-- The library `atan` on a finite double is finite with the value of `atanF`. -/
theorem atan_isFin (atanF : β → β) (P : β) (h0 : atanF 0 = 0) {a : double β}
    (ha : a.isFin = true) :
    (atan atanF P a).isFin = true ∧ (atan atanF P a).val = atanF a.val := by
  rcases isFin_cases ha with rfl | ⟨x, rfl⟩ <;> simp [atan, isFin, val, h0]

/-- With finite parts and a non-zero real part, the stored estimate is finite
and has the value of the estimate computed in exact arithmetic. -/
theorem IFE_isFin (atanF : β → β) (P : β) (h0 : atanF 0 = 0) (hP : P ≠ 0)
    (c : complex (double β)) (hre : c.re.isFin = true) (him : c.im.isFin = true)
    (hne : c.re.val ≠ 0) :
    (lms_IFE (atan atanF P) (fin P) c).isFin = true ∧
    (lms_IFE (atan atanF P) (fin P) c).val = lms_IFE atanF P ⟨c.re.val, c.im.val⟩ := by
  have q := div_isFin him hre hne
  have t := atan_isFin atanF P h0 q.1
  have hlt := lt_zero_iff t.1
  have hPf : (fin P : double β).isFin = true := rfl
  have h2P : ((2 : double β) * fin P).isFin = true ∧ ((2 : double β) * fin P).val = 2 * P := by
    rw [two_mul_fin hP]
    exact ⟨rfl, rfl⟩
  have h2P0 : ((2 : double β) * fin P).val ≠ 0 := by
    rw [h2P.2]
    exact mul_ne_zero two_ne_zero hP
  have hph : (lms_phase (atan atanF P) (fin P) c).isFin = true ∧
      (lms_phase (atan atanF P) (fin P) c).val = lms_phase atanF P ⟨c.re.val, c.im.val⟩ := by
    unfold lms_phase
    by_cases hneg : atan atanF P (c.im / c.re) < 0
    · have hneg2 : atanF (c.im.val / c.re.val) < 0 := by
        rw [← q.2, ← t.2]
        exact hlt.mp hneg
      have s := add_isFin t.1 hPf
      rw [if_pos hneg, if_pos hneg2]
      exact ⟨s.1, by rw [s.2, t.2, q.2]; rfl⟩
    · have hneg2 : ¬ atanF (c.im.val / c.re.val) < 0 := by
        rw [← q.2, ← t.2]
        exact fun h => hneg (hlt.mpr h)
      rw [if_neg hneg, if_neg hneg2]
      exact ⟨t.1, by rw [t.2, q.2]⟩
  have d := div_isFin hph.1 h2P.1 h2P0
  unfold lms_IFE
  exact ⟨d.1, by rw [d.2, hph.2, h2P.2]⟩

end double

/-- In real arithmetic the stored estimate lies in [0, 1/2). -/
theorem lms_IFE_real_range (c : complex ℝ) :
    0 ≤ lms_IFE Real.arctan Real.pi c ∧ lms_IFE Real.arctan Real.pi c < 1 / 2 := by
  have hpi : 0 < Real.pi := Real.pi_pos
  have h2pi : 0 < 2 * Real.pi := by linarith
  have hlo := Real.neg_pi_div_two_lt_arctan (c.im / c.re)
  have hhi := Real.arctan_lt_pi_div_two (c.im / c.re)
  unfold lms_IFE lms_phase
  by_cases h : Real.arctan (c.im / c.re) < 0
  · rw [if_pos h]
    constructor
    · apply div_nonneg _ (le_of_lt h2pi)
      linarith
    · rw [div_lt_iff₀ h2pi]
      linarith
  · rw [if_neg h]
    constructor
    · exact div_nonneg (not_lt.mp h) (le_of_lt h2pi)
    · rw [div_lt_iff₀ h2pi]
      linarith

/-- The range of the stored value in exact arithmetic (the model `double ℝ`,
no rounding): for every all-finite input (finite samples, finite mu, allocation
succeeding) and every index k in 1..N-1 (so N ≥ 2) at which the updated
coefficient is not (±0, ±0), the stored value is a finite double r with
0 ≤ r < 1/2. With the rounding of binary64 the upper bound is attained. -/
theorem lms_exact_result_range (mxCalloc : Int → Option (Nat → complex (double ℝ)))
    (default_sigana : (Nat → complex (double ℝ)) → Int → (Nat → complex (double ℝ)))
    (signal_real signal_imag : Nat → double ℝ) (signal_length : Int)
    (result : Nat → double ℝ) (mu : double ℝ) (sig0 : Nat → complex (double ℝ))
    (halloc : mxCalloc signal_length = some sig0)
    (hfin : ∀ n : Nat, (n : Int) < signal_length →
      (signal_real n).isFin = true ∧ (signal_imag n).isFin = true)
    (hmu : mu.isFin = true) (k : Nat) (h1 : 1 ≤ k) (h2 : (k : Int) ≤ signal_length - 1)
    (hnd : ¬ ((lms_coeff (fun n => ⟨signal_real n, signal_imag n⟩) mu k).re.isZero = true ∧
      (lms_coeff (fun n => ⟨signal_real n, signal_imag n⟩) mu k).im.isZero = true)) :
    ((lms mxCalloc default_sigana (double.atan Real.arctan Real.pi) (double.fin Real.pi)
        signal_real (some signal_imag) signal_length result mu).2 k).isFin = true ∧
    0 ≤ ((lms mxCalloc default_sigana (double.atan Real.arctan Real.pi) (double.fin Real.pi)
        signal_real (some signal_imag) signal_length result mu).2 k).val ∧
    ((lms mxCalloc default_sigana (double.atan Real.arctan Real.pi) (double.fin Real.pi)
        signal_real (some signal_imag) signal_length result mu).2 k).val < 1 / 2 := by
  rw [lms_complex_result mxCalloc default_sigana _ _ signal_real signal_imag signal_length
    result mu sig0 halloc k h1 h2]
  have hsig : ∀ n, n ≤ k →
      ((fun n => (⟨signal_real n, signal_imag n⟩ : complex (double ℝ))) n).re.isFin = true ∧
      ((fun n => (⟨signal_real n, signal_imag n⟩ : complex (double ℝ))) n).im.isFin = true := by
    intro n hn
    exact hfin n (by omega)
  have cf := double.coeff_isFin (fun n => ⟨signal_real n, signal_imag n⟩) mu k hsig hmu
  by_cases hz : (lms_coeff (fun n => ⟨signal_real n, signal_imag n⟩) mu k).re.val = 0
  · have hre0 := (double.isZero_iff_of_isFin cf.1).mpr hz
    have him0 : (lms_coeff (fun n => ⟨signal_real n, signal_imag n⟩) mu k).im.isZero = false := by
      rw [← Bool.not_eq_true]
      exact fun h => hnd ⟨hre0, h⟩
    have hq := double.div_by_zero (double.isFin_flags cf.2.1).1 him0 hre0
    have hr : lms_IFE (double.atan Real.arctan Real.pi) (double.fin Real.pi)
        (lms_coeff (fun n => ⟨signal_real n, signal_imag n⟩) mu k) = double.fin (1 / 4) := by
      cases hs : xor (lms_coeff (fun n => ⟨signal_real n, signal_imag n⟩) mu k).im.sign
          (lms_coeff (fun n => ⟨signal_real n, signal_imag n⟩) mu k).re.sign with
      | false =>
        rw [hs] at hq
        exact (double.IFE_of_pinf Real.arctan Real.pi Real.pi_pos _ hq).2
      | true =>
        rw [hs] at hq
        exact (double.IFE_of_ninf Real.arctan Real.pi Real.pi_pos _ hq).2
    rw [hr]
    refine ⟨rfl, ?_, ?_⟩ <;> simp only [double.val] <;> norm_num
  · have hI := double.IFE_isFin Real.arctan Real.pi Real.arctan_zero (ne_of_gt Real.pi_pos)
      (lms_coeff (fun n => ⟨signal_real n, signal_imag n⟩) mu k) cf.1 cf.2.1 hz
    have hr := lms_IFE_real_range
      ⟨(lms_coeff (fun n => ⟨signal_real n, signal_imag n⟩) mu k).re.val,
        (lms_coeff (fun n => ⟨signal_real n, signal_imag n⟩) mu k).im.val⟩
    rw [hI.2]
    exact ⟨hI.1, hr.1, hr.2⟩

/-- The coefficient values of the input (0,1), (0,0): after the first update the
coefficient is (0, 1 - 2·mu) in exact arithmetic. -/
theorem coeff_zero_real_example (mu : ℝ) :
    lms_coeff (fun n => (⟨buf2 (0 : ℝ) 0 n, buf2 (1 : ℝ) 0 n⟩ : complex ℝ)) mu 1
      = ⟨0, 1 - 2 * mu⟩ := by
  have hn : ¬ (0 + 1 = 0) := by omega
  simp only [lms_coeff, lms_update, lms_error, buf2, if_true, if_neg hn]
  ext <;> ring

/-- The input (0,1), (0,0) as doubles: finite, with the values of
`coeff_zero_real_example`. -/
theorem coeff_zero_real_double (m : ℝ) :
    (lms_coeff (fun n => (⟨buf2 (double.fin 0) (double.fin 0) n,
        buf2 (double.fin 1) (double.fin 0) n⟩ : complex (double ℝ))) (double.fin m) 1).re.isFin
      = true ∧
    (lms_coeff (fun n => (⟨buf2 (double.fin 0) (double.fin 0) n,
        buf2 (double.fin 1) (double.fin 0) n⟩ : complex (double ℝ))) (double.fin m) 1).im.isFin
      = true ∧
    (lms_coeff (fun n => (⟨buf2 (double.fin 0) (double.fin 0) n,
        buf2 (double.fin 1) (double.fin 0) n⟩ : complex (double ℝ))) (double.fin m) 1).re.val
      = 0 ∧
    (lms_coeff (fun n => (⟨buf2 (double.fin 0) (double.fin 0) n,
        buf2 (double.fin 1) (double.fin 0) n⟩ : complex (double ℝ))) (double.fin m) 1).im.val
      = 1 - 2 * m := by
  have hsig : ∀ n, n ≤ 1 →
      ((fun n => (⟨buf2 (double.fin 0) (double.fin 0) n,
        buf2 (double.fin 1) (double.fin 0) n⟩ : complex (double ℝ))) n).re.isFin = true ∧
      ((fun n => (⟨buf2 (double.fin 0) (double.fin 0) n,
        buf2 (double.fin 1) (double.fin 0) n⟩ : complex (double ℝ))) n).im.isFin = true := by
    intro n _
    by_cases h : n = 0 <;> simp [buf2, h, double.isFin]
  have cf := double.coeff_isFin _ (double.fin m) 1 hsig rfl
  have hv : (fun j => (⟨((fun n => (⟨buf2 (double.fin 0) (double.fin 0) n,
        buf2 (double.fin 1) (double.fin 0) n⟩ : complex (double ℝ))) j).re.val,
      ((fun n => (⟨buf2 (double.fin 0) (double.fin 0) n,
        buf2 (double.fin 1) (double.fin 0) n⟩ : complex (double ℝ))) j).im.val⟩ : complex ℝ))
      = (fun n => (⟨buf2 (0 : ℝ) 0 n, buf2 (1 : ℝ) 0 n⟩ : complex ℝ)) := by
    funext j
    by_cases h : j = 0 <;> simp [buf2, h, double.val]
  rw [hv] at cf
  have hm : (double.fin m : double ℝ).val = m := rfl
  rw [hm, coeff_zero_real_example] at cf
  exact cf

/-- An instance of the range in exact arithmetic: the input (0,1), (0,0) with
mu = 1/4 has the non-degenerate coefficient (0, 1/2) after the first update. -/
theorem lms_exact_result_range_instance :
    ((lms calloc_zero sigana_id (double.atan Real.arctan Real.pi) (double.fin Real.pi)
        (buf2 (double.fin 0) (double.fin 0)) (some (buf2 (double.fin 1) (double.fin 0))) 2
        (fun _ => double.fin 0) (double.fin (1 / 4))).2 1).val < 1 / 2 :=
  (lms_exact_result_range calloc_zero sigana_id
    (buf2 (double.fin 0) (double.fin 0)) (buf2 (double.fin 1) (double.fin 0)) 2
    (fun _ => double.fin 0) (double.fin (1 / 4)) (fun _ => ⟨0, 0⟩) rfl
    (by
      intro n _
      by_cases h : n = 0 <;> simp [buf2, h, double.isFin])
    rfl 1 (by norm_num) (by norm_num)
    (by
      intro h
      have h2 := (double.isZero_iff_of_isFin (coeff_zero_real_double (1 / 4)).2.1).mp h.2
      rw [(coeff_zero_real_double (1 / 4)).2.2.2] at h2
      norm_num at h2)).2.2

/-! ### The complex exponential input -/

/-- The coefficient after `k` updates on the unit-modulus exponential
`sample[n] = (cos(w·n), sin(w·n))`, in exact real arithmetic:
`c_k = -e^(iw) + (1 - 2·mu)^k · (1 + e^(iw))`, by parts. -/
theorem exp_coeff_closed_form (w mu : ℝ) (k : ℕ) :
    lms_coeff (fun n => (⟨Real.cos (w * n), Real.sin (w * n)⟩ : complex ℝ)) mu k
      = ⟨-Real.cos w + (1 - 2 * mu) ^ k * (1 + Real.cos w),
         -Real.sin w + (1 - 2 * mu) ^ k * Real.sin w⟩ := by
  induction k with
  | zero =>
    simp only [lms_coeff, Nat.cast_zero, mul_zero, Real.cos_zero, Real.sin_zero, pow_zero]
    ext <;> ring
  | succ k ih =>
    have hcs : Real.cos (w * k) ^ 2 + Real.sin (w * k) ^ 2 = 1 := Real.cos_sq_add_sin_sq _
    have hc1 : Real.cos (w * ((k + 1 : ℕ) : ℝ))
        = Real.cos (w * k) * Real.cos w - Real.sin (w * k) * Real.sin w := by
      rw [Nat.cast_succ, mul_add, mul_one, Real.cos_add]
    have hs1 : Real.sin (w * ((k + 1 : ℕ) : ℝ))
        = Real.sin (w * k) * Real.cos w + Real.cos (w * k) * Real.sin w := by
      rw [Nat.cast_succ, mul_add, mul_one, Real.sin_add]
    rw [lms_coeff, ih]
    simp only [lms_update, lms_error, hc1, hs1]
    ext
    · simp only
      linear_combination (-2 * mu * (1 - 2 * mu) ^ k * (1 + Real.cos w)) * hcs
    · simp only
      linear_combination (-2 * mu * (1 - 2 * mu) ^ k * Real.sin w) * hcs

/-- For a coefficient with negative imaginary part and non-zero real part the
phase after the add-π-if-negative rule is `π/2 - atan(re/im)`. -/
theorem lms_phase_of_neg_im (c : complex ℝ) (him : c.im < 0) (hre : c.re ≠ 0) :
    lms_phase Real.arctan Real.pi c = Real.pi / 2 - Real.arctan (c.re / c.im) := by
  have hinv : c.im / c.re = (c.re / c.im)⁻¹ := (inv_div c.re c.im).symm
  have hlo := Real.neg_pi_div_two_lt_arctan (c.re / c.im)
  have hhi := Real.arctan_lt_pi_div_two (c.re / c.im)
  unfold lms_phase
  rw [hinv]
  rcases lt_or_gt_of_ne hre with hneg | hpos
  · have ht : 0 < c.re / c.im := div_pos_of_neg_of_neg hneg him
    rw [Real.arctan_inv_of_pos ht, if_neg]
    linarith
  · have ht : c.re / c.im < 0 := div_neg_of_pos_of_neg hpos him
    rw [Real.arctan_inv_of_neg ht, if_pos]
    · ring
    · linarith

/-- The limit value: `π/2 - atan(cos w / sin w) = w` for `0 < w < π`. -/
theorem arctan_cot (w : ℝ) (h0 : 0 < w) (h1 : w < Real.pi) :
    Real.arctan (Real.cos w / Real.sin w) = Real.pi / 2 - w := by
  have htan : Real.tan (Real.pi / 2 - w) = Real.cos w / Real.sin w := by
    rw [Real.tan_pi_div_two_sub, Real.tan_eq_sin_div_cos, inv_div]
  rw [← htan]
  exact Real.arctan_tan (by linarith) (by linarith)

/-- On the exponential input of frequency `f`, `0 < f < 1/2`, with
`0 < mu < 1/2`, the estimates computed from the coefficient sequence tend to
`f`. -/
theorem exp_IFE_tendsto (f mu : ℝ) (hf0 : 0 < f) (hf1 : f < 1 / 2) (hmu0 : 0 < mu)
    (hmu1 : mu < 1 / 2) :
    ∀ eps : ℝ, 0 < eps → ∃ n0 : ℕ, ∀ k : ℕ, n0 ≤ k →
      |lms_IFE Real.arctan Real.pi
          (lms_coeff (fun n => (⟨Real.cos (2 * Real.pi * f * n),
            Real.sin (2 * Real.pi * f * n)⟩ : complex ℝ)) mu k) - f| < eps := by
  have hpi : 0 < Real.pi := Real.pi_pos
  have hw0 : 0 < 2 * Real.pi * f := by positivity
  have hw1 : 2 * Real.pi * f < Real.pi := by nlinarith
  have hsin : 0 < Real.sin (2 * Real.pi * f) := Real.sin_pos_of_pos_of_lt_pi hw0 hw1
  have hr0 : 0 < 1 - 2 * mu := by linarith
  have hr1 : 1 - 2 * mu < 1 := by linarith
  have hcos1 : 0 < 1 + Real.cos (2 * Real.pi * f) := by
    have := Real.cos_lt_cos_of_nonneg_of_le_pi (le_of_lt hw0) (le_refl Real.pi) hw1
    rw [Real.cos_pi] at this
    linarith
  have hpow : Filter.Tendsto (fun k : ℕ => (1 - 2 * mu) ^ k) Filter.atTop (nhds 0) :=
    tendsto_pow_atTop_nhds_zero_of_lt_one (le_of_lt hr0) hr1
  -- the real and imaginary parts of the coefficient and their limits
  have hre : Filter.Tendsto
      (fun k : ℕ => -Real.cos (2 * Real.pi * f) + (1 - 2 * mu) ^ k * (1 + Real.cos (2 * Real.pi * f)))
      Filter.atTop (nhds (-Real.cos (2 * Real.pi * f))) := by
    have := (hpow.mul_const (1 + Real.cos (2 * Real.pi * f))).const_add
      (-Real.cos (2 * Real.pi * f))
    simpa using this
  have him : Filter.Tendsto
      (fun k : ℕ => -Real.sin (2 * Real.pi * f) + (1 - 2 * mu) ^ k * Real.sin (2 * Real.pi * f))
      Filter.atTop (nhds (-Real.sin (2 * Real.pi * f))) := by
    have := (hpow.mul_const (Real.sin (2 * Real.pi * f))).const_add
      (-Real.sin (2 * Real.pi * f))
    simpa using this
  have hquot := hre.div him (neg_ne_zero.mpr (ne_of_gt hsin))
  have hlim : Filter.Tendsto
      (fun k : ℕ => (Real.pi / 2 - Real.arctan
        ((-Real.cos (2 * Real.pi * f) + (1 - 2 * mu) ^ k * (1 + Real.cos (2 * Real.pi * f))) /
          (-Real.sin (2 * Real.pi * f) + (1 - 2 * mu) ^ k * Real.sin (2 * Real.pi * f))))
        / (2 * Real.pi))
      Filter.atTop (nhds f) := by
    have h1 := ((Real.continuous_arctan.tendsto _).comp hquot).const_sub (Real.pi / 2)
    have h2 := h1.div_const (2 * Real.pi)
    have e : (Real.pi / 2 - Real.arctan
        (-Real.cos (2 * Real.pi * f) / -Real.sin (2 * Real.pi * f))) / (2 * Real.pi) = f := by
      rw [neg_div_neg_eq, arctan_cot _ hw0 hw1]
      field_simp
    rw [e] at h2
    exact h2
  -- eventually the real part is non-zero
  have hne : ∃ n1 : ℕ, ∀ k : ℕ, n1 ≤ k →
      -Real.cos (2 * Real.pi * f) + (1 - 2 * mu) ^ k * (1 + Real.cos (2 * Real.pi * f)) ≠ 0 := by
    by_cases hc : Real.cos (2 * Real.pi * f) = 0
    · refine ⟨0, fun k _ => ?_⟩
      rw [hc]
      have : 0 < (1 - 2 * mu) ^ k := pow_pos hr0 k
      simp only [neg_zero, add_zero, mul_one, zero_add]
      exact ne_of_gt this
    · have hev := hre.eventually_ne (neg_ne_zero.mpr hc)
      rcases Filter.eventually_atTop.mp hev with ⟨n1, h⟩
      exact ⟨n1, h⟩
  intro eps heps
  rcases (Metric.tendsto_atTop.mp hlim) eps heps with ⟨n2, hn2⟩
  rcases hne with ⟨n1, hn1⟩
  refine ⟨max 1 (max n1 n2), fun k hk => ?_⟩
  have hk1 : 1 ≤ k := le_trans (le_max_left _ _) hk
  have hkn1 : n1 ≤ k := le_trans (le_trans (le_max_left _ _) (le_max_right _ _)) hk
  have hkn2 : n2 ≤ k := le_trans (le_trans (le_max_right _ _) (le_max_right _ _)) hk
  have hpk : (1 - 2 * mu) ^ k < 1 := pow_lt_one₀ (le_of_lt hr0) hr1 (by omega)
  have himneg : -Real.sin (2 * Real.pi * f) + (1 - 2 * mu) ^ k * Real.sin (2 * Real.pi * f) < 0 := by
    nlinarith
  have hd := hn2 k hkn2
  rw [Real.dist_eq] at hd
  rw [exp_coeff_closed_form, lms_IFE, lms_phase_of_neg_im _ himneg (hn1 k hkn1)]
  exact hd

/-- C4. For the complex exponential `sample[n] = exp(i·2π·f·n)` with
`0 < f < 1/2` and every step size `0 < mu < 1/2`, in real arithmetic: for every
tolerance `eps > 0` there is an index `n0` such that for every signal length N
and every index k with `n0 ≤ k ≤ N-1` the stored estimate satisfies
`|result[k] - f| < eps`. -/
theorem lms_converges_on_exponential (f mu eps : ℝ) (hf0 : 0 < f) (hf1 : f < 1 / 2)
    (hmu0 : 0 < mu) (hmu1 : mu < 1 / 2) (heps : 0 < eps) :
    ∃ n0 : ℕ, ∀ (mxCalloc : Int → Option (Nat → complex ℝ))
      (default_sigana : (Nat → complex ℝ) → Int → (Nat → complex ℝ))
      (signal_length : Int) (result : ℕ → ℝ) (sig0 : Nat → complex ℝ),
      mxCalloc signal_length = some sig0 →
      ∀ k : ℕ, n0 ≤ k → (k : Int) ≤ signal_length - 1 →
        |(lms mxCalloc default_sigana Real.arctan Real.pi
            (fun n => Real.cos (2 * Real.pi * f * n))
            (some (fun n => Real.sin (2 * Real.pi * f * n)))
            signal_length result mu).2 k - f| < eps := by
  rcases exp_IFE_tendsto f mu hf0 hf1 hmu0 hmu1 eps heps with ⟨n0, h⟩
  refine ⟨max 1 n0, ?_⟩
  intro mxCalloc default_sigana signal_length result sig0 halloc k hk h2
  have hk1 : 1 ≤ k := le_trans (le_max_left _ _) hk
  have hk0 : n0 ≤ k := le_trans (le_max_right _ _) hk
  rw [lms_complex_result mxCalloc default_sigana Real.arctan Real.pi _ _ signal_length result
    mu sig0 halloc k hk1 h2]
  exact h k hk0

/-- Witness for C4: frequency 1/4, step size 1/4, tolerance 1/1000. -/
theorem lms_converges_on_exponential_witness :
    ∃ n0 : ℕ, ∀ (mxCalloc : Int → Option (Nat → complex ℝ))
      (default_sigana : (Nat → complex ℝ) → Int → (Nat → complex ℝ))
      (signal_length : Int) (result : ℕ → ℝ) (sig0 : Nat → complex ℝ),
      mxCalloc signal_length = some sig0 →
      ∀ k : ℕ, n0 ≤ k → (k : Int) ≤ signal_length - 1 →
        |(lms mxCalloc default_sigana Real.arctan Real.pi
            (fun n => Real.cos (2 * Real.pi * (1 / 4) * n))
            (some (fun n => Real.sin (2 * Real.pi * (1 / 4) * n)))
            signal_length result (1 / 4)).2 k - 1 / 4| < 1 / 1000 :=
  lms_converges_on_exponential (1 / 4) (1 / 4) (1 / 1000) (by norm_num) (by norm_num)
    (by norm_num) (by norm_num) (by norm_num)

/-! ### The update as a gradient step -/

/-- The cost `J` written out by parts. -/
theorem spec_J_eq (s s2 : ℂ) (a b : ℝ) :
    spec_J s s2 a b
      = (a * s.re - b * s.im + s2.re) ^ 2 + (a * s.im + b * s.re + s2.im) ^ 2 := by
  simp only [spec_J, Complex.normSq_apply, Complex.add_re, Complex.add_im, Complex.mul_re,
    Complex.mul_im]
  ring

/-- The partial derivative of `J` in the real part of the coefficient. -/
theorem spec_J_hasDerivAt_re (s s2 : ℂ) (a b : ℝ) :
    HasDerivAt (fun x => spec_J s s2 x b)
      (2 * ((a * s.re - b * s.im + s2.re) * s.re + (a * s.im + b * s.re + s2.im) * s.im)) a := by
  have e : (fun x => spec_J s s2 x b)
      = fun x => (x * s.re - b * s.im + s2.re) ^ 2 + (x * s.im + b * s.re + s2.im) ^ 2 := by
    funext x
    exact spec_J_eq s s2 x b
  rw [e]
  have h1 : HasDerivAt (fun x : ℝ => x * s.re - b * s.im + s2.re) s.re a := by
    simpa using (((hasDerivAt_id a).mul_const s.re).sub_const (b * s.im)).add_const s2.re
  have h2 : HasDerivAt (fun x : ℝ => x * s.im + b * s.re + s2.im) s.im a := by
    simpa using (((hasDerivAt_id a).mul_const s.im).add_const (b * s.re)).add_const s2.im
  have h := (h1.pow 2).add (h2.pow 2)
  convert h using 1
  simp only [Nat.cast_ofNat, Nat.add_one_sub_one, pow_one]
  ring

/-- The partial derivative of `J` in the imaginary part of the coefficient. -/
theorem spec_J_hasDerivAt_im (s s2 : ℂ) (a b : ℝ) :
    HasDerivAt (fun y => spec_J s s2 a y)
      (2 * ((a * s.im + b * s.re + s2.im) * s.re - (a * s.re - b * s.im + s2.re) * s.im)) b := by
  have e : (fun y => spec_J s s2 a y)
      = fun y => (a * s.re - y * s.im + s2.re) ^ 2 + (a * s.im + y * s.re + s2.im) ^ 2 := by
    funext y
    exact spec_J_eq s s2 a y
  rw [e]
  have h1 : HasDerivAt (fun y : ℝ => a * s.re - y * s.im + s2.re) (-s.im) b := by
    simpa using (((hasDerivAt_id b).mul_const s.im).const_sub (a * s.re)).add_const s2.re
  have h2 : HasDerivAt (fun y : ℝ => a * s.im + y * s.re + s2.im) s.re b := by
    simpa using (((hasDerivAt_id b).mul_const s.re).const_add (a * s.im)).add_const s2.im
  have h := (h1.pow 2).add (h2.pow 2)
  convert h using 1
  simp only [Nat.cast_ofNat, Nat.add_one_sub_one, pow_one]
  ring

/-- C11. The coefficient update is a gradient-descent step on the squared
magnitude of the prediction error: with `J(a,b) = |(a + i·b)·s + s2|²` for
`s = sample[n]`, `s2 = sample[n+1]`, the partial derivatives at the coefficient
`c = (a, b)` are `dJ/da = 2·(error.re·s.re + error.im·s.im)` and
`dJ/db = 2·(error.im·s.re − error.re·s.im)`, and the coefficient the loop body
produces is `(a − mu·dJ/da, b − mu·dJ/db)`. -/
theorem lms_update_is_gradient_step (sig : ℕ → complex ℝ) (mu : ℝ) (n : ℕ) (c : complex ℝ)
    (result : ℕ → ℝ) :
    HasDerivAt
      (fun a => spec_J ⟨(sig n).re, (sig n).im⟩ ⟨(sig (n + 1)).re, (sig (n + 1)).im⟩ a c.im)
      (2 * ((lms_error sig n c).re * (sig n).re + (lms_error sig n c).im * (sig n).im)) c.re ∧
    HasDerivAt
      (fun b => spec_J ⟨(sig n).re, (sig n).im⟩ ⟨(sig (n + 1)).re, (sig (n + 1)).im⟩ c.re b)
      (2 * ((lms_error sig n c).im * (sig n).re - (lms_error sig n c).re * (sig n).im)) c.im ∧
    (lms_body Real.arctan Real.pi sig mu n (c, result)).1
      = ⟨c.re - mu * deriv (fun a =>
            spec_J ⟨(sig n).re, (sig n).im⟩ ⟨(sig (n + 1)).re, (sig (n + 1)).im⟩ a c.im) c.re,
         c.im - mu * deriv (fun b =>
            spec_J ⟨(sig n).re, (sig n).im⟩ ⟨(sig (n + 1)).re, (sig (n + 1)).im⟩ c.re b) c.im⟩ := by
  have h1 := spec_J_hasDerivAt_re ⟨(sig n).re, (sig n).im⟩ ⟨(sig (n + 1)).re, (sig (n + 1)).im⟩
    c.re c.im
  have h2 := spec_J_hasDerivAt_im ⟨(sig n).re, (sig n).im⟩ ⟨(sig (n + 1)).re, (sig (n + 1)).im⟩
    c.re c.im
  refine ⟨h1, h2, ?_⟩
  rw [h1.deriv, h2.deriv, lms_body_eq]
  simp only [lms_update, lms_error]
  ext
  · simp only
    ring
  · simp only
    ring

/-! ### The error after one update -/

/-- The prediction error of iteration `n` re-evaluated with the updated
coefficient is `(1 − 2·mu·|sample[n]|²)` times the error used in the update. -/
theorem lms_error_update (sig : ℕ → complex ℝ) (mu : ℝ) (n : ℕ) (c : complex ℝ) :
    lms_error sig n (lms_update sig mu n c)
      = ⟨(1 - 2 * mu * ((sig n).re ^ 2 + (sig n).im ^ 2)) * (lms_error sig n c).re,
         (1 - 2 * mu * ((sig n).re ^ 2 + (sig n).im ^ 2)) * (lms_error sig n c).im⟩ := by
  simp only [lms_update, lms_error]
  ext
  · simp only
    ring
  · simp only
    ring

/-- The magnitude of a real multiple of a complex number, by parts. -/
theorem abs_scaled (k x y : ℝ) :
    Complex.abs ⟨k * x, k * y⟩ = |k| * Complex.abs ⟨x, y⟩ := by
  have e : (⟨k * x, k * y⟩ : ℂ) = (k : ℂ) * ⟨x, y⟩ := by
    apply Complex.ext <;> simp
  rw [e, map_mul, Complex.abs_ofReal]

/-- C14. For every step n, coefficient c, samples and mu, the prediction error
re-evaluated with the coefficient the loop body produces equals
`(1 − 2·mu·|sample[n]|²)` times the error used in the update; and when that
error is non-zero, its magnitude after the update is at most its magnitude
before if and only if `0 ≤ mu·|sample[n]|² ≤ 1`. -/
theorem lms_update_scales_error (sig : ℕ → complex ℝ) (mu : ℝ) (n : ℕ) (c : complex ℝ)
    (result : ℕ → ℝ) :
    lms_error sig n (lms_body Real.arctan Real.pi sig mu n (c, result)).1
      = ⟨(1 - 2 * mu * ((sig n).re ^ 2 + (sig n).im ^ 2)) * (lms_error sig n c).re,
         (1 - 2 * mu * ((sig n).re ^ 2 + (sig n).im ^ 2)) * (lms_error sig n c).im⟩ ∧
    (lms_error sig n c ≠ ⟨0, 0⟩ →
      (Complex.abs
          ⟨(lms_error sig n (lms_body Real.arctan Real.pi sig mu n (c, result)).1).re,
           (lms_error sig n (lms_body Real.arctan Real.pi sig mu n (c, result)).1).im⟩
        ≤ Complex.abs ⟨(lms_error sig n c).re, (lms_error sig n c).im⟩
      ↔ 0 ≤ mu * ((sig n).re ^ 2 + (sig n).im ^ 2) ∧
        mu * ((sig n).re ^ 2 + (sig n).im ^ 2) ≤ 1)) := by
  have hb : (lms_body Real.arctan Real.pi sig mu n (c, result)).1 = lms_update sig mu n c := rfl
  rw [hb, lms_error_update]
  refine ⟨rfl, ?_⟩
  intro hne
  have hne2 : (⟨(lms_error sig n c).re, (lms_error sig n c).im⟩ : ℂ) ≠ 0 := by
    intro h
    apply hne
    have h1 := congrArg Complex.re h
    have h2 := congrArg Complex.im h
    simp only [Complex.zero_re, Complex.zero_im] at h1 h2
    ext
    · exact h1
    · exact h2
  have hpos : 0 < Complex.abs ⟨(lms_error sig n c).re, (lms_error sig n c).im⟩ :=
    AbsoluteValue.pos Complex.abs hne2
  simp only []
  rw [abs_scaled]
  constructor
  · intro h
    have h1 : |1 - 2 * mu * ((sig n).re ^ 2 + (sig n).im ^ 2)| ≤ 1 := by
      by_contra hc
      have hc2 := not_le.mp hc
      have := mul_lt_mul_of_pos_right hc2 hpos
      linarith
    rw [abs_le] at h1
    constructor <;> linarith [h1.1, h1.2]
  · intro h
    have h1 : |1 - 2 * mu * ((sig n).re ^ 2 + (sig n).im ^ 2)| ≤ 1 := by
      rw [abs_le]
      constructor <;> linarith [h.1, h.2]
    calc |1 - 2 * mu * ((sig n).re ^ 2 + (sig n).im ^ 2)|
          * Complex.abs ⟨(lms_error sig n c).re, (lms_error sig n c).im⟩
        ≤ 1 * Complex.abs ⟨(lms_error sig n c).re, (lms_error sig n c).im⟩ :=
          mul_le_mul_of_nonneg_right h1 (le_of_lt hpos)
      _ = Complex.abs ⟨(lms_error sig n c).re, (lms_error sig n c).im⟩ := one_mul _

/-- The error of the constant signal (1,0) at the coefficient (1,0) is (2,0). -/
theorem error_const_example :
    lms_error (fun _ => (⟨1, 0⟩ : complex ℝ)) 0 ⟨1, 0⟩ = ⟨2, 0⟩ := by
  simp only [lms_error]
  ext <;> norm_num

/-- Witness for C14: the constant signal (1,0), coefficient (1,0), mu = 1/4;
the error (2,0) is non-zero. -/
theorem lms_update_scales_error_witness :
    (Complex.abs
        ⟨(lms_error (fun _ => (⟨1, 0⟩ : complex ℝ)) 0
            (lms_body Real.arctan Real.pi (fun _ => (⟨1, 0⟩ : complex ℝ)) (1 / 4) 0
              (⟨1, 0⟩, fun _ => 0)).1).re,
         (lms_error (fun _ => (⟨1, 0⟩ : complex ℝ)) 0
            (lms_body Real.arctan Real.pi (fun _ => (⟨1, 0⟩ : complex ℝ)) (1 / 4) 0
              (⟨1, 0⟩, fun _ => 0)).1).im⟩
      ≤ Complex.abs ⟨(lms_error (fun _ => (⟨1, 0⟩ : complex ℝ)) 0 ⟨1, 0⟩).re,
          (lms_error (fun _ => (⟨1, 0⟩ : complex ℝ)) 0 ⟨1, 0⟩).im⟩
    ↔ 0 ≤ (1 / 4 : ℝ) * ((1 : ℝ) ^ 2 + (0 : ℝ) ^ 2) ∧
      (1 / 4 : ℝ) * ((1 : ℝ) ^ 2 + (0 : ℝ) ^ 2) ≤ 1) :=
  (lms_update_scales_error (fun _ => (⟨1, 0⟩ : complex ℝ)) (1 / 4) 0 ⟨1, 0⟩ (fun _ => 0)).2
    (by
      rw [error_const_example]
      intro h
      have h1 := congrArg complex.re h
      norm_num at h1)

/-! ### The coefficient at loop exit -/

section ExitCoefficient

variable {α : Type} [Add α] [Sub α] [Mul α] [Div α] [LT α]
  [DecidableRel (LT.lt : α → α → Prop)] [OfNat α 0] [OfNat α 2]

/-- A run on `k + 1` samples with both parts supplied leaves the loop with the
coefficient of step `k` of the input signal: the coefficient after `k`
updates. -/
theorem lms_run_coeff (default_sigana : (Nat → complex α) → Int → (Nat → complex α))
    (atan : α → α) (TFSA_PI : α) (signal_real signal_imag : Nat → α)
    (result : Nat → α) (mu : α) (sig0 : Nat → complex α) (k : Nat) :
    (lms_run atan TFSA_PI
        (lms_read default_sigana sig0 signal_real (some signal_imag) ((k : Int) + 1))
        ((k : Int) + 1) result mu).1
      = lms_coeff (fun n => ⟨signal_real n, signal_imag n⟩) mu k := by
  have e : ((k : Int) + 1 - 1).toNat = k := by omega
  rw [lms_run_spec, e]
  apply lms_coeff_congr
  intro j hj
  have hj2 : 0 ≤ j ∧ j < 0 + ((k : Int) + 1).toNat := by omega
  simp only [lms_read]
  rw [copy_complex_apply, if_pos hj2]

end ExitCoefficient

/-! ### The closed form on a complex exponential -/

/-- The closed form of `exp_coeff_closed_form` as one complex number:
`c_k = -exp(i·w) + (1 − 2·mu)^k · (1 + exp(i·w))`. -/
theorem exp_coeff_closed_form_complex (w mu : ℝ) (k : ℕ) :
    (⟨(lms_coeff (fun n => (⟨(Complex.exp (((w * n : ℝ) : ℂ) * Complex.I)).re,
          (Complex.exp (((w * n : ℝ) : ℂ) * Complex.I)).im⟩ : complex ℝ)) mu k).re,
      (lms_coeff (fun n => (⟨(Complex.exp (((w * n : ℝ) : ℂ) * Complex.I)).re,
          (Complex.exp (((w * n : ℝ) : ℂ) * Complex.I)).im⟩ : complex ℝ)) mu k).im⟩ : ℂ)
      = -Complex.exp ((w : ℂ) * Complex.I)
        + (((1 - 2 * mu) ^ k : ℝ) : ℂ) * (1 + Complex.exp ((w : ℂ) * Complex.I)) := by
  have hsig : (fun n : ℕ => (⟨(Complex.exp (((w * n : ℝ) : ℂ) * Complex.I)).re,
      (Complex.exp (((w * n : ℝ) : ℂ) * Complex.I)).im⟩ : complex ℝ))
      = fun n : ℕ => (⟨Real.cos (w * n), Real.sin (w * n)⟩ : complex ℝ) := by
    funext n
    rw [Complex.exp_ofReal_mul_I_re, Complex.exp_ofReal_mul_I_im]
  rw [hsig, exp_coeff_closed_form]
  apply Complex.ext
  · simp only [Complex.add_re, Complex.neg_re, Complex.exp_ofReal_mul_I_re,
      Complex.re_ofReal_mul, Complex.one_re]
  · simp only [Complex.add_im, Complex.neg_im, Complex.exp_ofReal_mul_I_im,
      Complex.im_ofReal_mul, Complex.one_im, zero_add]

/-- C15. For the unit-modulus exponential `sample[n] = exp(i·w·n)` and any mu,
the coefficient after k updates (the exit coefficient of a run on k+1 samples)
is `-exp(i·w) + (1 − 2·mu)^k·(1 + exp(i·w))`; for `0 < mu < 1` it converges to
`-exp(i·w)` as k grows; and for `mu = 1/2` it equals `-exp(i·w)` for every
`k ≥ 1`. -/
theorem lms_exponential_closed_form (w mu : ℝ)
    (default_sigana : (Nat → complex ℝ) → Int → (Nat → complex ℝ))
    (result : ℕ → ℝ) (sig0 : Nat → complex ℝ) :
    (∀ k : ℕ,
      (⟨(lms_run Real.arctan Real.pi
            (lms_read default_sigana sig0
              (fun n => (Complex.exp (((w * n : ℝ) : ℂ) * Complex.I)).re)
              (some (fun n => (Complex.exp (((w * n : ℝ) : ℂ) * Complex.I)).im))
              ((k : Int) + 1))
            ((k : Int) + 1) result mu).1.re,
        (lms_run Real.arctan Real.pi
            (lms_read default_sigana sig0
              (fun n => (Complex.exp (((w * n : ℝ) : ℂ) * Complex.I)).re)
              (some (fun n => (Complex.exp (((w * n : ℝ) : ℂ) * Complex.I)).im))
              ((k : Int) + 1))
            ((k : Int) + 1) result mu).1.im⟩ : ℂ)
        = -Complex.exp ((w : ℂ) * Complex.I)
          + (((1 - 2 * mu) ^ k : ℝ) : ℂ) * (1 + Complex.exp ((w : ℂ) * Complex.I))) ∧
    (0 < mu → mu < 1 →
      Filter.Tendsto
        (fun k : ℕ =>
          (⟨(lms_run Real.arctan Real.pi
                (lms_read default_sigana sig0
                  (fun n => (Complex.exp (((w * n : ℝ) : ℂ) * Complex.I)).re)
                  (some (fun n => (Complex.exp (((w * n : ℝ) : ℂ) * Complex.I)).im))
                  ((k : Int) + 1))
                ((k : Int) + 1) result mu).1.re,
            (lms_run Real.arctan Real.pi
                (lms_read default_sigana sig0
                  (fun n => (Complex.exp (((w * n : ℝ) : ℂ) * Complex.I)).re)
                  (some (fun n => (Complex.exp (((w * n : ℝ) : ℂ) * Complex.I)).im))
                  ((k : Int) + 1))
                ((k : Int) + 1) result mu).1.im⟩ : ℂ))
        Filter.atTop (nhds (-Complex.exp ((w : ℂ) * Complex.I)))) ∧
    (mu = 1 / 2 → ∀ k : ℕ, 1 ≤ k →
      (⟨(lms_run Real.arctan Real.pi
            (lms_read default_sigana sig0
              (fun n => (Complex.exp (((w * n : ℝ) : ℂ) * Complex.I)).re)
              (some (fun n => (Complex.exp (((w * n : ℝ) : ℂ) * Complex.I)).im))
              ((k : Int) + 1))
            ((k : Int) + 1) result mu).1.re,
        (lms_run Real.arctan Real.pi
            (lms_read default_sigana sig0
              (fun n => (Complex.exp (((w * n : ℝ) : ℂ) * Complex.I)).re)
              (some (fun n => (Complex.exp (((w * n : ℝ) : ℂ) * Complex.I)).im))
              ((k : Int) + 1))
            ((k : Int) + 1) result mu).1.im⟩ : ℂ)
        = -Complex.exp ((w : ℂ) * Complex.I)) := by
  have hform : ∀ k : ℕ,
      (⟨(lms_run Real.arctan Real.pi
            (lms_read default_sigana sig0
              (fun n => (Complex.exp (((w * n : ℝ) : ℂ) * Complex.I)).re)
              (some (fun n => (Complex.exp (((w * n : ℝ) : ℂ) * Complex.I)).im))
              ((k : Int) + 1))
            ((k : Int) + 1) result mu).1.re,
        (lms_run Real.arctan Real.pi
            (lms_read default_sigana sig0
              (fun n => (Complex.exp (((w * n : ℝ) : ℂ) * Complex.I)).re)
              (some (fun n => (Complex.exp (((w * n : ℝ) : ℂ) * Complex.I)).im))
              ((k : Int) + 1))
            ((k : Int) + 1) result mu).1.im⟩ : ℂ)
        = -Complex.exp ((w : ℂ) * Complex.I)
          + (((1 - 2 * mu) ^ k : ℝ) : ℂ) * (1 + Complex.exp ((w : ℂ) * Complex.I)) := by
    intro k
    rw [lms_run_coeff]
    exact exp_coeff_closed_form_complex w mu k
  refine ⟨hform, ?_, ?_⟩
  · intro h0 h1
    have habs : |1 - 2 * mu| < 1 := by
      rw [abs_lt]
      constructor <;> linarith
    have hpow := tendsto_pow_atTop_nhds_zero_of_abs_lt_one habs
    have hc : Filter.Tendsto (fun k : ℕ => (((1 - 2 * mu) ^ k : ℝ) : ℂ)) Filter.atTop
        (nhds ((0 : ℝ) : ℂ)) := (Complex.continuous_ofReal.tendsto 0).comp hpow
    have h2 := (hc.mul_const (1 + Complex.exp ((w : ℂ) * Complex.I))).const_add
      (-Complex.exp ((w : ℂ) * Complex.I))
    simp only [Complex.ofReal_zero, zero_mul, add_zero] at h2
    exact h2.congr (fun k => (hform k).symm)
  · intro hmu k hk
    rw [hform k, hmu]
    have hz : ((1 : ℝ) - 2 * (1 / 2)) ^ k = 0 := by
      have : (1 : ℝ) - 2 * (1 / 2) = 0 := by norm_num
      rw [this]
      exact zero_pow (by omega)
    rw [hz]
    simp

/-- Witness for C15: w = 1 and mu = 1/2, which satisfies `0 < mu < 1`: the
coefficients converge to `-exp(i)`, and after one update the coefficient is
`-exp(i)`. -/
theorem lms_exponential_closed_form_witness :
    Filter.Tendsto
      (fun k : ℕ =>
        (⟨(lms_run Real.arctan Real.pi
              (lms_read sigana_id (fun _ => ⟨0, 0⟩)
                (fun n => (Complex.exp ((((1 : ℝ) * n : ℝ) : ℂ) * Complex.I)).re)
                (some (fun n => (Complex.exp ((((1 : ℝ) * n : ℝ) : ℂ) * Complex.I)).im))
                ((k : Int) + 1))
              ((k : Int) + 1) (fun _ => 0) (1 / 2)).1.re,
          (lms_run Real.arctan Real.pi
              (lms_read sigana_id (fun _ => ⟨0, 0⟩)
                (fun n => (Complex.exp ((((1 : ℝ) * n : ℝ) : ℂ) * Complex.I)).re)
                (some (fun n => (Complex.exp ((((1 : ℝ) * n : ℝ) : ℂ) * Complex.I)).im))
                ((k : Int) + 1))
              ((k : Int) + 1) (fun _ => 0) (1 / 2)).1.im⟩ : ℂ))
      Filter.atTop (nhds (-Complex.exp (((1 : ℝ) : ℂ) * Complex.I))) ∧
    (⟨(lms_run Real.arctan Real.pi
          (lms_read sigana_id (fun _ => ⟨0, 0⟩)
            (fun n => (Complex.exp ((((1 : ℝ) * n : ℝ) : ℂ) * Complex.I)).re)
            (some (fun n => (Complex.exp ((((1 : ℝ) * n : ℝ) : ℂ) * Complex.I)).im))
            (((1 : ℕ) : Int) + 1))
          (((1 : ℕ) : Int) + 1) (fun _ => 0) (1 / 2)).1.re,
      (lms_run Real.arctan Real.pi
          (lms_read sigana_id (fun _ => ⟨0, 0⟩)
            (fun n => (Complex.exp ((((1 : ℝ) * n : ℝ) : ℂ) * Complex.I)).re)
            (some (fun n => (Complex.exp ((((1 : ℝ) * n : ℝ) : ℂ) * Complex.I)).im))
            (((1 : ℕ) : Int) + 1))
          (((1 : ℕ) : Int) + 1) (fun _ => 0) (1 / 2)).1.im⟩ : ℂ)
      = -Complex.exp (((1 : ℝ) : ℂ) * Complex.I) :=
  ⟨(lms_exponential_closed_form 1 (1 / 2) sigana_id (fun _ => 0) (fun _ => ⟨0, 0⟩)).2.1
      (by norm_num) (by norm_num),
    (lms_exponential_closed_form 1 (1 / 2) sigana_id (fun _ => 0) (fun _ => ⟨0, 0⟩)).2.2 rfl 1
      (le_refl 1)⟩

/-! ### Conjugating the signal -/

/-- On the sample-wise conjugate signal every coefficient is the conjugate of
the original coefficient. -/
theorem lms_coeff_conj (sr si : ℕ → ℝ) (mu : ℝ) (k : ℕ) :
    lms_coeff (fun n => (⟨sr n, -si n⟩ : complex ℝ)) mu k
      = ⟨(lms_coeff (fun n => (⟨sr n, si n⟩ : complex ℝ)) mu k).re,
         -(lms_coeff (fun n => (⟨sr n, si n⟩ : complex ℝ)) mu k).im⟩ := by
  induction k with
  | zero => rfl
  | succ k ih =>
    rw [lms_coeff, ih]
    simp only [lms_coeff, lms_update, lms_error]
    ext
    · simp only
      ring
    · simp only
      ring

/-- The estimate stored for the conjugate coefficient: `1/2 - r` when the
original estimate `r` is non-zero, and `0` when it is zero. -/
theorem lms_IFE_conj (c : complex ℝ) :
    (lms_IFE Real.arctan Real.pi c ≠ 0 →
      lms_IFE Real.arctan Real.pi ⟨c.re, -c.im⟩ = 1 / 2 - lms_IFE Real.arctan Real.pi c) ∧
    (lms_IFE Real.arctan Real.pi c = 0 →
      lms_IFE Real.arctan Real.pi ⟨c.re, -c.im⟩ = 0) := by
  have hpi : 0 < Real.pi := Real.pi_pos
  have hpi0 : Real.pi ≠ 0 := ne_of_gt hpi
  have hlo := Real.neg_pi_div_two_lt_arctan (c.im / c.re)
  have hq : -c.im / c.re = -(c.im / c.re) := neg_div _ _
  simp only [lms_IFE, lms_phase, hq, Real.arctan_neg]
  rcases lt_trichotomy (Real.arctan (c.im / c.re)) 0 with h | h | h
  · have h2 : ¬ (-Real.arctan (c.im / c.re) < 0) := by linarith
    rw [if_pos h, if_neg h2]
    constructor
    · intro _
      field_simp
    · intro h0
      have hpos : 0 < (Real.arctan (c.im / c.re) + Real.pi) / (2 * Real.pi) := by
        apply div_pos <;> linarith
      linarith
  · have h2 : ¬ (Real.arctan (c.im / c.re) < 0) := by linarith
    have h3 : ¬ (-Real.arctan (c.im / c.re) < 0) := by linarith
    rw [if_neg h2, if_neg h3, h]
    constructor
    · intro hne
      exact absurd (zero_div _) hne
    · intro _
      simp
  · have h2 : ¬ (Real.arctan (c.im / c.re) < 0) := by linarith
    have h3 : -Real.arctan (c.im / c.re) < 0 := by linarith
    rw [if_neg h2, if_pos h3]
    constructor
    · intro _
      field_simp
      ring
    · intro h0
      have hpos : 0 < Real.arctan (c.im / c.re) / (2 * Real.pi) := by
        apply div_pos <;> linarith
      linarith

/-- C16. Running lms on the sample-wise complex conjugate of a signal yields
after every number k of updates the conjugate of the original coefficient, and
at every index k in 1..N-1 where the coefficient's real part is non-zero the
value r2 stored for the conjugate signal and the value r stored for the
original satisfy `r2 = 1/2 − r` if `r ≠ 0` and `r2 = 0` if `r = 0`. -/
theorem lms_conjugate_signal (mxCalloc : Int → Option (Nat → complex ℝ))
    (default_sigana : (Nat → complex ℝ) → Int → (Nat → complex ℝ))
    (signal_real signal_imag : ℕ → ℝ) (signal_length : Int) (result result2 : ℕ → ℝ)
    (mu : ℝ) (sig0 : Nat → complex ℝ) (halloc : mxCalloc signal_length = some sig0) :
    (∀ k : ℕ,
      (lms_run Real.arctan Real.pi
          (lms_read default_sigana sig0 signal_real (some (fun n => -signal_imag n))
            ((k : Int) + 1))
          ((k : Int) + 1) result2 mu).1
        = ⟨(lms_run Real.arctan Real.pi
              (lms_read default_sigana sig0 signal_real (some signal_imag) ((k : Int) + 1))
              ((k : Int) + 1) result mu).1.re,
           -(lms_run Real.arctan Real.pi
              (lms_read default_sigana sig0 signal_real (some signal_imag) ((k : Int) + 1))
              ((k : Int) + 1) result mu).1.im⟩) ∧
    ∀ k : ℕ, 1 ≤ k → (k : Int) ≤ signal_length - 1 →
      (lms_coeff (fun n => ⟨signal_real n, signal_imag n⟩) mu k).re ≠ 0 →
      ((lms mxCalloc default_sigana Real.arctan Real.pi signal_real (some signal_imag)
            signal_length result mu).2 k ≠ 0 →
        (lms mxCalloc default_sigana Real.arctan Real.pi signal_real
            (some (fun n => -signal_imag n)) signal_length result2 mu).2 k
          = 1 / 2 - (lms mxCalloc default_sigana Real.arctan Real.pi signal_real
              (some signal_imag) signal_length result mu).2 k) ∧
      ((lms mxCalloc default_sigana Real.arctan Real.pi signal_real (some signal_imag)
            signal_length result mu).2 k = 0 →
        (lms mxCalloc default_sigana Real.arctan Real.pi signal_real
            (some (fun n => -signal_imag n)) signal_length result2 mu).2 k = 0) := by
  constructor
  · intro k
    rw [lms_run_coeff, lms_run_coeff]
    exact lms_coeff_conj signal_real signal_imag mu k
  · intro k h1 h2 _
    rw [lms_complex_result mxCalloc default_sigana Real.arctan Real.pi signal_real signal_imag
        signal_length result mu sig0 halloc k h1 h2,
      lms_complex_result mxCalloc default_sigana Real.arctan Real.pi signal_real
        (fun n => -signal_imag n) signal_length result2 mu sig0 halloc k h1 h2,
      lms_coeff_conj]
    exact lms_IFE_conj _

/-! ### After a degenerate coefficient -/

/-- For a finite coefficient that is not (±0, ±0) the stored estimate is a
finite double in [0, 1/2). -/
theorem double.IFE_range (c : complex (double ℝ)) (hre : c.re.isFin = true)
    (him : c.im.isFin = true) (hnd : ¬ (c.re.isZero = true ∧ c.im.isZero = true)) :
    (lms_IFE (double.atan Real.arctan Real.pi) (double.fin Real.pi) c).isFin = true ∧
    0 ≤ (lms_IFE (double.atan Real.arctan Real.pi) (double.fin Real.pi) c).val ∧
    (lms_IFE (double.atan Real.arctan Real.pi) (double.fin Real.pi) c).val < 1 / 2 := by
  by_cases hz : c.re.val = 0
  · have hre0 := (double.isZero_iff_of_isFin hre).mpr hz
    have him0 : c.im.isZero = false := by
      rw [← Bool.not_eq_true]
      exact fun h => hnd ⟨hre0, h⟩
    have hq := double.div_by_zero (double.isFin_flags him).1 him0 hre0
    have hr : lms_IFE (double.atan Real.arctan Real.pi) (double.fin Real.pi) c
        = double.fin (1 / 4) := by
      cases hs : xor c.im.sign c.re.sign with
      | false =>
        rw [hs] at hq
        exact (double.IFE_of_pinf Real.arctan Real.pi Real.pi_pos _ hq).2
      | true =>
        rw [hs] at hq
        exact (double.IFE_of_ninf Real.arctan Real.pi Real.pi_pos _ hq).2
    rw [hr]
    refine ⟨rfl, ?_, ?_⟩ <;> simp only [double.val] <;> norm_num
  · have hI := double.IFE_isFin Real.arctan Real.pi Real.arctan_zero (ne_of_gt Real.pi_pos)
      c hre him hz
    have hr := lms_IFE_real_range ⟨c.re.val, c.im.val⟩
    rw [hI.2]
    exact ⟨hI.1, hr.1, hr.2⟩

/-- The update applied to the zero coefficient, in exact arithmetic, as one
complex number: `-2·mu·sample[n+1]·conj(sample[n])`. -/
theorem lms_update_zero (sig : ℕ → complex ℝ) (mu : ℝ) (n : ℕ) :
    (⟨(lms_update sig mu n ⟨0, 0⟩).re, (lms_update sig mu n ⟨0, 0⟩).im⟩ : ℂ)
      = -2 * (mu : ℂ) * ⟨(sig (n + 1)).re, (sig (n + 1)).im⟩
          * (starRingEnd ℂ) ⟨(sig n).re, (sig n).im⟩ := by
  apply Complex.ext
  · simp only [lms_update, lms_error, Complex.mul_re, Complex.mul_im, Complex.neg_re,
      Complex.neg_im, Complex.conj_re, Complex.conj_im, Complex.ofReal_re, Complex.ofReal_im,
      Complex.re_ofNat, Complex.im_ofNat]
    ring
  · simp only [lms_update, lms_error, Complex.mul_re, Complex.mul_im, Complex.neg_re,
      Complex.neg_im, Complex.conj_re, Complex.conj_im, Complex.ofReal_re, Complex.ofReal_im,
      Complex.re_ofNat, Complex.im_ofNat]
    ring

/-- After a degenerate coefficient, in exact arithmetic (the model `double ℝ`,
no rounding and no underflow). For finite samples and finite mu, if the
coefficient after the update of step n is (±0, ±0), then not-a-number is stored
at index n+1, yet the coefficient after the update of step n+1 is finite and
equals `-2·mu·sample[n+2]·conj(sample[n+1])`; and when mu, sample[n+1] and
sample[n+2] are all non-zero that coefficient is not (±0, ±0) and the value
stored at index n+2 is again a finite estimate in [0, 1/2). -/
theorem lms_exact_degeneracy_step
    (mxCalloc : Int → Option (Nat → complex (double ℝ)))
    (default_sigana : (Nat → complex (double ℝ)) → Int → (Nat → complex (double ℝ)))
    (signal_real signal_imag : Nat → double ℝ) (signal_length : Int)
    (result : Nat → double ℝ) (mu : double ℝ) (sig0 : Nat → complex (double ℝ))
    (halloc : mxCalloc signal_length = some sig0)
    (hfin : ∀ j : Nat, (j : Int) < signal_length →
      (signal_real j).isFin = true ∧ (signal_imag j).isFin = true)
    (hmu : mu.isFin = true) (n : Nat) (hn : (n : Int) + 2 ≤ signal_length - 1)
    (hre : (lms_coeff (fun j => ⟨signal_real j, signal_imag j⟩) mu (n + 1)).re.isZero = true)
    (him : (lms_coeff (fun j => ⟨signal_real j, signal_imag j⟩) mu (n + 1)).im.isZero = true) :
    (lms mxCalloc default_sigana (double.atan Real.arctan Real.pi) (double.fin Real.pi)
        signal_real (some signal_imag) signal_length result mu).2 (n + 1) = double.nan ∧
    (lms_coeff (fun j => ⟨signal_real j, signal_imag j⟩) mu (n + 2)).re.isFin = true ∧
    (lms_coeff (fun j => ⟨signal_real j, signal_imag j⟩) mu (n + 2)).im.isFin = true ∧
    (⟨(lms_coeff (fun j => ⟨signal_real j, signal_imag j⟩) mu (n + 2)).re.val,
      (lms_coeff (fun j => ⟨signal_real j, signal_imag j⟩) mu (n + 2)).im.val⟩ : ℂ)
      = -2 * (mu.val : ℂ) * ⟨(signal_real (n + 2)).val, (signal_imag (n + 2)).val⟩
          * (starRingEnd ℂ) ⟨(signal_real (n + 1)).val, (signal_imag (n + 1)).val⟩ ∧
    (mu.val ≠ 0 →
      (⟨(signal_real (n + 1)).val, (signal_imag (n + 1)).val⟩ : ℂ) ≠ 0 →
      (⟨(signal_real (n + 2)).val, (signal_imag (n + 2)).val⟩ : ℂ) ≠ 0 →
      ¬ ((lms_coeff (fun j => ⟨signal_real j, signal_imag j⟩) mu (n + 2)).re.isZero = true ∧
        (lms_coeff (fun j => ⟨signal_real j, signal_imag j⟩) mu (n + 2)).im.isZero = true) ∧
      ((lms mxCalloc default_sigana (double.atan Real.arctan Real.pi) (double.fin Real.pi)
          signal_real (some signal_imag) signal_length result mu).2 (n + 2)).isFin = true ∧
      0 ≤ ((lms mxCalloc default_sigana (double.atan Real.arctan Real.pi) (double.fin Real.pi)
          signal_real (some signal_imag) signal_length result mu).2 (n + 2)).val ∧
      ((lms mxCalloc default_sigana (double.atan Real.arctan Real.pi) (double.fin Real.pi)
          signal_real (some signal_imag) signal_length result mu).2 (n + 2)).val < 1 / 2) := by
  have hsig : ∀ k : Nat, k ≤ n + 2 → ∀ j, j ≤ k →
      ((fun j => (⟨signal_real j, signal_imag j⟩ : complex (double ℝ))) j).re.isFin = true ∧
      ((fun j => (⟨signal_real j, signal_imag j⟩ : complex (double ℝ))) j).im.isFin = true := by
    intro k hk j hj
    exact hfin j (by omega)
  have cf1 := double.coeff_isFin (fun j => ⟨signal_real j, signal_imag j⟩) mu (n + 1)
    (hsig (n + 1) (by omega)) hmu
  have cf2 := double.coeff_isFin (fun j => ⟨signal_real j, signal_imag j⟩) mu (n + 2)
    (hsig (n + 2) (le_refl _)) hmu
  -- the coefficient of step n+1 has the values (0, 0)
  have hz : lms_coeff (fun j => (⟨(signal_real j).val, (signal_imag j).val⟩ : complex ℝ))
      mu.val (n + 1) = ⟨0, 0⟩ := by
    ext
    · rw [← cf1.2.2.1]
      exact (double.isZero_iff_of_isFin cf1.1).mp hre
    · rw [← cf1.2.2.2]
      exact (double.isZero_iff_of_isFin cf1.2.1).mp him
  have hval : (⟨(lms_coeff (fun j => ⟨signal_real j, signal_imag j⟩) mu (n + 2)).re.val,
      (lms_coeff (fun j => ⟨signal_real j, signal_imag j⟩) mu (n + 2)).im.val⟩ : ℂ)
      = -2 * (mu.val : ℂ) * ⟨(signal_real (n + 2)).val, (signal_imag (n + 2)).val⟩
          * (starRingEnd ℂ) ⟨(signal_real (n + 1)).val, (signal_imag (n + 1)).val⟩ := by
    rw [cf2.2.2.1, cf2.2.2.2]
    have e : lms_coeff (fun j => (⟨(signal_real j).val, (signal_imag j).val⟩ : complex ℝ))
        mu.val (n + 2)
        = lms_update (fun j => (⟨(signal_real j).val, (signal_imag j).val⟩ : complex ℝ))
            mu.val (n + 1) ⟨0, 0⟩ := by
      rw [← hz]
      rfl
    rw [e]
    exact lms_update_zero _ mu.val (n + 1)
  refine ⟨?_, cf2.1, cf2.2.1, hval, ?_⟩
  · rw [lms_complex_result mxCalloc default_sigana _ _ signal_real signal_imag signal_length
      result mu sig0 halloc (n + 1) (by omega) (by omega)]
    exact (double.IFE_of_nan Real.arctan Real.pi _ (double.div_zero_zero him hre)).2
  · intro hmu0 hs1 hs2
    have hne : (⟨(lms_coeff (fun j => ⟨signal_real j, signal_imag j⟩) mu (n + 2)).re.val,
        (lms_coeff (fun j => ⟨signal_real j, signal_imag j⟩) mu (n + 2)).im.val⟩ : ℂ) ≠ 0 := by
      rw [hval]
      have h2 : (-2 : ℂ) ≠ 0 := by norm_num
      have hmuc : (mu.val : ℂ) ≠ 0 := Complex.ofReal_ne_zero.mpr hmu0
      have hc1 : (starRingEnd ℂ)
          (⟨(signal_real (n + 1)).val, (signal_imag (n + 1)).val⟩ : ℂ) ≠ 0 := by
        intro h
        exact hs1 ((map_eq_zero (starRingEnd ℂ)).mp h)
      exact mul_ne_zero (mul_ne_zero (mul_ne_zero h2 hmuc) hs2) hc1
    have hnd : ¬ ((lms_coeff (fun j => ⟨signal_real j, signal_imag j⟩) mu (n + 2)).re.isZero
          = true ∧
        (lms_coeff (fun j => ⟨signal_real j, signal_imag j⟩) mu (n + 2)).im.isZero = true) := by
      intro h
      apply hne
      apply Complex.ext
      · exact (double.isZero_iff_of_isFin cf2.1).mp h.1
      · exact (double.isZero_iff_of_isFin cf2.2.1).mp h.2
    refine ⟨hnd, ?_⟩
    rw [lms_complex_result mxCalloc default_sigana _ _ signal_real signal_imag signal_length
      result mu sig0 halloc (n + 2) (by omega) (by omega)]
    exact double.IFE_range _ cf2.1 cf2.2.1 hnd

/-- On the constant signal (1,0) with mu = 1/4 the first update gives the
coefficient (0, 0) in exact arithmetic. -/
theorem coeff_ones_example :
    lms_coeff (fun _ => (⟨1, 0⟩ : complex ℝ)) (1 / 4) 1 = ⟨0, 0⟩ := by
  simp only [lms_coeff, lms_update, lms_error]
  ext <;> norm_num

/-- The constant signal (1,0) with mu = 1/4 as doubles: the coefficient after
the first update is finite with the values (0, 0). -/
theorem coeff_ones_double :
    (lms_coeff (fun j => (⟨(fun _ => double.fin 1) j, (fun _ => double.fin 0) j⟩ :
        complex (double ℝ))) (double.fin (1 / 4)) 1).re.isZero = true ∧
    (lms_coeff (fun j => (⟨(fun _ => double.fin 1) j, (fun _ => double.fin 0) j⟩ :
        complex (double ℝ))) (double.fin (1 / 4)) 1).im.isZero = true := by
  have cf := double.coeff_isFin
    (fun j => (⟨(fun _ => double.fin 1) j, (fun _ => double.fin 0) j⟩ : complex (double ℝ)))
    (double.fin (1 / 4)) 1 (fun _ _ => ⟨rfl, rfl⟩) rfl
  have hv : lms_coeff (fun j => (⟨((fun j => (⟨(fun _ => double.fin 1) j,
        (fun _ => double.fin 0) j⟩ : complex (double ℝ))) j).re.val,
      ((fun j => (⟨(fun _ => double.fin 1) j,
        (fun _ => double.fin 0) j⟩ : complex (double ℝ))) j).im.val⟩ : complex ℝ))
      (double.fin (1 / 4) : double ℝ).val 1 = ⟨0, 0⟩ := coeff_ones_example
  rw [hv] at cf
  exact ⟨(double.isZero_iff_of_isFin cf.1).mpr cf.2.2.1,
    (double.isZero_iff_of_isFin cf.2.1).mpr cf.2.2.2⟩

/-- An instance in exact arithmetic: the constant signal (1,0) of length 3 with
mu = 1/4; the first update gives (0, 0) and the value stored at index 2 is a
finite estimate again. -/
theorem lms_exact_degeneracy_step_instance :
    (lms calloc_zero sigana_id (double.atan Real.arctan Real.pi) (double.fin Real.pi)
        (fun _ => double.fin 1) (some (fun _ => double.fin 0)) 3 (fun _ => double.fin 0)
        (double.fin (1 / 4))).2 1 = double.nan ∧
    ((lms calloc_zero sigana_id (double.atan Real.arctan Real.pi) (double.fin Real.pi)
        (fun _ => double.fin 1) (some (fun _ => double.fin 0)) 3 (fun _ => double.fin 0)
        (double.fin (1 / 4))).2 2).isFin = true :=
  ⟨(lms_exact_degeneracy_step calloc_zero sigana_id (fun _ => double.fin 1)
      (fun _ => double.fin 0) 3 (fun _ => double.fin 0) (double.fin (1 / 4))
      (fun _ => ⟨0, 0⟩) rfl (fun _ _ => ⟨rfl, rfl⟩) rfl 0 (by norm_num)
      coeff_ones_double.1 coeff_ones_double.2).1,
    ((lms_exact_degeneracy_step calloc_zero sigana_id (fun _ => double.fin 1)
      (fun _ => double.fin 0) 3 (fun _ => double.fin 0) (double.fin (1 / 4))
      (fun _ => ⟨0, 0⟩) rfl (fun _ _ => ⟨rfl, rfl⟩) rfl 0 (by norm_num)
      coeff_ones_double.1 coeff_ones_double.2).2.2.2.2
      (by simp only [double.val]; norm_num)
      (by
        intro h
        have h1 := congrArg Complex.re h
        simp [double.val] at h1)
      (by
        intro h
        have h1 := congrArg Complex.re h
        simp [double.val] at h1)).2.1⟩

/-! ### The decimals of the worked example -/

/-- A four-term lower bound of `atan` on the non-negative reals. -/
theorem arctan_lower_bound {x : ℝ} (hx : 0 ≤ x) :
    x - x ^ 3 / 3 + x ^ 5 / 5 - x ^ 7 / 7 ≤ Real.arctan x := by
  have hd : ∀ t : ℝ, HasDerivAt
      (fun t : ℝ => Real.arctan t - (t - t ^ 3 / 3 + t ^ 5 / 5 - t ^ 7 / 7))
      (1 / (1 + t ^ 2) - (1 - t ^ 2 + t ^ 4 - t ^ 6)) t := by
    intro t
    have hp : HasDerivAt (fun t : ℝ => t - t ^ 3 / 3 + t ^ 5 / 5 - t ^ 7 / 7)
        (1 - t ^ 2 + t ^ 4 - t ^ 6) t := by
      have h := (((hasDerivAt_id t).sub ((hasDerivAt_pow 3 t).div_const 3)).add
        ((hasDerivAt_pow 5 t).div_const 5)).sub ((hasDerivAt_pow 7 t).div_const 7)
      convert h using 1
      simp only [Nat.cast_ofNat, Nat.add_one_sub_one, Nat.reduceSub]
      ring
    exact (Real.hasDerivAt_arctan t).sub hp
  have hmono : Monotone
      (fun t : ℝ => Real.arctan t - (t - t ^ 3 / 3 + t ^ 5 / 5 - t ^ 7 / 7)) := by
    apply monotone_of_deriv_nonneg (fun t => (hd t).differentiableAt)
    intro t
    rw [(hd t).deriv]
    have hpos : 0 < 1 + t ^ 2 := by positivity
    have e : 1 / (1 + t ^ 2) - (1 - t ^ 2 + t ^ 4 - t ^ 6) = t ^ 8 / (1 + t ^ 2) := by
      field_simp
      ring
    rw [e]
    positivity
  have h := hmono hx
  simp only [Real.arctan_zero] at h
  norm_num at h
  linarith

/-- A three-term upper bound of `atan` on the non-negative reals. -/
theorem arctan_upper_bound {x : ℝ} (hx : 0 ≤ x) :
    Real.arctan x ≤ x - x ^ 3 / 3 + x ^ 5 / 5 := by
  have hd : ∀ t : ℝ, HasDerivAt
      (fun t : ℝ => (t - t ^ 3 / 3 + t ^ 5 / 5) - Real.arctan t)
      ((1 - t ^ 2 + t ^ 4) - 1 / (1 + t ^ 2)) t := by
    intro t
    have hp : HasDerivAt (fun t : ℝ => t - t ^ 3 / 3 + t ^ 5 / 5)
        (1 - t ^ 2 + t ^ 4) t := by
      have h := ((hasDerivAt_id t).sub ((hasDerivAt_pow 3 t).div_const 3)).add
        ((hasDerivAt_pow 5 t).div_const 5)
      convert h using 1
      simp only [Nat.cast_ofNat, Nat.add_one_sub_one, Nat.reduceSub]
      ring
    exact hp.sub (Real.hasDerivAt_arctan t)
  have hmono : Monotone
      (fun t : ℝ => (t - t ^ 3 / 3 + t ^ 5 / 5) - Real.arctan t) := by
    apply monotone_of_deriv_nonneg (fun t => (hd t).differentiableAt)
    intro t
    rw [(hd t).deriv]
    have hpos : 0 < 1 + t ^ 2 := by positivity
    have e : (1 - t ^ 2 + t ^ 4) - 1 / (1 + t ^ 2) = t ^ 6 / (1 + t ^ 2) := by
      field_simp
      ring
    rw [e]
    positivity
  have h := hmono hx
  simp only [Real.arctan_zero] at h
  norm_num at h
  linarith

/-- Bounds of `atan(1/4)` to seven decimals. -/
theorem arctan_quarter_bounds :
    (0.2449782 : ℝ) < Real.arctan (1 / 4) ∧ Real.arctan (1 / 4) < (0.24498698 : ℝ) := by
  have hl := arctan_lower_bound (x := 1 / 4) (by norm_num)
  have hu := arctan_upper_bound (x := 1 / 4) (by norm_num)
  constructor
  · have : (0.2449782 : ℝ) < 1 / 4 - (1 / 4) ^ 3 / 3 + (1 / 4) ^ 5 / 5 - (1 / 4) ^ 7 / 7 := by
      norm_num
    linarith
  · have : (1 / 4 : ℝ) - (1 / 4) ^ 3 / 3 + (1 / 4) ^ 5 / 5 < (0.24498698 : ℝ) := by
      norm_num
    linarith

/-- The worked-example coefficient: samples (1,0), (0,1) and mu = 0.1 give
(4/5, -1/5) after the first update. -/
theorem worked_example_coeff :
    lms_coeff (fun n => (⟨buf2 (1 : ℝ) 0 n, buf2 (0 : ℝ) 1 n⟩ : complex ℝ)) 0.1 1
      = ⟨4 / 5, -1 / 5⟩ := by
  simp only [lms_coeff, lms_update, lms_error, buf2]
  ext <;> norm_num

/-- The value stored at index 1 for the worked example, for any value `P` of
`TFSA_PI`: `(atan(-0.25) + P) / (2·P)`. -/
theorem worked_example_result (mxCalloc : Int → Option (Nat → complex ℝ))
    (default_sigana : (Nat → complex ℝ) → Int → (Nat → complex ℝ)) (P : ℝ)
    (result : ℕ → ℝ) (sig0 : Nat → complex ℝ) (halloc : mxCalloc 2 = some sig0) :
    (lms mxCalloc default_sigana Real.arctan P (buf2 1 0) (some (buf2 0 1)) 2 result 0.1).2 1
      = (Real.arctan (-0.25) + P) / (2 * P) := by
  have hq : ((-1 / 5 : ℝ) / (4 / 5)) = -0.25 := by norm_num
  have hneg : Real.arctan (-0.25) < 0 := arctan_neg_of_neg (by norm_num)
  rw [lms_complex_result mxCalloc default_sigana Real.arctan P (buf2 1 0) (buf2 0 1) 2
    result 0.1 sig0 halloc 1 (by norm_num) (by norm_num), worked_example_coeff]
  simp only [lms_IFE, lms_phase, hq, if_pos hneg]

/-- C13 (as amended). For the worked example sample[0] = (1,0),
sample[1] = (0,1), mu = 0.1, and every value P of TFSA_PI with
3.141592 < P < 3.141593 (π and the 21-digit literal of the macro both qualify):
atan(-0.25) rounds to -0.2450, atan(-0.25) + P rounds to 2.8966, and
result[1] = (atan(-0.25) + P)/(2·P) rounds to 0.4610, each to within 0.00005. -/
theorem lms_example_decimals (mxCalloc : Int → Option (Nat → complex ℝ))
    (default_sigana : (Nat → complex ℝ) → Int → (Nat → complex ℝ)) (P : ℝ)
    (hP1 : 3.141592 < P) (hP2 : P < 3.141593)
    (result : ℕ → ℝ) (sig0 : Nat → complex ℝ) (halloc : mxCalloc 2 = some sig0) :
    |Real.arctan (-0.25) - (-0.2450)| < 0.00005 ∧
    |Real.arctan (-0.25) + P - 2.8966| < 0.00005 ∧
    |(lms mxCalloc default_sigana Real.arctan P (buf2 1 0) (some (buf2 0 1)) 2
        result 0.1).2 1 - 0.4610| < 0.00005 := by
  have hb := arctan_quarter_bounds
  have ha : Real.arctan (-0.25) = -Real.arctan (1 / 4) := by
    rw [← Real.arctan_neg]
    norm_num
  have hPpos : 0 < 2 * P := by linarith
  rw [worked_example_result mxCalloc default_sigana P result sig0 halloc, ha]
  refine ⟨?_, ?_, ?_⟩
  · rw [abs_lt]
    constructor <;> linarith [hb.1, hb.2]
  · rw [abs_lt]
    constructor <;> linarith [hb.1, hb.2]
  · rw [abs_lt]
    constructor
    · rw [lt_sub_iff_add_lt, lt_div_iff₀ hPpos]
      linarith [hb.1, hb.2]
    · rw [sub_lt_iff_lt_add, div_lt_iff₀ hPpos]
      linarith [hb.1, hb.2]

/-- Counterexample to C13 as stated: with TFSA_PI = π the value stored at
index 1 is not within 0.00005 of 0.4611. -/
theorem lms_example_result_not_4611 :
    ¬ (|(lms calloc_zero sigana_id Real.arctan Real.pi (buf2 1 0) (some (buf2 0 1)) 2
        (fun _ => 0) 0.1).2 1 - 0.4611| < 0.00005) := by
  have hb := arctan_quarter_bounds
  have ha : Real.arctan (-0.25) = -Real.arctan (1 / 4) := by
    rw [← Real.arctan_neg]
    norm_num
  have hP1 := Real.pi_gt_d6
  have hP2 := Real.pi_lt_d6
  have hPpos : 0 < 2 * Real.pi := by linarith
  rw [worked_example_result calloc_zero sigana_id Real.pi (fun _ => 0) (fun _ => ⟨0, 0⟩) rfl, ha]
  intro h
  rw [abs_lt] at h
  have h1 := h.1
  rw [lt_sub_iff_add_lt, lt_div_iff₀ hPpos] at h1
  linarith [hb.1, hb.2]

/-- Witness for C13 as amended: the macro's literal as the value of TFSA_PI. -/
theorem lms_example_decimals_witness :
    |(lms calloc_zero sigana_id Real.arctan 3.14159265358979323846 (buf2 1 0)
        (some (buf2 0 1)) 2 (fun _ => 0) 0.1).2 1 - 0.4610| < 0.00005 :=
  (lms_example_decimals calloc_zero sigana_id 3.14159265358979323846 (by norm_num)
    (by norm_num) (fun _ => 0) (fun _ => ⟨0, 0⟩) rfl).2.2

/-- A real two-sample signal (1,0), (1,0) with mu = 0.1: the coefficient after
the first update is (3/5, 0). -/
theorem real_example_coeff :
    lms_coeff (fun n => (⟨buf2 (1 : ℝ) 1 n, buf2 (0 : ℝ) 0 n⟩ : complex ℝ)) 0.1 1
      = ⟨3 / 5, 0⟩ := by
  simp only [lms_coeff, lms_update, lms_error, buf2]
  ext <;> norm_num

/-- Witness for C16: the worked example (stored value non-zero, mirrored to
1/2 minus it) and the real signal (1,0), (1,0) (stored value zero on both
sides). -/
theorem lms_conjugate_signal_witness :
    (lms calloc_zero sigana_id Real.arctan Real.pi (buf2 1 0)
        (some (fun n => -buf2 (0 : ℝ) 1 n)) 2 (fun _ => 0) 0.1).2 1
      = 1 / 2 - (lms calloc_zero sigana_id Real.arctan Real.pi (buf2 1 0)
          (some (buf2 0 1)) 2 (fun _ => 0) 0.1).2 1 ∧
    (lms calloc_zero sigana_id Real.arctan Real.pi (buf2 1 1)
        (some (fun n => -buf2 (0 : ℝ) 0 n)) 2 (fun _ => 0) 0.1).2 1 = 0 :=
  ⟨((lms_conjugate_signal calloc_zero sigana_id (buf2 1 0) (buf2 0 1) 2 (fun _ => 0)
      (fun _ => 0) 0.1 (fun _ => ⟨0, 0⟩) rfl).2 1 (by norm_num) (by norm_num)
      (by rw [worked_example_coeff]; norm_num)).1
      (by
        rw [worked_example_result calloc_zero sigana_id Real.pi (fun _ => 0)
          (fun _ => ⟨0, 0⟩) rfl]
        have h1 := Real.neg_pi_div_two_lt_arctan (-0.25)
        have h2 := Real.pi_pos
        apply ne_of_gt
        apply div_pos <;> linarith),
    ((lms_conjugate_signal calloc_zero sigana_id (buf2 1 1) (buf2 0 0) 2 (fun _ => 0)
      (fun _ => 0) 0.1 (fun _ => ⟨0, 0⟩) rfl).2 1 (by norm_num) (by norm_num)
      (by rw [real_example_coeff]; norm_num)).2
      (by
        rw [lms_complex_result calloc_zero sigana_id Real.arctan Real.pi (buf2 1 1) (buf2 0 0) 2
          (fun _ => 0) 0.1 (fun _ => ⟨0, 0⟩) rfl 1 (by norm_num) (by norm_num),
          real_example_coeff]
        simp [lms_IFE, lms_phase])⟩

/-! ### Rounding to binary64 -/

namespace binary64

variable {β : Type} [LinearOrderedField β] [FloorRing β]

theorem roundEven_intCast (n : Int) : roundEven (n : β) = n := by
  unfold roundEven
  rw [Int.floor_intCast]
  have h : ((n : β) - (n : β)) < 1 / 2 := by
    rw [sub_self]
    norm_num
  rw [if_pos h]

/-- Rounding to an integer does not pass an integer bound from below. -/
theorem roundEven_le {t : β} {N : Int} (h : t ≤ N) : roundEven t ≤ N := by
  have hfl : (⌊t⌋ : β) ≤ t := Int.floor_le t
  have h1 : ⌊t⌋ ≤ N := by
    have : ((⌊t⌋ : Int) : β) ≤ (N : β) := le_trans hfl h
    exact_mod_cast this
  unfold roundEven
  by_cases c1 : t - ⌊t⌋ < 1 / 2
  · rw [if_pos c1]
    exact h1
  · have hlt : (⌊t⌋ : β) < t := by
      have : (1 / 2 : β) ≤ t - ⌊t⌋ := not_lt.mp c1
      have h2 : (0 : β) < 1 / 2 := by norm_num
      linarith
    have h2 : ⌊t⌋ + 1 ≤ N := by
      have : ((⌊t⌋ : Int) : β) < (N : β) := lt_of_lt_of_le hlt h
      have h3 : ⌊t⌋ < N := by exact_mod_cast this
      omega
    rw [if_neg c1]
    by_cases c2 : 1 / 2 < t - ⌊t⌋
    · rw [if_pos c2]
      exact h2
    · rw [if_neg c2]
      by_cases c3 : ⌊t⌋ % 2 = 0
      · rw [if_pos c3]
        exact h1
      · rw [if_neg c3]
        exact h2

/-- Rounding to an integer does not pass an integer bound from above. -/
theorem le_roundEven {t : β} {N : Int} (h : (N : β) ≤ t) : N ≤ roundEven t := by
  have h1 : N ≤ ⌊t⌋ := Int.le_floor.mpr h
  unfold roundEven
  by_cases c1 : t - ⌊t⌋ < 1 / 2
  · rw [if_pos c1]
    exact h1
  · rw [if_neg c1]
    by_cases c2 : 1 / 2 < t - ⌊t⌋
    · rw [if_pos c2]
      omega
    · rw [if_neg c2]
      by_cases c3 : ⌊t⌋ % 2 = 0
      · rw [if_pos c3]
        exact h1
      · rw [if_neg c3]
        omega

/-- A value closer than one half to an integer rounds to it. -/
theorem roundEven_near {t : β} (n : Int) (h1 : (n : β) - 1 / 2 < t) (h2 : t < n + 1 / 2) :
    roundEven t = n := by
  unfold roundEven
  by_cases c : (n : β) ≤ t
  · have hf : ⌊t⌋ = n := by
      rw [Int.floor_eq_iff]
      constructor
      · exact c
      · linarith
    rw [hf]
    have : t - (n : β) < 1 / 2 := by linarith
    rw [if_pos this]
  · have c2 : t < n := not_le.mp c
    have hf : ⌊t⌋ = n - 1 := by
      rw [Int.floor_eq_iff]
      push_cast
      constructor
      · linarith
      · linarith
    rw [hf]
    push_cast
    have n1 : ¬ (t - ((n : β) - 1) < 1 / 2) := by
      rw [not_lt]
      linarith
    have n2 : 1 / 2 < t - ((n : β) - 1) := by linarith
    rw [if_neg n1, if_pos n2]
    omega

theorem two_zpow_pos {γ : Type} [LinearOrderedField γ] (k : Int) : (0 : γ) < (2 : γ) ^ k :=
  zpow_pos (by norm_num) k

theorem ulp_pos (x : β) : 0 < ulp x := two_zpow_pos _

theorem expo_neg (x : β) : expo (-x) = expo x := by
  unfold expo
  rw [abs_neg]

theorem ulp_neg (x : β) : ulp (-x) = ulp x := by
  unfold ulp
  rw [expo_neg]

/-- The exponent of a value in the binade `[2^e, 2^(e+1))`, `e ≥ -1022`. -/
theorem expo_eq {x : β} (e : Int) (he : -1022 ≤ e) (h1 : (2 : β) ^ e ≤ |x|)
    (h2 : |x| < (2 : β) ^ (e + 1)) : expo x = e := by
  have hpos : 0 < |x| := lt_of_lt_of_le (two_zpow_pos e) h1
  have h2n : ((2 : ℕ) : β) = 2 := by norm_num
  have ha : e ≤ Int.log 2 |x| := by
    rw [← Int.zpow_le_iff_le_log (by norm_num) hpos, h2n]
    exact h1
  have hb : Int.log 2 |x| < e + 1 := by
    rw [← Int.lt_zpow_iff_log_lt (by norm_num) hpos, h2n]
    exact h2
  unfold expo
  omega

/-- An upper bound of the exponent from an upper bound of the value. -/
theorem expo_le {x : β} (h0 : x ≠ 0) (e : Int) (he : -1022 ≤ e)
    (h : |x| < (2 : β) ^ (e + 1)) : expo x ≤ e := by
  have hpos : 0 < |x| := abs_pos.mpr h0
  have h2n : ((2 : ℕ) : β) = 2 := by norm_num
  have hb : Int.log 2 |x| < e + 1 := by
    rw [← Int.lt_zpow_iff_log_lt (by norm_num) hpos, h2n]
    exact h
  unfold expo
  omega

theorem roundNE_zero : roundNE (0 : β) = 0 := by
  unfold roundNE
  have h : ¬ ((0 : β) < 0) := lt_irrefl 0
  rw [if_neg h, zero_div]
  have : roundEven (0 : β) = 0 := by
    have := roundEven_intCast (β := β) 0
    simpa using this
  rw [this]
  simp

/-- Rounding commutes with negation. -/
theorem roundNE_neg (x : β) : roundNE (-x) = -roundNE x := by
  rcases lt_trichotomy x 0 with h | h | h
  · have h1 : ¬ (-x < 0) := by
      rw [not_lt]
      linarith
    unfold roundNE
    rw [if_neg h1, if_pos h, ulp_neg, neg_neg]
  · rw [h, neg_zero, roundNE_zero, neg_zero]
  · have h1 : -x < 0 := by linarith
    have h2 : ¬ (x < 0) := by
      rw [not_lt]
      linarith
    unfold roundNE
    rw [if_pos h1, if_neg h2, ulp_neg, neg_neg]

theorem roundNE_of_nonneg {x : β} (h : 0 ≤ x) :
    roundNE x = (roundEven (x / ulp x) : β) * ulp x := by
  unfold roundNE
  rw [if_neg (not_lt.mpr h)]

end binary64

namespace binary64

variable {β : Type} [LinearOrderedField β] [FloorRing β]

/-- A binary64 number `B` is a multiple of the spacing at every positive
`x ≤ B`. -/
theorem rep_multiple {B x : β} (hB : Rep B) (hx0 : 0 < x) (hxB : x ≤ B) :
    ∃ N : Int, B = (N : β) * ulp x := by
  rcases hB with ⟨m, k, hBm, hm, hk, _⟩
  have h2k : (0 : β) < (2 : β) ^ k := two_zpow_pos k
  have hm1 : (m : β) < (2 : β) ^ (53 : Nat) := by
    have : m < 2 ^ 53 := lt_of_le_of_lt (le_abs_self m) hm
    exact_mod_cast this
  have hlt : |x| < (2 : β) ^ (k + 52 + 1) := by
    rw [abs_of_pos hx0]
    have e : (2 : β) ^ (k + 52 + 1) = (2 : β) ^ (53 : Nat) * (2 : β) ^ k := by
      rw [← zpow_natCast, ← zpow_add₀ (by norm_num)]
      congr 1
      push_cast
      ring
    rw [e]
    calc x ≤ B := hxB
      _ = (m : β) * (2 : β) ^ k := hBm
      _ < (2 : β) ^ (53 : Nat) * (2 : β) ^ k := mul_lt_mul_of_pos_right hm1 h2k
  have he : expo x ≤ k + 52 := expo_le (ne_of_gt hx0) (k + 52) (by omega) hlt
  refine ⟨m * 2 ^ (k + 52 - expo x).toNat, ?_⟩
  have hn : (((k + 52 - expo x).toNat : Nat) : Int) = k + 52 - expo x := Int.toNat_of_nonneg (by omega)
  unfold ulp
  push_cast
  rw [hBm, mul_assoc, ← zpow_natCast, hn, ← zpow_add₀ (by norm_num)]
  congr 2
  ring

/-- A positive binary64 number rounds to itself. -/
theorem roundNE_of_rep_pos {x : β} (h : Rep x) (hx : 0 < x) : roundNE x = x := by
  rcases rep_multiple h hx (le_refl x) with ⟨N, hN⟩
  have hu := ulp_pos x
  have hq : x / ulp x = (N : β) := by
    rw [eq_comm, eq_div_iff (ne_of_gt hu)]
    exact hN.symm
  rw [roundNE_of_nonneg (le_of_lt hx), hq, roundEven_intCast]
  exact hN.symm

omit [FloorRing β] in
theorem rep_neg {x : β} (h : Rep x) : Rep (-x) := by
  rcases h with ⟨m, k, hx, hm, hk, hb⟩
  refine ⟨-m, k, ?_, ?_, hk, ?_⟩
  · rw [hx]
    push_cast
    ring
  · rw [abs_neg]
    exact hm
  · rw [abs_neg]
    exact hb

/-- Every binary64 number rounds to itself. -/
theorem roundNE_of_rep {x : β} (h : Rep x) : roundNE x = x := by
  rcases lt_trichotomy x 0 with hx | hx | hx
  · have h1 := roundNE_of_rep_pos (rep_neg h) (by linarith : 0 < -x)
    rw [roundNE_neg] at h1
    linarith
  · rw [hx]
    exact roundNE_zero
  · exact roundNE_of_rep_pos h hx

/-- Rounding keeps a non-negative value between 0 and any binary64 number above
it. -/
theorem roundNE_bounds {B x : β} (hB : Rep B) (h0 : 0 ≤ x) (hxB : x ≤ B) :
    0 ≤ roundNE x ∧ roundNE x ≤ B := by
  rcases lt_or_eq_of_le h0 with hx | hx
  · rcases rep_multiple hB hx hxB with ⟨N, hN⟩
    have hu := ulp_pos x
    rw [roundNE_of_nonneg h0]
    constructor
    · have h1 : ((0 : Int) : β) ≤ x / ulp x := by
        simp only [Int.cast_zero]
        exact div_nonneg h0 (le_of_lt hu)
      have h2 : (0 : Int) ≤ roundEven (x / ulp x) := le_roundEven h1
      have h3 : (0 : β) ≤ (roundEven (x / ulp x) : β) := by exact_mod_cast h2
      exact mul_nonneg h3 (le_of_lt hu)
    · have h1 : x / ulp x ≤ (N : β) := by
        rw [div_le_iff₀ hu, ← hN]
        exact hxB
      have h2 : roundEven (x / ulp x) ≤ N := roundEven_le h1
      have h3 : (roundEven (x / ulp x) : β) ≤ (N : β) := by exact_mod_cast h2
      rw [hN]
      exact mul_le_mul_of_nonneg_right h3 (le_of_lt hu)
  · rw [← hx, roundNE_zero]
    exact ⟨le_refl 0, by rw [hx]; exact hxB⟩

theorem rnd_zero (s : Bool) : rnd s (0 : β) = double.signedZero s := by
  have h : ¬ ((2 : β) ^ (1024 : Nat) ≤ |roundNE (0 : β)|) := by
    rw [roundNE_zero, abs_zero, not_le]
    positivity
  unfold rnd
  rw [if_neg h, if_pos roundNE_zero]

/-- An operation whose exact result is a non-zero binary64 number returns it. -/
theorem rnd_of_rep (s : Bool) {x : β} (h : Rep x) (h0 : x ≠ 0) : rnd s x = double.fin x := by
  have hr := roundNE_of_rep h
  rcases h with ⟨m, k, hx, hm, hk, hb⟩
  unfold rnd
  rw [hr, if_neg (not_le.mpr hb), if_neg h0]

/-- An operation whose exact result lies between 0 and a binary64 number `B`
returns a finite double between 0 and `B`. -/
theorem rnd_bounds (s : Bool) {B x : β} (hB : Rep B) (h0 : 0 ≤ x) (hxB : x ≤ B) :
    (rnd s x).isFin = true ∧ 0 ≤ (rnd s x).val ∧ (rnd s x).val ≤ B := by
  have hb := roundNE_bounds hB h0 hxB
  have hBb : |B| < (2 : β) ^ (1024 : Nat) := by
    rcases hB with ⟨m, k, hx, hm, hk, hb2⟩
    exact hb2
  have hB0 : 0 ≤ B := le_trans h0 hxB
  have hov : ¬ ((2 : β) ^ (1024 : Nat) ≤ |roundNE x|) := by
    rw [not_le, abs_of_nonneg hb.1]
    rw [abs_of_nonneg hB0] at hBb
    exact lt_of_le_of_lt hb.2 hBb
  unfold rnd
  rw [if_neg hov]
  by_cases hz : roundNE x = 0
  · rw [if_pos hz]
    have := double.signedZero_isFin (β := β) s
    exact ⟨this.1, by rw [this.2], by rw [this.2]; exact hB0⟩
  · rw [if_neg hz]
    exact ⟨rfl, hb.1, hb.2⟩

end binary64

namespace binary64

variable {β : Type} [LinearOrderedField β] [FloorRing β]

omit [FloorRing β] in
theorem PI_pos : (0 : β) < PI := by
  unfold PI
  positivity

omit [FloorRing β] in
theorem PI_lt_four : (PI : β) < 4 := by
  unfold PI
  rw [div_lt_iff₀ (by positivity)]
  norm_num

omit [FloorRing β] in
theorem four_lt_huge : (4 : β) < (2 : β) ^ (1024 : Nat) := by
  norm_num

omit [FloorRing β] in
theorem PI_rep : Rep (PI : β) := by
  refine ⟨884279719003555, -48, ?_, by norm_num, by norm_num, ?_⟩
  · unfold PI
    rw [zpow_neg, div_eq_mul_inv]
    norm_num
  · rw [abs_of_pos PI_pos]
    exact lt_trans PI_lt_four four_lt_huge

omit [FloorRing β] in
theorem two_PI_rep : Rep (2 * PI : β) := by
  refine ⟨884279719003555, -47, ?_, by norm_num, by norm_num, ?_⟩
  · unfold PI
    rw [zpow_neg]
    norm_num
  · have h1 := PI_pos (β := β)
    have h2 := PI_lt_four (β := β)
    have h3 : (8 : β) < (2 : β) ^ (1024 : Nat) := by
      norm_num
    rw [abs_of_pos (by linarith)]
    linarith

omit [FloorRing β] in
theorem half_rep : Rep (1 / 2 : β) := by
  refine ⟨1, -1, ?_, by norm_num, by norm_num, ?_⟩
  · rw [zpow_neg]
    norm_num
  · have h := four_lt_huge (β := β)
    rw [abs_of_pos (by norm_num)]
    linarith

end binary64

/-! ### binary64: the range of the stored estimate -/

namespace binary64

variable {β : Type} [LinearOrderedField β] [FloorRing β]

/-- A rounded result is never not-a-number. -/
theorem rnd_isNaN (s : Bool) (x : β) : (rnd s x).isNaN = false := by
  unfold rnd
  split_ifs
  · cases decide (x < 0) <;> rfl
  · cases s <;> rfl
  · rfl

/-- The quotient of two finite doubles that are not both zero is not
not-a-number. -/
theorem divD_isNaN {a b : double β} (ha : a.isFin = true) (hb : b.isFin = true)
    (hnd : ¬ (b.isZero = true ∧ a.isZero = true)) : (divD a b).isNaN = false := by
  have fa := double.isFin_flags ha
  have fb := double.isFin_flags hb
  unfold divD
  simp only [fa.1, fa.2, fb.1, fb.2, Bool.or_self, Bool.false_eq_true, if_false]
  by_cases hz : b.isZero = true
  · have ha0 : ¬ (a.isZero = true) := fun h => hnd ⟨hz, h⟩
    rw [if_pos hz, if_neg ha0]
    cases xor a.sign b.sign <;> rfl
  · rw [if_neg hz]
    exact rnd_isNaN _ _

omit [FloorRing β] in
/-- The library `atan` of a double that is not not-a-number is finite and lies
between `-PI/2` and `PI/2`, when the library's finite results do. -/
theorem atan_range (atanF : β → β) (hat : ∀ x, -(PI / 2) ≤ atanF x ∧ atanF x ≤ PI / 2)
    {q : double β} (hq : q.isNaN = false) :
    (double.atan atanF PI q).isFin = true ∧ -(PI / 2) ≤ (double.atan atanF PI q).val ∧
      (double.atan atanF PI q).val ≤ PI / 2 := by
  have hp := PI_pos (β := β)
  cases q with
  | fin x => exact ⟨rfl, (hat x).1, (hat x).2⟩
  | nzero =>
    refine ⟨rfl, ?_, ?_⟩ <;> simp only [double.atan, double.val] <;> linarith
  | pinf =>
    refine ⟨rfl, ?_, ?_⟩ <;> simp only [double.atan, double.val] <;> linarith
  | ninf =>
    refine ⟨rfl, ?_, ?_⟩ <;> simp only [double.atan, double.val] <;> linarith
  | nan => simp [double.isNaN] at hq

omit [FloorRing β] in
/-- On finite doubles the test `a < 0` is the test on the values. -/
theorem lt_zero_iff_val {a : binary64 β} (ha : a.d.isFin = true) : a < 0 ↔ a.d.val < 0 := by
  have e : (a < 0) ↔ double.blt a.d (double.fin 0) = true := Iff.rfl
  rw [e]
  rcases double.isFin_cases ha with h | ⟨x, h⟩ <;> rw [h] <;> simp [double.blt, double.val]

/-- The phase after the add-π-if-negative rule, for a finite `atan` result in
`[-PI/2, PI/2]`: finite, between 0 and `PI`. -/
theorem phase_range (t : binary64 β) (ht : t.d.isFin = true) (h1 : -(PI / 2) ≤ t.d.val)
    (h2 : t.d.val ≤ PI / 2) :
    (if t < 0 then t + ⟨double.fin PI⟩ else t).d.isFin = true ∧
    0 ≤ (if t < 0 then t + ⟨double.fin PI⟩ else t).d.val ∧
    (if t < 0 then t + ⟨double.fin PI⟩ else t).d.val ≤ PI := by
  have hp := PI_pos (β := β)
  by_cases hneg : t < 0
  · rw [if_pos hneg]
    have hv := (lt_zero_iff_val ht).mp hneg
    rcases double.isFin_cases ht with h | ⟨v, h⟩
    · rw [h] at hv
      simp [double.val] at hv
    · rw [h] at hv h1 h2
      simp only [double.val] at hv h1 h2
      have e : (t + ⟨double.fin PI⟩ : binary64 β).d
          = rnd (decide (v + PI < 0)) (v + PI) := by
        show addD t.d (double.fin PI) = _
        rw [h]
        rfl
      rw [e]
      exact rnd_bounds _ PI_rep (by linarith) (by linarith)
  · rw [if_neg hneg]
    have hv : ¬ (t.d.val < 0) := fun h => hneg ((lt_zero_iff_val ht).mpr h)
    exact ⟨ht, not_lt.mp hv, le_trans h2 (half_le_self (le_of_lt hp))⟩

/-- Twice `TFSA_PI` is computed exactly. -/
theorem two_mul_PI : ((2 : binary64 β) * ⟨double.fin PI⟩).d = double.fin (2 * PI) := by
  have hp := PI_pos (β := β)
  show mulD (double.fin 2) (double.fin PI) = _
  unfold mulD
  simp only [double.isNaN, double.isInf, Bool.or_self, Bool.false_eq_true, if_false, double.val]
  exact rnd_of_rep _ two_PI_rep (by linarith)

/-- A finite phase between 0 and `PI` divided by `2·PI` is a finite double
between 0 and 1/2. -/
theorem normalise_range (p : binary64 β) (hp : p.d.isFin = true) (h1 : 0 ≤ p.d.val)
    (h2 : p.d.val ≤ PI) :
    (p / ((2 : binary64 β) * ⟨double.fin PI⟩)).d.isFin = true ∧
    0 ≤ (p / ((2 : binary64 β) * ⟨double.fin PI⟩)).d.val ∧
    (p / ((2 : binary64 β) * ⟨double.fin PI⟩)).d.val ≤ 1 / 2 := by
  have hpi := PI_pos (β := β)
  have h2pi : (0 : β) < 2 * PI := by linarith
  have fp := double.isFin_flags hp
  have e : (p / ((2 : binary64 β) * ⟨double.fin PI⟩)).d
      = rnd (xor p.d.sign (double.fin (2 * PI : β)).sign) (p.d.val / (2 * PI)) := by
    show divD p.d ((2 : binary64 β) * ⟨double.fin PI⟩).d = _
    rw [two_mul_PI]
    unfold divD
    have hz : ¬ ((2 : β) * PI = 0) := ne_of_gt h2pi
    have gn : (double.fin (2 * PI : β)).isNaN = false := rfl
    have gi : (double.fin (2 * PI : β)).isInf = false := rfl
    have gz : (double.fin (2 * PI : β)).isZero = false := by
      simp only [double.isZero, decide_eq_false_iff_not]
      exact hz
    have gv : (double.fin (2 * PI : β)).val = 2 * PI := rfl
    simp only [fp.1, fp.2, gn, gi, gz, gv, Bool.or_self, Bool.false_eq_true, if_false]
  rw [e]
  apply rnd_bounds _ half_rep
  · exact div_nonneg h1 (le_of_lt h2pi)
  · rw [div_le_iff₀ h2pi]
    linarith

/-- In binary64, for a finite coefficient that is not (±0, ±0), the stored
estimate is a finite double between 0 and 1/2 inclusive, for every library
`atan` whose finite results lie in `[-PI/2, PI/2]`. -/
theorem IFE_bounds (atanF : β → β) (hat : ∀ x, -(PI / 2) ≤ atanF x ∧ atanF x ≤ PI / 2)
    (c : complex (binary64 β)) (hre : c.re.d.isFin = true) (him : c.im.d.isFin = true)
    (hnd : ¬ (c.re.d.isZero = true ∧ c.im.d.isZero = true)) :
    (lms_IFE (atan atanF PI) ⟨double.fin PI⟩ c).d.isFin = true ∧
    0 ≤ (lms_IFE (atan atanF PI) ⟨double.fin PI⟩ c).d.val ∧
    (lms_IFE (atan atanF PI) ⟨double.fin PI⟩ c).d.val ≤ 1 / 2 := by
  have hq : (c.im / c.re).d.isNaN = false := divD_isNaN him hre hnd
  have ht := atan_range atanF hat hq
  have hph := phase_range (atan atanF PI (c.im / c.re)) ht.1 ht.2.1 ht.2.2
  exact normalise_range _ hph.1 hph.2.1 hph.2.2

end binary64

/-! ### binary64: operations on finite values -/

namespace binary64

variable {β : Type} [LinearOrderedField β] [FloorRing β]

omit [FloorRing β] in
theorem two_eq : (2 : binary64 β) = ⟨double.fin 2⟩ := rfl

omit [FloorRing β] in
theorem zero_eq : (0 : binary64 β) = ⟨double.fin 0⟩ := rfl

theorem mul_mk (x y : β) :
    (⟨double.fin x⟩ * ⟨double.fin y⟩ : binary64 β)
      = ⟨rnd (xor (decide (x < 0)) (decide (y < 0))) (x * y)⟩ := rfl

theorem add_mk (x y : β) :
    (⟨double.fin x⟩ + ⟨double.fin y⟩ : binary64 β) = ⟨rnd (decide (x + y < 0)) (x + y)⟩ := rfl

/-- A product whose exact value is a non-zero binary64 number. -/
theorem mul_eq {x y z : β} (h : x * y = z) (hz : Rep z) (h0 : z ≠ 0) :
    (⟨double.fin x⟩ * ⟨double.fin y⟩ : binary64 β) = ⟨double.fin z⟩ := by
  rw [mul_mk, h, rnd_of_rep _ hz h0]

/-- A zero product of non-negative factors is `+0`. -/
theorem mul_eq_zero_nonneg {x y : β} (hx : 0 ≤ x) (hy : 0 ≤ y) (h : x * y = 0) :
    (⟨double.fin x⟩ * ⟨double.fin y⟩ : binary64 β) = ⟨double.fin 0⟩ := by
  have hx2 : decide (x < 0) = false := decide_eq_false (not_lt.mpr hx)
  have hy2 : decide (y < 0) = false := decide_eq_false (not_lt.mpr hy)
  rw [mul_mk, h, rnd_zero, hx2, hy2]
  rfl

/-- A sum whose exact value is a non-zero binary64 number. -/
theorem add_eq {x y z : β} (h : x + y = z) (hz : Rep z) (h0 : z ≠ 0) :
    (⟨double.fin x⟩ + ⟨double.fin y⟩ : binary64 β) = ⟨double.fin z⟩ := by
  rw [add_mk, h, rnd_of_rep _ hz h0]

/-- An exactly cancelling sum is `+0`. -/
theorem add_eq_zero {x y : β} (h : x + y = 0) :
    (⟨double.fin x⟩ + ⟨double.fin y⟩ : binary64 β) = ⟨double.fin 0⟩ := by
  have h2 : decide ((0 : β) < 0) = false := decide_eq_false (lt_irrefl 0)
  rw [add_mk, h, rnd_zero, h2]
  rfl

/-- Subtracting `+0` changes nothing. -/
theorem sub_pos_zero (a : double β) (ha : a.isFin = true) (hz : a ≠ double.nzero) :
    ((⟨a⟩ : binary64 β) - ⟨double.fin 0⟩) = ⟨a⟩ := by
  rcases double.isFin_cases ha with h | ⟨x, h⟩
  · exact absurd h hz
  · rw [h]
    show (⟨addD (double.fin x) (double.neg (double.fin 0))⟩ : binary64 β) = _
    simp [double.neg, addD]

theorem sub_mk {x y : β} (hy : y ≠ 0) :
    (⟨double.fin x⟩ - ⟨double.fin y⟩ : binary64 β)
      = ⟨rnd (decide (x + -y < 0)) (x + -y)⟩ := by
  show (⟨addD (double.fin x) (double.neg (double.fin y))⟩ : binary64 β) = _
  simp [double.neg, addD, hy]

/-- A difference whose exact value is a non-zero binary64 number. -/
theorem sub_eq {x y z : β} (hy : y ≠ 0) (h : x - y = z) (hz : Rep z) (h0 : z ≠ 0) :
    (⟨double.fin x⟩ - ⟨double.fin y⟩ : binary64 β) = ⟨double.fin z⟩ := by
  rw [sub_mk hy, ← sub_eq_add_neg, h, rnd_of_rep _ hz h0]

theorem div_mk {x y : β} (hy : y ≠ 0) :
    (⟨double.fin x⟩ / ⟨double.fin y⟩ : binary64 β)
      = ⟨rnd (xor (decide (x < 0)) (decide (y < 0))) (x / y)⟩ := by
  show (⟨divD (double.fin x) (double.fin y)⟩ : binary64 β) = _
  simp [divD, double.isNaN, double.isInf, double.isZero, double.val, double.sign, hy]

/-- A quotient whose exact value is a non-zero binary64 number. -/
theorem div_eq {x y z : β} (hy : y ≠ 0) (h : x / y = z) (hz : Rep z) (h0 : z ≠ 0) :
    (⟨double.fin x⟩ / ⟨double.fin y⟩ : binary64 β) = ⟨double.fin z⟩ := by
  rw [div_mk hy, h, rnd_of_rep _ hz h0]

omit [FloorRing β] in
/-- The powers of two in the binary64 range are binary64 numbers. -/
theorem rep_two_zpow (k : Int) (h1 : -1074 ≤ k) (h2 : k < 1024) : Rep ((2 : β) ^ k) := by
  refine ⟨1, k, by simp, by norm_num, h1, ?_⟩
  rw [abs_of_pos (two_zpow_pos k), ← zpow_natCast]
  exact zpow_lt_zpow_right₀ (by norm_num) (by exact_mod_cast h2)

omit [FloorRing β] in
theorem rep_one : Rep (1 : β) := by
  have h := rep_two_zpow (β := β) 0 (by norm_num) (by norm_num)
  simpa using h

omit [FloorRing β] in
theorem rep_two : Rep (2 : β) := by
  have h := rep_two_zpow (β := β) 1 (by norm_num) (by norm_num)
  simpa using h

end binary64

/-! ### binary64: an input that stores exactly 1/2 -/

namespace binary64

/-- In binary64 the samples (1,0), (0, 2^-70) with mu = 1/4 give the finite
coefficient (1/2, -2^-71) after the first update. -/
theorem coeff_half_example :
    lms_coeff (fun n => (⟨buf2 ⟨double.fin 1⟩ ⟨double.fin 0⟩ n,
        buf2 ⟨double.fin 0⟩ ⟨double.fin ((2 : ℝ) ^ (-70 : Int))⟩ n⟩ : complex (binary64 ℝ)))
      ⟨double.fin (1 / 4)⟩ 1
      = ⟨⟨double.fin (1 / 2)⟩, ⟨double.fin (-((2 : ℝ) ^ (-71 : Int)))⟩⟩ := by
  have repE : Rep ((2 : ℝ) ^ (-70 : Int)) := rep_two_zpow _ (by norm_num) (by norm_num)
  have repE2 : Rep ((2 : ℝ) ^ (-71 : Int)) := rep_two_zpow _ (by norm_num) (by norm_num)
  have hE : (0 : ℝ) < (2 : ℝ) ^ (-70 : Int) := two_zpow_pos _
  have hE2 : (0 : ℝ) < (2 : ℝ) ^ (-71 : Int) := two_zpow_pos _
  have h11 : (⟨double.fin 1⟩ * ⟨double.fin 1⟩ : binary64 ℝ) = ⟨double.fin 1⟩ :=
    mul_eq (by norm_num) rep_one one_ne_zero
  have h00 : (⟨double.fin 0⟩ * ⟨double.fin 0⟩ : binary64 ℝ) = ⟨double.fin 0⟩ :=
    mul_eq_zero_nonneg (le_refl 0) (le_refl 0) (by norm_num)
  have h10 : (⟨double.fin 1⟩ * ⟨double.fin 0⟩ : binary64 ℝ) = ⟨double.fin 0⟩ :=
    mul_eq_zero_nonneg (by norm_num) (le_refl 0) (by norm_num)
  have h01 : (⟨double.fin 0⟩ * ⟨double.fin 1⟩ : binary64 ℝ) = ⟨double.fin 0⟩ :=
    mul_eq_zero_nonneg (le_refl 0) (by norm_num) (by norm_num)
  have s10 : (⟨double.fin 1⟩ - ⟨double.fin 0⟩ : binary64 ℝ) = ⟨double.fin 1⟩ :=
    sub_pos_zero _ rfl (by intro h; cases h)
  have a10 : (⟨double.fin 1⟩ + ⟨double.fin 0⟩ : binary64 ℝ) = ⟨double.fin 1⟩ :=
    add_eq (by norm_num) rep_one one_ne_zero
  have a00 : (⟨double.fin 0⟩ + ⟨double.fin 0⟩ : binary64 ℝ) = ⟨double.fin 0⟩ :=
    add_eq_zero (by norm_num)
  have a0E : (⟨double.fin 0⟩ + ⟨double.fin ((2 : ℝ) ^ (-70 : Int))⟩ : binary64 ℝ)
      = ⟨double.fin ((2 : ℝ) ^ (-70 : Int))⟩ :=
    add_eq (zero_add _) repE (ne_of_gt hE)
  have m2q : (⟨double.fin 2⟩ * ⟨double.fin (1 / 4)⟩ : binary64 ℝ) = ⟨double.fin (1 / 2)⟩ :=
    mul_eq (by norm_num) half_rep (by norm_num)
  have mE0 : (⟨double.fin ((2 : ℝ) ^ (-70 : Int))⟩ * ⟨double.fin 0⟩ : binary64 ℝ)
      = ⟨double.fin 0⟩ :=
    mul_eq_zero_nonneg (le_of_lt hE) (le_refl 0) (mul_zero _)
  have mh1 : (⟨double.fin (1 / 2)⟩ * ⟨double.fin 1⟩ : binary64 ℝ) = ⟨double.fin (1 / 2)⟩ :=
    mul_eq (by norm_num) half_rep (by norm_num)
  have s1h : (⟨double.fin 1⟩ - ⟨double.fin (1 / 2)⟩ : binary64 ℝ) = ⟨double.fin (1 / 2)⟩ :=
    sub_eq (by norm_num) (by norm_num) half_rep (by norm_num)
  have mE1 : (⟨double.fin ((2 : ℝ) ^ (-70 : Int))⟩ * ⟨double.fin 1⟩ : binary64 ℝ)
      = ⟨double.fin ((2 : ℝ) ^ (-70 : Int))⟩ :=
    mul_eq (mul_one _) repE (ne_of_gt hE)
  have sE0 : (⟨double.fin ((2 : ℝ) ^ (-70 : Int))⟩ - ⟨double.fin 0⟩ : binary64 ℝ)
      = ⟨double.fin ((2 : ℝ) ^ (-70 : Int))⟩ :=
    sub_pos_zero _ rfl (by intro h; cases h)
  have mhE : (⟨double.fin (1 / 2)⟩ * ⟨double.fin ((2 : ℝ) ^ (-70 : Int))⟩ : binary64 ℝ)
      = ⟨double.fin ((2 : ℝ) ^ (-71 : Int))⟩ :=
    mul_eq (by norm_num) repE2 (ne_of_gt hE2)
  have s0E : (⟨double.fin 0⟩ - ⟨double.fin ((2 : ℝ) ^ (-71 : Int))⟩ : binary64 ℝ)
      = ⟨double.fin (-((2 : ℝ) ^ (-71 : Int)))⟩ :=
    sub_eq (ne_of_gt hE2) (zero_sub _) (rep_neg repE2) (neg_ne_zero.mpr (ne_of_gt hE2))
  have hn : ¬ (0 + 1 = 0) := by omega
  simp only [lms_coeff, lms_update, lms_error, buf2, if_true, if_neg hn, two_eq,
    h11, h00, h10, h01, s10, a10, a00, a0E, m2q, mE0, mh1, s1h, mE1, sE0, mhE, s0E]

end binary64

namespace binary64

variable {β : Type} [LinearOrderedField β] [FloorRing β]

/-- Rounding does not leave the binade from below. -/
theorem roundNE_ge_pow {x : β} (e : Int) (he : -1022 ≤ e) (h1 : (2 : β) ^ e ≤ x)
    (h2 : x < (2 : β) ^ (e + 1)) : (2 : β) ^ e ≤ roundNE x := by
  have hx : 0 < x := lt_of_lt_of_le (two_zpow_pos e) h1
  have hexp : expo x = e := by
    apply expo_eq e he
    · rw [abs_of_pos hx]
      exact h1
    · rw [abs_of_pos hx]
      exact h2
  have hu : ulp x = (2 : β) ^ (e - 52) := by
    unfold ulp
    rw [hexp]
  have hupos := ulp_pos x
  have hc : (((2 : Int) ^ (52 : Nat) : Int) : β) = (2 : β) ^ (52 : Int) := by
    norm_num
  have hsplit : (2 : β) ^ e = (((2 : Int) ^ (52 : Nat) : Int) : β) * ulp x := by
    rw [hu, hc, ← zpow_add₀ (by norm_num)]
    congr 1
    ring
  have hle : (((2 : Int) ^ (52 : Nat) : Int) : β) ≤ x / ulp x := by
    rw [le_div_iff₀ hupos, ← hsplit]
    exact h1
  have hr := le_roundEven hle
  have hr2 : (((2 : Int) ^ (52 : Nat) : Int) : β) ≤ (roundEven (x / ulp x) : β) := by
    exact_mod_cast hr
  rw [roundNE_of_nonneg (le_of_lt hx), hsplit]
  exact mul_le_mul_of_nonneg_right hr2 (le_of_lt hupos)

/-- Adding `TFSA_PI` to a negative value of magnitude at most `2^-70` returns
`TFSA_PI`: the sum rounds back to it. -/
theorem rnd_PI_sub_small (s : Bool) {w : β} (h0 : 0 ≤ w) (h1 : w ≤ (2 : β) ^ (-70 : Int)) :
    rnd s (-w + PI) = double.fin (PI : β) := by
  have hsmall : (2 : β) ^ (-70 : Int) < 1 / 2 ^ (52 : Nat) := by
    rw [zpow_neg, ← zpow_natCast, ← one_div]
    apply one_div_lt_one_div_of_lt
    · positivity
    · exact zpow_lt_zpow_right₀ (by norm_num) (by norm_num)
  have hpi3 : (3 : β) < PI := by
    unfold PI
    rw [lt_div_iff₀ (by positivity)]
    norm_num
  have hpi4 := PI_lt_four (β := β)
  have hw1 : w < 1 / 2 ^ (52 : Nat) := lt_of_le_of_lt h1 hsmall
  have hw2 : (1 : β) / 2 ^ (52 : Nat) ≤ 1 := by
    rw [div_le_one (by positivity)]
    exact one_le_pow₀ (by norm_num)
  have hx : 0 < -w + PI := by linarith
  have hexp : expo (-w + PI) = 1 := by
    apply expo_eq 1 (by norm_num)
    · rw [abs_of_pos hx]
      norm_num
      linarith
    · rw [abs_of_pos hx]
      norm_num
      linarith
  have hu : ulp (-w + PI) = 1 / 2 ^ (51 : Nat) := by
    unfold ulp
    rw [hexp]
    have : (1 : Int) - 52 = -51 := by norm_num
    rw [this, zpow_neg, ← zpow_natCast, one_div]
    norm_num
  have hK : (PI : β) = ((7074237752028440 : Int) : β) * (1 / 2 ^ (51 : Nat)) := by
    unfold PI
    push_cast
    rw [div_eq_iff (by positivity)]
    norm_num
  have hr : roundNE (-w + PI) = PI := by
    rw [roundNE_of_nonneg (le_of_lt hx), hu]
    have hq : (-w + PI) / (1 / 2 ^ (51 : Nat))
        = ((7074237752028440 : Int) : β) - w * 2 ^ (51 : Nat) := by
      rw [hK]
      field_simp
      ring
    have hws : w * 2 ^ (51 : Nat) < 1 / 2 := by
      have h2pos : (0 : β) < 2 ^ (51 : Nat) := by positivity
      have := mul_lt_mul_of_pos_right hw1 h2pos
      have e : (1 : β) / 2 ^ (52 : Nat) * 2 ^ (51 : Nat) = 1 / 2 := by
        norm_num
      rw [e] at this
      exact this
    have hwn : 0 ≤ w * 2 ^ (51 : Nat) := mul_nonneg h0 (by positivity)
    rw [hq, roundEven_near (7074237752028440 : Int) (by linarith) (by linarith)]
    exact hK.symm
  have hpos := PI_pos (β := β)
  have hov : ¬ ((2 : β) ^ (1024 : Nat) ≤ |roundNE (-w + PI)|) := by
    rw [hr, abs_of_pos hpos, not_le]
    exact lt_trans hpi4 four_lt_huge
  unfold rnd
  rw [if_neg hov, hr, if_neg (ne_of_gt hpos)]

end binary64

namespace binary64

/-- The correctly rounded `atan(-2^-70)` is negative, of magnitude at most
`2^-70`. -/
theorem atanCR_small :
    atanCR (-((2 : ℝ) ^ (-70 : Int))) < 0 ∧
    -((2 : ℝ) ^ (-70 : Int)) ≤ atanCR (-((2 : ℝ) ^ (-70 : Int))) := by
  have repE : Rep ((2 : ℝ) ^ (-70 : Int)) := rep_two_zpow _ (by norm_num) (by norm_num)
  have hE : (0 : ℝ) < (2 : ℝ) ^ (-70 : Int) := two_zpow_pos _
  have hl := arctan_lower_bound (le_of_lt hE)
  have hu := arctan_upper_bound (le_of_lt hE)
  have hlo : (2 : ℝ) ^ (-71 : Int) ≤ Real.arctan ((2 : ℝ) ^ (-70 : Int)) := by
    refine le_trans ?_ hl
    norm_num
  have hhi : Real.arctan ((2 : ℝ) ^ (-70 : Int)) < (2 : ℝ) ^ (-70 : Int) := by
    refine lt_of_le_of_lt hu ?_
    norm_num
  have hhi2 : Real.arctan ((2 : ℝ) ^ (-70 : Int)) < (2 : ℝ) ^ ((-71 : Int) + 1) := by
    have : ((-71 : Int) + 1) = -70 := by norm_num
    rw [this]
    exact hhi
  have h0 : 0 ≤ Real.arctan ((2 : ℝ) ^ (-70 : Int)) := le_trans (le_of_lt (two_zpow_pos _)) hlo
  have hb := roundNE_bounds repE h0 (le_of_lt hhi)
  have hg := roundNE_ge_pow (-71 : Int) (by norm_num) hlo hhi2
  have hpos : (0 : ℝ) < (2 : ℝ) ^ (-71 : Int) := two_zpow_pos _
  unfold atanCR
  rw [Real.arctan_neg, roundNE_neg]
  constructor
  · linarith
  · linarith [hb.2]

/-- In binary64 the value stored for the coefficient (1/2, -2^-71) is exactly
1/2, with the correctly rounded `atan`. -/
theorem IFE_half_example :
    lms_IFE (atan atanCR PI) ⟨double.fin PI⟩
      (⟨⟨double.fin (1 / 2)⟩, ⟨double.fin (-((2 : ℝ) ^ (-71 : Int)))⟩⟩ : complex (binary64 ℝ))
      = ⟨double.fin (1 / 2)⟩ := by
  have repE : Rep ((2 : ℝ) ^ (-70 : Int)) := rep_two_zpow _ (by norm_num) (by norm_num)
  have hE : (0 : ℝ) < (2 : ℝ) ^ (-70 : Int) := two_zpow_pos _
  have hpi := PI_pos (β := ℝ)
  have hq : (⟨double.fin (-((2 : ℝ) ^ (-71 : Int)))⟩ / ⟨double.fin (1 / 2)⟩ : binary64 ℝ)
      = ⟨double.fin (-((2 : ℝ) ^ (-70 : Int)))⟩ :=
    div_eq (by norm_num) (by norm_num) (rep_neg repE) (neg_ne_zero.mpr (ne_of_gt hE))
  have hs := atanCR_small
  have hat : atan atanCR PI (⟨double.fin (-((2 : ℝ) ^ (-70 : Int)))⟩ : binary64 ℝ)
      = ⟨double.fin (atanCR (-((2 : ℝ) ^ (-70 : Int))))⟩ := rfl
  have hneg : (⟨double.fin (atanCR (-((2 : ℝ) ^ (-70 : Int))))⟩ : binary64 ℝ) < 0 := by
    have hf : (⟨double.fin (atanCR (-((2 : ℝ) ^ (-70 : Int))))⟩ : binary64 ℝ).d.isFin
        = true := rfl
    rw [lt_zero_iff_val hf]
    exact hs.1
  have hsum : (⟨double.fin (atanCR (-((2 : ℝ) ^ (-70 : Int))))⟩ + ⟨double.fin PI⟩ : binary64 ℝ)
      = ⟨double.fin PI⟩ := by
    rw [add_mk]
    have e : atanCR (-((2 : ℝ) ^ (-70 : Int))) + PI
        = -(-atanCR (-((2 : ℝ) ^ (-70 : Int)))) + PI := by rw [neg_neg]
    rw [e, rnd_PI_sub_small _ (by linarith [hs.1]) (by linarith [hs.2])]
  have h2 : ((2 : binary64 ℝ) * ⟨double.fin PI⟩) = ⟨double.fin (2 * PI)⟩ := by
    have := two_mul_PI (β := ℝ)
    cases h : ((2 : binary64 ℝ) * ⟨double.fin PI⟩) with
    | mk d =>
      rw [h] at this
      simp only at this
      rw [this]
  have hdiv : (⟨double.fin PI⟩ / ⟨double.fin (2 * PI)⟩ : binary64 ℝ) = ⟨double.fin (1 / 2)⟩ :=
    div_eq (by linarith) (by field_simp; ring) half_rep (by norm_num)
  simp only [lms_IFE, lms_phase, hq, hat, if_pos hneg, hsum, h2, hdiv]

end binary64

/-! ### binary64: an input that overflows -/

namespace binary64

/-- In binary64 the samples (2^700, 0), (0, 0) with mu = 1 give the coefficient
(-∞, NaN) after the first update: the square of 2^700 overflows. -/
theorem coeff_overflow_example :
    lms_coeff (fun n => (⟨buf2 ⟨double.fin ((2 : ℝ) ^ (700 : Int))⟩ ⟨double.fin 0⟩ n,
        buf2 ⟨double.fin 0⟩ ⟨double.fin 0⟩ n⟩ : complex (binary64 ℝ)))
      ⟨double.fin 1⟩ 1
      = ⟨⟨double.ninf⟩, ⟨double.nan⟩⟩ := by
  have hH : (0 : ℝ) < (2 : ℝ) ^ (700 : Int) := two_zpow_pos _
  have hH0 : ¬ ((2 : ℝ) ^ (700 : Int) = 0) := ne_of_gt hH
  have hHn : ¬ ((2 : ℝ) ^ (700 : Int) < 0) := not_lt.mpr (le_of_lt hH)
  have hsq : (2 : ℝ) ^ (700 : Int) * (2 : ℝ) ^ (700 : Int) = (2 : ℝ) ^ (1400 : Int) := by
    rw [← zpow_add₀ (by norm_num)]
    norm_num
  have hbig : (2 : ℝ) ^ (1024 : Nat) ≤ |roundNE ((2 : ℝ) ^ (1400 : Int))| := by
    have h1 := roundNE_ge_pow (x := (2 : ℝ) ^ (1400 : Int)) 1400 (by norm_num) (le_refl _)
      (zpow_lt_zpow_right₀ (by norm_num) (by norm_num))
    have h2 : (2 : ℝ) ^ (1024 : Nat) ≤ (2 : ℝ) ^ (1400 : Int) := by
      rw [← zpow_natCast]
      exact zpow_le_zpow_right₀ (by norm_num) (by norm_num)
    exact le_trans (le_trans h2 h1) (le_abs_self _)
  have hpos14 : ¬ ((2 : ℝ) ^ (1400 : Int) < 0) := not_lt.mpr (le_of_lt (two_zpow_pos _))
  have mHH : (⟨double.fin ((2 : ℝ) ^ (700 : Int))⟩ * ⟨double.fin ((2 : ℝ) ^ (700 : Int))⟩ :
      binary64 ℝ) = ⟨double.pinf⟩ := by
    rw [mul_mk, hsq]
    unfold rnd
    rw [if_pos hbig]
    simp [double.signedInf, hpos14]
  have h00 : (⟨double.fin 0⟩ * ⟨double.fin 0⟩ : binary64 ℝ) = ⟨double.fin 0⟩ :=
    mul_eq_zero_nonneg (le_refl 0) (le_refl 0) (by norm_num)
  have mH0 : (⟨double.fin ((2 : ℝ) ^ (700 : Int))⟩ * ⟨double.fin 0⟩ : binary64 ℝ)
      = ⟨double.fin 0⟩ :=
    mul_eq_zero_nonneg (le_of_lt hH) (le_refl 0) (mul_zero _)
  have m0H : (⟨double.fin 0⟩ * ⟨double.fin ((2 : ℝ) ^ (700 : Int))⟩ : binary64 ℝ)
      = ⟨double.fin 0⟩ :=
    mul_eq_zero_nonneg (le_refl 0) (le_of_lt hH) (zero_mul _)
  have a00 : (⟨double.fin 0⟩ + ⟨double.fin 0⟩ : binary64 ℝ) = ⟨double.fin 0⟩ :=
    add_eq_zero (by norm_num)
  have m21 : (⟨double.fin 2⟩ * ⟨double.fin 1⟩ : binary64 ℝ) = ⟨double.fin 2⟩ :=
    mul_eq (by norm_num) rep_two (by norm_num)
  have sI0 : (⟨double.pinf⟩ - ⟨double.fin 0⟩ : binary64 ℝ) = ⟨double.pinf⟩ := by
    show (⟨addD double.pinf (double.neg (double.fin 0))⟩ : binary64 ℝ) = _
    simp [double.neg, addD]
  have aI0 : (⟨double.pinf⟩ + ⟨double.fin 0⟩ : binary64 ℝ) = ⟨double.pinf⟩ := rfl
  have mIH : (⟨double.pinf⟩ * ⟨double.fin ((2 : ℝ) ^ (700 : Int))⟩ : binary64 ℝ)
      = ⟨double.pinf⟩ := by
    show (⟨mulD double.pinf (double.fin ((2 : ℝ) ^ (700 : Int)))⟩ : binary64 ℝ) = _
    simp [mulD, double.isNaN, double.isInf, double.isZero, double.sign, double.signedInf,
      hH0, hHn]
  have m2I : (⟨double.fin 2⟩ * ⟨double.pinf⟩ : binary64 ℝ) = ⟨double.pinf⟩ := by
    show (⟨mulD (double.fin 2) double.pinf⟩ : binary64 ℝ) = _
    simp [mulD, double.isNaN, double.isInf, double.isZero, double.sign, double.signedInf]
  have sHI : (⟨double.fin ((2 : ℝ) ^ (700 : Int))⟩ - ⟨double.pinf⟩ : binary64 ℝ)
      = ⟨double.ninf⟩ := rfl
  have mI0 : (⟨double.pinf⟩ * ⟨double.fin 0⟩ : binary64 ℝ) = ⟨double.nan⟩ := by
    show (⟨mulD double.pinf (double.fin 0)⟩ : binary64 ℝ) = _
    simp [mulD, double.isNaN, double.isInf, double.isZero]
  have s0N : (⟨double.fin 0⟩ - ⟨double.nan⟩ : binary64 ℝ) = ⟨double.nan⟩ := rfl
  have m2N : (⟨double.fin 2⟩ * ⟨double.nan⟩ : binary64 ℝ) = ⟨double.nan⟩ := by
    show (⟨mulD (double.fin 2) double.nan⟩ : binary64 ℝ) = _
    simp [mulD, double.isNaN]
  have hn : ¬ (0 + 1 = 0) := by omega
  simp only [lms_coeff, lms_update, lms_error, buf2, if_true, if_neg hn, two_eq,
    mHH, h00, mH0, m0H, a00, m21, sI0, aI0, mIH, m2I, sHI, mI0, s0N, m2N]

/-- The value stored for the coefficient (-∞, NaN) is not-a-number. -/
theorem IFE_overflow_example (atanF : ℝ → ℝ) :
    lms_IFE (atan atanF PI) ⟨double.fin PI⟩
      (⟨⟨double.ninf⟩, ⟨double.nan⟩⟩ : complex (binary64 ℝ)) = ⟨double.nan⟩ := by
  have hq : (⟨double.nan⟩ / ⟨double.ninf⟩ : binary64 ℝ) = ⟨double.nan⟩ := rfl
  have hat : atan atanF PI (⟨double.nan⟩ : binary64 ℝ) = ⟨double.nan⟩ := rfl
  have hlt : ¬ ((⟨double.nan⟩ : binary64 ℝ) < 0) := by
    intro h
    have h2 : double.blt (double.nan : double ℝ) (double.fin 0) = true := h
    simp [double.blt] at h2
  have hd : ∀ b : binary64 ℝ, (⟨double.nan⟩ / b : binary64 ℝ) = ⟨double.nan⟩ := by
    intro b
    show (⟨divD double.nan b.d⟩ : binary64 ℝ) = _
    simp [divD, double.isNaN]
  simp only [lms_IFE, lms_phase, hq, hat, if_neg hlt, hd]

end binary64

/-! ### binary64: the correctly rounded `atan` stays within ±TFSA_PI/2 -/

namespace binary64

theorem half_PI_rep : Rep (PI / 2 : ℝ) := by
  refine ⟨884279719003555, -49, ?_, by norm_num, by norm_num, ?_⟩
  · unfold PI
    rw [zpow_neg]
    norm_num
  · have h1 := PI_pos (β := ℝ)
    have h2 := PI_lt_four (β := ℝ)
    have h3 := four_lt_huge (β := ℝ)
    rw [abs_of_pos (by linarith)]
    linarith

/-- A real in `[0, π/2)` rounds into `[0, PI/2]`: the binary64 number above
`PI/2` is further from π/2 than `PI/2` is. -/
theorem roundNE_lt_half_pi {t : ℝ} (h0 : 0 ≤ t) (h1 : t < Real.pi / 2) :
    0 ≤ roundNE t ∧ roundNE t ≤ PI / 2 := by
  by_cases hc : t ≤ PI / 2
  · exact roundNE_bounds half_PI_rep h0 hc
  · have hgt : PI / 2 < t := not_le.mp hc
    have hpi3 : (3 : ℝ) < PI := by
      unfold PI
      rw [lt_div_iff₀ (by positivity)]
      norm_num
    have hpi4 := Real.pi_lt_four
    have hx : 0 < t := by linarith
    have hexp : expo t = 0 := by
      apply expo_eq 0 (by norm_num)
      · rw [abs_of_pos hx]
        norm_num
        linarith
      · rw [abs_of_pos hx]
        norm_num
        linarith
    have hu : ulp t = 1 / 2 ^ (52 : Nat) := by
      unfold ulp
      rw [hexp]
      have : (0 : Int) - 52 = -52 := by norm_num
      rw [this, zpow_neg, ← zpow_natCast, one_div]
      norm_num
    have hK : (PI / 2 : ℝ) = ((7074237752028440 : Int) : ℝ) * (1 / 2 ^ (52 : Nat)) := by
      unfold PI
      push_cast
      norm_num
    have hclose : Real.pi < PI + 1 / 2 ^ (52 : Nat) := by
      refine lt_of_lt_of_le Real.pi_lt_d20 ?_
      unfold PI
      norm_num
    have hr : roundNE t = PI / 2 := by
      rw [roundNE_of_nonneg h0, hu]
      have h2pos : (0 : ℝ) < 2 ^ (52 : Nat) := by positivity
      have hq : t / (1 / 2 ^ (52 : Nat)) = t * 2 ^ (52 : Nat) := by
        field_simp
      have hlow : ((7074237752028440 : Int) : ℝ) < t * 2 ^ (52 : Nat) := by
        have := mul_lt_mul_of_pos_right hgt h2pos
        rw [hK] at this
        have e : ((7074237752028440 : Int) : ℝ) * (1 / 2 ^ (52 : Nat)) * 2 ^ (52 : Nat)
            = ((7074237752028440 : Int) : ℝ) := by
          field_simp
        rw [e] at this
        exact this
      have hup : t * 2 ^ (52 : Nat) < ((7074237752028440 : Int) : ℝ) + 1 / 2 := by
        have ht : t < PI / 2 + 1 / 2 ^ (53 : Nat) := by
          have e : (1 : ℝ) / 2 ^ (53 : Nat) = (1 / 2 ^ (52 : Nat)) / 2 := by norm_num
          rw [e]
          linarith
        have := mul_lt_mul_of_pos_right ht h2pos
        have e : (PI / 2 + 1 / 2 ^ (53 : Nat)) * 2 ^ (52 : Nat)
            = ((7074237752028440 : Int) : ℝ) + 1 / 2 := by
          rw [hK]
          push_cast
          norm_num
        rw [e] at this
        exact this
      rw [hq, roundEven_near (7074237752028440 : Int) (by linarith) hup]
      exact hK.symm
    rw [hr]
    exact ⟨by linarith, le_refl _⟩

/-- The correctly rounded arctangent lies in `[-PI/2, PI/2]`. -/
theorem atanCR_range (x : ℝ) : -(PI / 2) ≤ atanCR x ∧ atanCR x ≤ PI / 2 := by
  have hpi := PI_pos (β := ℝ)
  unfold atanCR
  by_cases h : 0 ≤ Real.arctan x
  · have hb := roundNE_lt_half_pi h (Real.arctan_lt_pi_div_two x)
    exact ⟨by linarith [hb.1], hb.2⟩
  · have hneg : 0 ≤ -Real.arctan x := by linarith
    have hlt : -Real.arctan x < Real.pi / 2 := by
      linarith [Real.neg_pi_div_two_lt_arctan x]
    have hb := roundNE_lt_half_pi hneg hlt
    rw [roundNE_neg] at hb
    exact ⟨by linarith [hb.2], by linarith [hb.1]⟩

end binary64

/-! ### binary64: an input on which degeneracy persists -/

namespace binary64

end binary64

/-! ### binary64: the range of the stored value -/

/-- Counterexample to C3 as stated, in binary64 with the correctly rounded
`atan`. For the finite input (1,0), (0, 2^-70), mu = 1/4 the updated coefficient
(1/2, -2^-71) is not (0,0) and the value stored at index 1 is exactly 1/2, not
below it; for the finite input (2^700, 0), (0,0), mu = 1 the updated
coefficient (-∞, NaN) is not (0,0) and the value stored is not-a-number. -/
theorem lms_binary64_result_not_below_half :
    (¬ ((lms_coeff (fun n => (⟨buf2 ⟨double.fin 1⟩ ⟨double.fin 0⟩ n,
            buf2 ⟨double.fin 0⟩ ⟨double.fin ((2 : ℝ) ^ (-70 : Int))⟩ n⟩ :
            complex (binary64 ℝ))) ⟨double.fin (1 / 4)⟩ 1).re.d.isZero = true ∧
        (lms_coeff (fun n => (⟨buf2 ⟨double.fin 1⟩ ⟨double.fin 0⟩ n,
            buf2 ⟨double.fin 0⟩ ⟨double.fin ((2 : ℝ) ^ (-70 : Int))⟩ n⟩ :
            complex (binary64 ℝ))) ⟨double.fin (1 / 4)⟩ 1).im.d.isZero = true) ∧
      (lms calloc_zero sigana_id (binary64.atan binary64.atanCR binary64.PI)
          ⟨double.fin binary64.PI⟩ (buf2 ⟨double.fin 1⟩ ⟨double.fin 0⟩)
          (some (buf2 ⟨double.fin 0⟩ ⟨double.fin ((2 : ℝ) ^ (-70 : Int))⟩)) 2
          (fun _ => ⟨double.fin 0⟩) ⟨double.fin (1 / 4)⟩).2 1 = ⟨double.fin (1 / 2)⟩ ∧
      ¬ (((lms calloc_zero sigana_id (binary64.atan binary64.atanCR binary64.PI)
          ⟨double.fin binary64.PI⟩ (buf2 ⟨double.fin 1⟩ ⟨double.fin 0⟩)
          (some (buf2 ⟨double.fin 0⟩ ⟨double.fin ((2 : ℝ) ^ (-70 : Int))⟩)) 2
          (fun _ => ⟨double.fin 0⟩) ⟨double.fin (1 / 4)⟩).2 1).d.val < 1 / 2)) ∧
    (¬ ((lms_coeff (fun n => (⟨buf2 ⟨double.fin ((2 : ℝ) ^ (700 : Int))⟩ ⟨double.fin 0⟩ n,
            buf2 ⟨double.fin 0⟩ ⟨double.fin 0⟩ n⟩ : complex (binary64 ℝ)))
            ⟨double.fin 1⟩ 1).re.d.isZero = true ∧
        (lms_coeff (fun n => (⟨buf2 ⟨double.fin ((2 : ℝ) ^ (700 : Int))⟩ ⟨double.fin 0⟩ n,
            buf2 ⟨double.fin 0⟩ ⟨double.fin 0⟩ n⟩ : complex (binary64 ℝ)))
            ⟨double.fin 1⟩ 1).im.d.isZero = true) ∧
      (lms calloc_zero sigana_id (binary64.atan binary64.atanCR binary64.PI)
          ⟨double.fin binary64.PI⟩ (buf2 ⟨double.fin ((2 : ℝ) ^ (700 : Int))⟩ ⟨double.fin 0⟩)
          (some (buf2 ⟨double.fin 0⟩ ⟨double.fin 0⟩)) 2
          (fun _ => ⟨double.fin 0⟩) ⟨double.fin 1⟩).2 1 = ⟨double.nan⟩ ∧
      ((lms calloc_zero sigana_id (binary64.atan binary64.atanCR binary64.PI)
          ⟨double.fin binary64.PI⟩ (buf2 ⟨double.fin ((2 : ℝ) ^ (700 : Int))⟩ ⟨double.fin 0⟩)
          (some (buf2 ⟨double.fin 0⟩ ⟨double.fin 0⟩)) 2
          (fun _ => ⟨double.fin 0⟩) ⟨double.fin 1⟩).2 1).d.isFin = false) := by
  have rA : (lms calloc_zero sigana_id (binary64.atan binary64.atanCR binary64.PI)
      ⟨double.fin binary64.PI⟩ (buf2 ⟨double.fin 1⟩ ⟨double.fin 0⟩)
      (some (buf2 ⟨double.fin 0⟩ ⟨double.fin ((2 : ℝ) ^ (-70 : Int))⟩)) 2
      (fun _ => ⟨double.fin 0⟩) ⟨double.fin (1 / 4)⟩).2 1 = ⟨double.fin (1 / 2)⟩ := by
    rw [lms_complex_result calloc_zero sigana_id _ _ _ _ 2 _ _ (fun _ => ⟨0, 0⟩) rfl 1
      (by norm_num) (by norm_num), binary64.coeff_half_example]
    exact binary64.IFE_half_example
  have rB : (lms calloc_zero sigana_id (binary64.atan binary64.atanCR binary64.PI)
      ⟨double.fin binary64.PI⟩ (buf2 ⟨double.fin ((2 : ℝ) ^ (700 : Int))⟩ ⟨double.fin 0⟩)
      (some (buf2 ⟨double.fin 0⟩ ⟨double.fin 0⟩)) 2
      (fun _ => ⟨double.fin 0⟩) ⟨double.fin 1⟩).2 1 = ⟨double.nan⟩ := by
    rw [lms_complex_result calloc_zero sigana_id _ _ _ _ 2 _ _ (fun _ => ⟨0, 0⟩) rfl 1
      (by norm_num) (by norm_num), binary64.coeff_overflow_example]
    exact binary64.IFE_overflow_example _
  refine ⟨⟨?_, rA, ?_⟩, ⟨?_, rB, ?_⟩⟩
  · rw [binary64.coeff_half_example]
    intro h
    have h1 := h.1
    simp [double.isZero] at h1
  · rw [rA]
    simp [double.val]
  · rw [binary64.coeff_overflow_example]
    intro h
    have h1 := h.1
    simp [double.isZero] at h1
  · rw [rB]
    rfl

/-- C3 (as amended). In binary64, with a library `atan` whose finite results lie
in `[-TFSA_PI/2, TFSA_PI/2]`: for every input and every index k in 1..N-1 at
which the updated coefficient is finite (neither part infinite or
not-a-number) and not (±0, ±0), the stored value is a finite double r with
`0 ≤ r ≤ 1/2`. -/
theorem lms_binary64_result_range {β : Type} [LinearOrderedField β] [FloorRing β]
    (atanF : β → β)
    (hat : ∀ x, -(binary64.PI / 2) ≤ atanF x ∧ atanF x ≤ binary64.PI / 2)
    (mxCalloc : Int → Option (Nat → complex (binary64 β)))
    (default_sigana : (Nat → complex (binary64 β)) → Int → (Nat → complex (binary64 β)))
    (signal_real signal_imag : Nat → binary64 β) (signal_length : Int)
    (result : Nat → binary64 β) (mu : binary64 β) (sig0 : Nat → complex (binary64 β))
    (halloc : mxCalloc signal_length = some sig0)
    (k : Nat) (h1 : 1 ≤ k) (h2 : (k : Int) ≤ signal_length - 1)
    (hre : (lms_coeff (fun n => ⟨signal_real n, signal_imag n⟩) mu k).re.d.isFin = true)
    (him : (lms_coeff (fun n => ⟨signal_real n, signal_imag n⟩) mu k).im.d.isFin = true)
    (hnd : ¬ ((lms_coeff (fun n => ⟨signal_real n, signal_imag n⟩) mu k).re.d.isZero = true ∧
      (lms_coeff (fun n => ⟨signal_real n, signal_imag n⟩) mu k).im.d.isZero = true)) :
    ((lms mxCalloc default_sigana (binary64.atan atanF binary64.PI) ⟨double.fin binary64.PI⟩
        signal_real (some signal_imag) signal_length result mu).2 k).d.isFin = true ∧
    0 ≤ ((lms mxCalloc default_sigana (binary64.atan atanF binary64.PI)
        ⟨double.fin binary64.PI⟩ signal_real (some signal_imag) signal_length
        result mu).2 k).d.val ∧
    ((lms mxCalloc default_sigana (binary64.atan atanF binary64.PI) ⟨double.fin binary64.PI⟩
        signal_real (some signal_imag) signal_length result mu).2 k).d.val ≤ 1 / 2 := by
  rw [lms_complex_result mxCalloc default_sigana _ _ signal_real signal_imag signal_length
    result mu sig0 halloc k h1 h2]
  exact binary64.IFE_bounds atanF hat _ hre him hnd

/-- Witness for C3 as amended: the input (1,0), (0, 2^-70), mu = 1/4 with the
correctly rounded `atan`; its updated coefficient (1/2, -2^-71) is finite and
not (0,0). -/
theorem lms_binary64_result_range_witness :
    ((lms calloc_zero sigana_id (binary64.atan binary64.atanCR binary64.PI)
        ⟨double.fin binary64.PI⟩ (buf2 ⟨double.fin 1⟩ ⟨double.fin 0⟩)
        (some (buf2 ⟨double.fin 0⟩ ⟨double.fin ((2 : ℝ) ^ (-70 : Int))⟩)) 2
        (fun _ => ⟨double.fin 0⟩) ⟨double.fin (1 / 4)⟩).2 1).d.val ≤ 1 / 2 :=
  (lms_binary64_result_range binary64.atanCR binary64.atanCR_range calloc_zero sigana_id
    (buf2 ⟨double.fin 1⟩ ⟨double.fin 0⟩)
    (buf2 ⟨double.fin 0⟩ ⟨double.fin ((2 : ℝ) ^ (-70 : Int))⟩) 2
    (fun _ => ⟨double.fin 0⟩) ⟨double.fin (1 / 4)⟩ (fun _ => ⟨0, 0⟩) rfl 1
    (by norm_num) (by norm_num)
    (by rw [binary64.coeff_half_example]; rfl)
    (by rw [binary64.coeff_half_example]; rfl)
    (by
      rw [binary64.coeff_half_example]
      intro h
      have h1 := h.1
      simp [double.isZero] at h1)).2.2

/-! ### binary64: the update that follows a zero coefficient -/

namespace binary64

variable {β : Type} [LinearOrderedField β] [FloorRing β]

end binary64

namespace binary64

end binary64

/-! ### binary64: after a degenerate coefficient -/

